import Mathlib

/-!
Price feeder: VWAP, dispersion and the volume accumulator.

A shallow embedding of `oracle/util.go` (`ComputeVWAP`, `StandardDeviation`),
`oracle/types/ticker_price.go` (`TickerPrice`, `NewTickerPrice`) and
`oracle/provider/volume/total.go` (`Total`), together with the part of the
fixed-point decimal type `LegacyDec` these functions call. The conversion to
USD, `convertTickersToUSD`, of which only the tests are at hand, is modelled
from the spec.

Conventions of the embedding:

* a Go function that may panic returns `Except Panic α`;
* a Go `error` result is an `Option GoError` (`none` is the `nil` error);
* a `LegacyDec` is a nullable pointer to a big integer holding the value
  multiplied by `10^18`;
* Go `int` is a 64-bit two's-complement integer: arithmetic on it wraps.
-/

namespace PriceFeeder

/-- Run-time panics the embedded code can raise. -/
inductive Panic where
  | nilPointerDereference
  | divisionByZero
  deriving DecidableEq

/-- A Go `error` value, identified by its message. -/
abbrev GoError := String

/-! ## The decimal type -/

/-- Modelled from the spec: the decimal type `math.LegacyDec` is imported from a
library that is not part of the repository sources. The spec (section 6)
describes it as an arbitrary-precision signed decimal with 18 fractional
digits; it is embedded as a nullable big integer `i` holding the value scaled
by `10^18`, `none` being the unset decimal `LegacyDec{}`. The integer is
unbounded, as the spec says: the library's guard on the bit length of a result
is not part of this model. The operations follow the arithmetic the library is
known for: exact `Add` and `Sub`, `Mul` and `Quo` rounded half to even at the
18th fractional digit, `QuoInt64` truncated, `ApproxSqrt` by Newton iteration;
they reproduce the literal results of `util_test.go`. An operation on an unset
decimal dereferences a nil pointer and panics. -/
structure LegacyDec where
  i : Option Int
  deriving DecidableEq

/-- The scaling factor `10^18` of the 18 fractional digits. -/
def precisionReuse : Int := 1000000000000000000

/-- Half of the scaling factor, the rounding threshold. -/
def fivePrecision : Int := 500000000000000000

/-- The square of the scaling factor, `10^36`. -/
def squaredPrecisionReuse : Int := 1000000000000000000000000000000000000

/-- The bound on the number of Newton steps in `ApproxRoot`. -/
def maxApproxRootIterations : Nat := 300

/-- Rounding of a non-negative scaled product or quotient back to 18
fractional digits: truncated division by `10^18`, then round half to even. -/
def chopPrecisionAndRoundNonneg (d : Int) : Int :=
  let quo := d.tdiv precisionReuse
  let rem := d.tmod precisionReuse
  if rem = 0 then quo
  else if rem < fivePrecision then quo
  else if fivePrecision < rem then quo + 1
  else if quo % 2 = 0 then quo
  else quo + 1

/-- Rounding to 18 fractional digits; a negative number is rounded through its
absolute value, so the rounding is symmetric around zero. -/
def chopPrecisionAndRound (d : Int) : Int :=
  if d < 0 then - chopPrecisionAndRoundNonneg (- d) else chopPrecisionAndRoundNonneg d

/-- Product of two scaled integers, rounded (the arithmetic of `LegacyDec.Mul`). -/
def mulRaw (a b : Int) : Int := chopPrecisionAndRound (a * b)

/-- Quotient of two scaled integers, rounded (the arithmetic of `LegacyDec.Quo`):
the dividend is scaled by `10^36`, divided with truncation, then rounded. -/
def quoRaw (a b : Int) : Int :=
  chopPrecisionAndRound ((a * squaredPrecisionReuse).tdiv b)

namespace LegacyDec

/-- The unset decimal `LegacyDec{}`. -/
def unset : LegacyDec := ⟨none⟩

/-- The decimal with scaled integer `a`. -/
def ofRaw (a : Int) : LegacyDec := ⟨some a⟩

/-- The scaled integer of a decimal (`0` for the unset decimal). -/
def raw (d : LegacyDec) : Int := d.i.getD 0

/-- Method `IsNil`: whether the decimal is unset. -/
def IsNil (d : LegacyDec) : Bool := d.i.isNone

/-- Method `IsNegative`; dereferences the integer. -/
def IsNegative (d : LegacyDec) : Except Panic Bool :=
  match d.i with
  | some a => pure (decide (a < 0))
  | none => throw Panic.nilPointerDereference

/-- Method `IsZero`; dereferences the integer. -/
def IsZero (d : LegacyDec) : Except Panic Bool :=
  match d.i with
  | some a => pure (decide (a = 0))
  | none => throw Panic.nilPointerDereference

/-- Method `Equal`; dereferences both integers. -/
def Equal (d d2 : LegacyDec) : Except Panic Bool :=
  match d.i, d2.i with
  | some a, some b => pure (decide (a = b))
  | _, _ => throw Panic.nilPointerDereference

/-- Method `Add`: exact sum. -/
def Add (d d2 : LegacyDec) : Except Panic LegacyDec :=
  match d.i, d2.i with
  | some a, some b => pure (ofRaw (a + b))
  | _, _ => throw Panic.nilPointerDereference

/-- Method `Sub`: exact difference. -/
def Sub (d d2 : LegacyDec) : Except Panic LegacyDec :=
  match d.i, d2.i with
  | some a, some b => pure (ofRaw (a - b))
  | _, _ => throw Panic.nilPointerDereference

/-- Method `Mul`: product rounded to 18 fractional digits. -/
def Mul (d d2 : LegacyDec) : Except Panic LegacyDec :=
  match d.i, d2.i with
  | some a, some b => pure (ofRaw (mulRaw a b))
  | _, _ => throw Panic.nilPointerDereference

/-- Method `Quo`: quotient rounded to 18 fractional digits; dividing by zero panics. -/
def Quo (d d2 : LegacyDec) : Except Panic LegacyDec :=
  match d.i, d2.i with
  | some a, some b =>
    if b = 0 then throw Panic.divisionByZero else pure (ofRaw (quoRaw a b))
  | _, _ => throw Panic.nilPointerDereference

/-- Method `QuoInt64`: division of the scaled integer by a machine integer, truncated
towards zero; dividing by zero panics. -/
def QuoInt64 (d : LegacyDec) (n : Int) : Except Panic LegacyDec :=
  match d.i with
  | some a => if n = 0 then throw Panic.divisionByZero else pure (ofRaw (a.tdiv n))
  | none => throw Panic.nilPointerDereference

end LegacyDec

/-- Function `LegacyZeroDec()`: the decimal 0. -/
def LegacyZeroDec : LegacyDec := LegacyDec.ofRaw 0

/-- Function `LegacyOneDec()`: the decimal 1. -/
def LegacyOneDec : LegacyDec := LegacyDec.ofRaw precisionReuse

/-- Function `LegacySmallestDec()`: the decimal `10^-18`. -/
def LegacySmallestDec : LegacyDec := LegacyDec.ofRaw 1

/-- Function `LegacyNewDec(i)`: the decimal of a machine integer. -/
def LegacyNewDec (n : Int) : LegacyDec := LegacyDec.ofRaw (n * precisionReuse)

/-! ## Tickers -/

/-- A `time.Time` instant. -/
structure GoTime where
  unixNano : Int
  deriving DecidableEq

/-- Type `types.TickerPrice`: price and volume information for a ticker. -/
structure TickerPrice where
  Price : LegacyDec
  Volume : LegacyDec
  Time : GoTime
  deriving DecidableEq

/-! ## `oracle/util.go` -/

/-- Function `ComputeVWAP`: the volume weighted average price of the tickers. If the
volumes sum to zero every volume is taken as 1. -/
def ComputeVWAP (tickers : List TickerPrice) : Except Panic (LegacyDec × Option GoError) :=
  if tickers.length = 0 then
    pure (LegacyDec.unset, some "no tickers supplied")
  else do
    let volumeSum ← tickers.foldlM (fun acc tp => acc.Add tp.Volume) LegacyZeroDec
    let weightedPrice ← tickers.foldlM
      (fun acc tp => do
        let allZero ← volumeSum.Equal LegacyZeroDec
        let volume := if allZero then LegacyNewDec 1 else tp.Volume
        let product ← tp.Price.Mul volume
        acc.Add product)
      LegacyZeroDec
    let allZero ← volumeSum.Equal LegacyZeroDec
    let volumeSum := if allZero then LegacyNewDec (tickers.length : Int) else volumeSum
    let vwap ← weightedPrice.Quo volumeSum
    pure (vwap, none)

/-! ### Square root -/

/-- The loop of `PowerMut`: square-and-multiply over the binary digits of the
exponent `i`, at most 64 of them for an unsigned 64-bit exponent. -/
def powerLoop : Nat → Nat → Int → Int → Int × Int
  | 0, _, d, tmp => (d, tmp)
  | fuel + 1, i, d, tmp =>
    if 1 < i then
      powerLoop fuel (i / 2) (mulRaw d d) (if i % 2 ≠ 0 then mulRaw tmp d else tmp)
    else (d, tmp)

/-- The arithmetic of `LegacyDec.Power` on scaled integers. -/
def powerRaw (d : Int) (power : Nat) : Int :=
  if power = 0 then precisionReuse
  else
    let r := powerLoop 64 power d precisionReuse
    mulRaw r.1 r.2

/-- The Newton iteration of `ApproxRoot` on scaled integers: it runs while the
iteration bound is not exhausted and the last step `delta` is larger in
absolute value than the smallest decimal. -/
def approxRootLoop (d : Int) (root : Nat) : Nat → Int → Int → Int
  | 0, guess, _ => guess
  | fuel + 1, guess, delta =>
    if 1 < delta.natAbs then
      let prev := powerRaw guess (root - 1)
      let prev := if prev = 0 then 1 else prev
      let delta := quoRaw d prev
      let delta := delta - guess
      let delta := delta.tdiv (root : Int)
      approxRootLoop d root fuel (guess + delta) delta
    else guess

/-- The arithmetic of `ApproxRoot` on a non-negative scaled integer. -/
def approxRootNonneg (d : Int) (root : Nat) : Int :=
  if root = 1 ∨ d = 0 ∨ d = precisionReuse then d
  else if root = 0 then precisionReuse
  else approxRootLoop d root maxApproxRootIterations precisionReuse precisionReuse

/-- The arithmetic of `ApproxRoot` on a scaled integer: a negative number is
handled through its negation. -/
def approxRootRaw (d : Int) (root : Nat) : Int :=
  if d < 0 then - approxRootNonneg (- d) root else approxRootNonneg d root

namespace LegacyDec

/-- Method `ApproxRoot`: approximate `root`-th root by Newton iteration from the guess
1. A negative decimal is handled through its negation. The function recovers
from panics and reports them as an error, so it always returns; on the unset
decimal the dereference fails at once and the result is the unset decimal with
an error. -/
def ApproxRoot (d : LegacyDec) (root : Nat) : LegacyDec × Option GoError :=
  match d.i with
  | none => (unset, some "runtime error: invalid memory address or nil pointer dereference")
  | some a => (ofRaw (approxRootRaw a root), none)

/-- Method `ApproxSqrt`: the approximate square root. -/
def ApproxSqrt (d : LegacyDec) : LegacyDec × Option GoError := d.ApproxRoot 2

end LegacyDec

/-- Function `StandardDeviation`: standard deviation and mean of the prices; fails when
there are fewer than 3 prices. The result is `(deviation, mean, err)`. -/
def StandardDeviation (prices : List LegacyDec) :
    Except Panic (LegacyDec × LegacyDec × Option GoError) :=
  if prices.length < 3 then
    pure (LegacyDec.unset, LegacyDec.unset, some "not enough values to calculate deviation")
  else do
    let sum ← prices.foldlM (fun acc price => acc.Add price) LegacyZeroDec
    let numPrices : Int := (prices.length : Int)
    let mean ← sum.QuoInt64 numPrices
    let varianceSum ← prices.foldlM
      (fun acc price => do
        let deviation ← price.Sub mean
        let square ← deviation.Mul deviation
        acc.Add square)
      LegacyZeroDec
    let variance ← varianceSum.QuoInt64 numPrices
    let r := variance.ApproxSqrt
    if r.2.isSome then
      pure (LegacyDec.unset, LegacyDec.unset, r.2)
    else
      pure (r.1, mean, none)

/-! ## `oracle/provider/volume/total.go` -/

/-- Wrap-around of Go `int` arithmetic (64-bit two's complement). -/
def wrapInt (x : Int) : Int :=
  (x + 9223372036854775808) % 18446744073709551616 - 9223372036854775808

/-- Whether an integer is a value of Go `int`. -/
def isInt (x : Int) : Prop := -9223372036854775808 ≤ x ∧ x < 9223372036854775808

set_option linter.dupNamespace false in
/-- Type `volume.Total`: running total, number of values and first height. `Values`
is a Go `int`, `First` a `uint64`. -/
structure Total where
  Total : LegacyDec
  Values : Int
  First : Nat
  deriving DecidableEq

/-- Function `NewTotal()`; the field `First` is left at its zero value. -/
def NewTotal : Total :=
  { Total := LegacyZeroDec, Values := 0, First := 0 }

namespace Total

/-- Method `Clear`: reset all fields. -/
def Clear (t : PriceFeeder.Total) : PriceFeeder.Total :=
  { t with Total := LegacyZeroDec, Values := 0, First := 0 }

/-- Method `Sub`: take a value out of the total. -/
def Sub (t : PriceFeeder.Total) (value : LegacyDec) : Except Panic PriceFeeder.Total :=
  if value.IsNil then pure t
  else do
    let negative ← value.IsNegative
    if negative then pure t
    else do
      let total ← t.Total.Sub value
      pure { t with Total := total, Values := wrapInt (t.Values - 1) }

/-- Method `Add`: add a value observed at `height` to the total. -/
def Add (t : PriceFeeder.Total) (value : LegacyDec) (height : Nat) :
    Except Panic PriceFeeder.Total :=
  if value.IsNil then pure t
  else do
    let negative ← value.IsNegative
    if negative then pure t
    else do
      let total ← t.Total.Add value
      let values := wrapInt (t.Values + 1)
      let first := if height < t.First ∨ t.First = 0 then height else t.First
      pure { Total := total, Values := values, First := first }

end Total


/-! ## Auxiliary definitions for the statements -/

/-- The scaled volume a ticker contributes to the volume sum, when it is set. -/
def volumeTerm (tp : TickerPrice) : Option Int := tp.Volume.i

/-- The scaled product a ticker contributes to the weighted price, when its
operands are set; `useOne` tells that the weight 1 replaces the volume. -/
def priceTerm (useOne : Bool) (tp : TickerPrice) : Option Int :=
  match tp.Price.i, (if useOne then LegacyNewDec 1 else tp.Volume).i with
  | some p, some v => some (mulRaw p v)
  | _, _ => none

/-- The scaled square a price contributes to the variance sum, when it is set. -/
def squareTerm (mean : Int) (price : LegacyDec) : Option Int :=
  price.i.map (fun p => mulRaw (p - mean) (p - mean))

/-- Whether every price and volume of a ticker list is set. -/
def tickersSet (tickers : List TickerPrice) : Prop :=
  ∀ tp ∈ tickers, tp.Price.IsNil = false ∧ tp.Volume.IsNil = false

/-- Whether every decimal of a list is set. -/
def pricesSet (prices : List LegacyDec) : Prop :=
  ∀ price ∈ prices, price.IsNil = false

/-- The scaled mean of a list of prices: the exact sum divided by the number of
prices, truncated. -/
def meanOf (prices : List LegacyDec) : Int :=
  ((prices.map (fun (price : LegacyDec) => price.raw)).sum).tdiv (prices.length : Int)

/-- The scaled population variance of a list of prices: the exact sum of the
rounded squares of the deviations from the mean, divided by the number of
prices, truncated. -/
def varianceOf (prices : List LegacyDec) : Int :=
  ((prices.map (fun (price : LegacyDec) =>
    mulRaw (price.raw - meanOf prices) (price.raw - meanOf prices))).sum).tdiv (prices.length : Int)

/-- Sum of the scaled volumes of a ticker list. -/
def volumeTotal (tickers : List TickerPrice) : Int :=
  (tickers.map (fun tp => tp.Volume.raw)).sum

/-- Sum of the scaled prices of a ticker list. -/
def priceTotal (tickers : List TickerPrice) : Int :=
  (tickers.map (fun tp => tp.Price.raw)).sum

/-- Sum of the rounded products price times volume of a ticker list. -/
def weightedTotal (tickers : List TickerPrice) : Int :=
  (tickers.map (fun tp => mulRaw tp.Price.raw tp.Volume.raw)).sum

instance (tickers : List TickerPrice) : Decidable (tickersSet tickers) := by
  unfold tickersSet; infer_instance

instance (prices : List LegacyDec) : Decidable (pricesSet prices) := by
  unfold pricesSet; infer_instance

instance (x : Int) : Decidable (isInt x) := by
  unfold isInt; infer_instance

/-- A sequence of `Add` calls, each with its value and height, applied in order
to an accumulator. -/
def Total.AddAll (t : PriceFeeder.Total) (calls : List (LegacyDec × Nat)) :
    Except Panic PriceFeeder.Total :=
  calls.foldlM (fun acc call => acc.Add call.1 call.2) t

/-- Whether every call of a sequence carries a set, non-negative value. -/
def callsAccepted (calls : List (LegacyDec × Nat)) : Prop :=
  ∀ call ∈ calls, ∃ v : Int, call.1 = LegacyDec.ofRaw v ∧ 0 ≤ v

/-- The value of `First` after `Add` calls at the given heights, starting from
the value `first`: the update of `Total.Add`, height by height. -/
def firstAfter (first : Nat) (heights : List Nat) : Nat :=
  heights.foldl (fun f height => if f = 0 ∨ height < f then height else f) first

/-! ## Parsing decimals and `oracle/types/ticker_price.go` -/

/-- The value of a decimal digit character. -/
def digitValue (c : Char) : Option Nat :=
  if 48 ≤ c.toNat ∧ c.toNat ≤ 57 then some (c.toNat - 48) else none

/-- Reading a run of decimal digits into a number; any other character makes
the reading fail. -/
def parseDigits : List Char → Nat → Option Nat
  | [], acc => some acc
  | c :: cs, acc =>
    match digitValue c with
    | some d => parseDigits cs (10 * acc + d)
    | none => none

/-- The arithmetic of `big.Int.SetString` in base 10: an optional sign followed
by at least one digit and nothing else. -/
def setString (s : List Char) : Option Int :=
  match s with
  | [] => none
  | c :: cs =>
    if c = '-' then
      if cs = [] then none else (parseDigits cs 0).map (fun (n : Nat) => - Int.ofNat n)
    else if c = '+' then
      if cs = [] then none else (parseDigits cs 0).map Int.ofNat
    else (parseDigits (c :: cs) 0).map Int.ofNat

/-- The pieces of a string between its dots, as `strings.Split(str, ".")`. -/
def splitOnDot : List Char → List (List Char)
  | [] => [[]]
  | c :: cs =>
    if c = '.' then [] :: splitOnDot cs
    else
      match splitOnDot cs with
      | [] => [[c]]
      | part :: parts => (c :: part) :: parts

/-- The scaled integer `LegacyNewDecFromStr` reads from a string, `none` when
the string is rejected: a leading minus sign is taken off, the rest must be
non-empty with at most one dot, an integer part and, after a dot, one to 18
fractional digits; the digits are padded to 18 fractional digits and read as
an integer. -/
def parseDecimal (str : List Char) : Option Int :=
  let neg := decide (str.head? = some '-')
  let str := if neg then str.tail else str
  if str = [] then none
  else
    match splitOnDot str with
    | [combined] =>
      (setString (combined ++ List.replicate 18 '0')).map
        (fun (combined : Int) => if neg then - combined else combined)
    | [combined, decs] =>
      if decs.length = 0 ∨ combined.length = 0 then none
      else if 18 < decs.length then none
      else
        (setString (combined ++ decs ++ List.replicate (18 - decs.length) '0')).map
          (fun (combined : Int) => if neg then - combined else combined)
    | _ => none

/-- Modelled from the spec: the parser `math.LegacyNewDecFromStr` belongs to the
decimal library, which is not part of the repository sources. It returns the
decimal a string denotes, or the unset decimal and an error for a malformed
string (spec section 7). The accepted strings are those of the library; the
text of the error and the library's guard on the bit length are not modelled. -/
def LegacyNewDecFromStr (str : String) : LegacyDec × Option GoError :=
  match parseDecimal str.toList with
  | some a => (LegacyDec.ofRaw a, none)
  | none => (LegacyDec.unset, some "invalid decimal string")

/-- The zero value `time.Time{}`. -/
def GoTime.zero : GoTime := ⟨0⟩

/-- The zero value `TickerPrice{}`: unset price and volume, zero time. -/
def TickerPrice.zero : TickerPrice := ⟨LegacyDec.unset, LegacyDec.unset, GoTime.zero⟩

/-- Function `NewTickerPrice`: parse price and volume, in this order, and build the
ticker; the first parse error is returned with the zero ticker. -/
def NewTickerPrice (price : String) (volume : String) (timestamp : GoTime) :
    TickerPrice × Option GoError :=
  let r := LegacyNewDecFromStr price
  match r.2 with
  | some err => (TickerPrice.zero, some ("failed to convert ticker price: " ++ err))
  | none =>
    let r2 := LegacyNewDecFromStr volume
    match r2.2 with
    | some err => (TickerPrice.zero, some ("failed to convert ticker volume: " ++ err))
    | none => ({ Price := r.1, Volume := r2.1, Time := timestamp }, none)

/-- The dividend of the final `Quo` of `ComputeVWAP`: the sum of the prices when
the volumes sum to zero, the sum of the rounded products otherwise. -/
def vwapNumerator (tickers : List TickerPrice) : Int :=
  if volumeTotal tickers = 0 then priceTotal tickers else weightedTotal tickers

/-- The divisor of the final `Quo` of `ComputeVWAP`: the number of tickers when
the volumes sum to zero, the sum of the volumes otherwise. -/
def vwapDivisor (tickers : List TickerPrice) : Int :=
  if volumeTotal tickers = 0 then (tickers.length : Int) * precisionReuse
  else volumeTotal tickers

/-- Three tickers with prices 10, 20, 30 and volume 0. -/
def zeroVolumeTickers : List TickerPrice :=
  [⟨LegacyDec.ofRaw 10000000000000000000, LegacyDec.ofRaw 0, ⟨0⟩⟩,
   ⟨LegacyDec.ofRaw 20000000000000000000, LegacyDec.ofRaw 0, ⟨0⟩⟩,
   ⟨LegacyDec.ofRaw 30000000000000000000, LegacyDec.ofRaw 0, ⟨0⟩⟩]

/-! ## Conversion to USD and aggregation

The function `convertTickersToUSD` and the types `CurrencyPair` and
`AggregatedProviderPrices` are used by `convert_test.go` and `oracle_test.go`
but their source files are not among the repository sources at hand. They are
modelled from sections 3, 4.2 and 4.3 of the spec. The two values the spec
leaves open, the default minimum number of candidates and the multiple of the
standard deviation that bounds the dispersion band, are parameters. Where the
spec leaves a choice open, the model takes the one that the tests of
`convert_test.go` and `oracle_test.go` require: quotes are matched to configured
pairs by the key of the pair, whichever source files them, and the USD price of
a quote symbol is the volume-weighted average of its dispersion-filtered
candidates. -/

/-- Modelled from the spec: the type `types.CurrencyPair` (section 3), a base and
a quote symbol; its source file is missing. -/
structure CurrencyPair where
  Base : String
  Quote : String
  deriving DecidableEq

/-- Modelled from the spec: the canonical `BASEQUOTE` string of a pair
(section 3), the lookup key of a quote table; `CurrencyPair.String` is
missing. -/
def pairKey (pair : CurrencyPair) : String := pair.Base ++ pair.Quote

/-- Modelled from the spec: the unit of account of section 4.2. -/
def DenomUSD : String := "USD"

/-- Modelled from the spec: a candidate price of section 4.2, a price and a
volume in USD terms with the identity of the source. -/
structure CandidatePrice where
  price : LegacyDec
  volume : LegacyDec
  source : String
  deriving DecidableEq

/-- Modelled from the spec: an edge of the conversion graph (section 4.2, step
1), a configured pair with a quote that a source returned for it. -/
structure Edge where
  source : String
  pair : CurrencyPair
  ticker : TickerPrice
  deriving DecidableEq

/-- Modelled from the spec: the configured pairs of all sources (section 4.2,
step 1). -/
def configuredPairs (providerPairs : List (String × List CurrencyPair)) : List CurrencyPair :=
  providerPairs.flatMap (fun sourcePairs => sourcePairs.2)

/-- Modelled from the spec: the edges of this tick (section 4.2, step 1). Every
quote that a source returned under the key of a configured pair is an edge,
whichever source the pair is configured for: `TestConvertTickersToUsdChaining`
files the USDT/USD and OSMO/USD quotes under Kraken, configures these pairs for
Coinbase and requires the quotes to be used. A quote with an unset price or
volume is skipped (step 5). -/
def observedEdges (quotes : List (String × List (String × TickerPrice)))
    (providerPairs : List (String × List CurrencyPair)) : List Edge :=
  quotes.flatMap (fun table =>
    table.2.filterMap (fun quote =>
      match (configuredPairs providerPairs).find? (fun pair => pairKey pair = quote.1) with
      | none => none
      | some pair =>
        if quote.2.Price.IsNil || quote.2.Volume.IsNil then none
        else some { source := table.1, pair := pair, ticker := quote.2 }))

/-- Modelled from the spec: the candidates resolved so far for one symbol, as
tickers. -/
def candidateTickers (symbol : String) (resolved : List (String × CandidatePrice)) :
    List TickerPrice :=
  resolved.filterMap (fun entry =>
    if entry.1 = symbol then
      some { Price := entry.2.price, Volume := entry.2.volume, Time := GoTime.zero }
    else none)

/-- Modelled from the spec: the reduction of candidates to one price by
volume-weighted averaging (section 4.3, step 3), `none` when there is no
candidate. -/
def priceOfCandidates (tickers : List TickerPrice) : Option LegacyDec :=
  match ComputeVWAP tickers with
  | Except.ok (price, none) => some price
  | _ => none

/-- Modelled from the spec: whether a price lies in the dispersion band around
the mean (section 4.3, step 2), the band reaching `threshold` times the
standard deviation to either side. -/
def withinBand (threshold deviation mean price : LegacyDec) : Bool :=
  decide (mean.raw - mulRaw deviation.raw threshold.raw ≤ price.raw ∧
    price.raw ≤ mean.raw + mulRaw deviation.raw threshold.raw)

/-- Modelled from the spec: the dispersion filter of section 4.3, step 2. With
at least three candidates those outside the band are discarded; with fewer all
are kept. -/
def filterDeviations (threshold : LegacyDec) (tickers : List TickerPrice) : List TickerPrice :=
  if tickers.length < 3 then tickers
  else
    match StandardDeviation (tickers.map (fun tp => tp.Price)) with
    | Except.ok (deviation, mean, none) =>
      tickers.filter (fun tp => withinBand threshold deviation mean tp.Price)
    | _ => tickers

/-- Modelled from the spec: the USD price of a quote symbol in this tick (section
4.2, step 3), from the candidates resolved so far for it, `none` when there is
none. The spec does not say how several candidates are reduced to one price;
the model reduces them as the aggregator reduces the candidates of an asset, by
the dispersion filter and the volume-weighted average, which is what
`TestGetComputedPricesTickersConversion` requires: the abnormal ETH/USD quote
of that test does not enter the price of BTC. -/
def quoteRate (threshold : LegacyDec) (resolved : List (String × CandidatePrice))
    (symbol : String) : Option LegacyDec :=
  priceOfCandidates (filterDeviations threshold (candidateTickers symbol resolved))

/-- Modelled from the spec: the cached USD price of a quote symbol (section 4.2,
step 3), `none` when the fallback rates have no set entry for it. -/
def fallbackRate (fallbackRates : List (String × LegacyDec)) (symbol : String) :
    Option LegacyDec :=
  match fallbackRates.lookup symbol with
  | some rate => if rate.IsNil then none else some rate
  | none => none

/-- Modelled from the spec: the candidate of an edge whose quote is USD (section
4.2, step 2): the observed price and volume. -/
def directCandidate (e : Edge) : String × CandidatePrice :=
  (e.pair.Base, { price := e.ticker.Price, volume := e.ticker.Volume, source := e.source })

/-- Modelled from the spec: the candidate of an edge whose quote has the USD
price `rate` (section 4.2, step 4): the observed price times the rate, with the
observed volume unchanged. -/
def convertedCandidate (rate : LegacyDec) (e : Edge) : Option (String × CandidatePrice) :=
  match e.ticker.Price.Mul rate with
  | Except.ok price =>
    some (e.pair.Base, { price := price, volume := e.ticker.Volume, source := e.source })
  | Except.error _ => none

/-- Modelled from the spec: one pass over the pending edges with the USD prices
`rateOf` of the quote symbols (section 4.2, steps 3 to 5): every edge whose
quote has a USD price becomes a candidate, the others stay pending. -/
def convertWith (rateOf : String → Option LegacyDec)
    (resolved : List (String × CandidatePrice)) (pending : List Edge) :
    List (String × CandidatePrice) × List Edge :=
  (resolved ++ pending.filterMap (fun e =>
      (rateOf e.pair.Quote).bind (fun rate => convertedCandidate rate e)),
   pending.filter (fun e => (rateOf e.pair.Quote).isNone))

/-- Modelled from the spec: one pass of the resolver (section 4.2, step 3). The
USD price of a quote comes from the candidates resolved so far in this tick;
the cached rates are used only in a pass in which no pending edge has such a
price for its quote, so that a quote that resolves in the tick is never priced
from the cache while the chain to it is still being followed. -/
def resolveStep (threshold : LegacyDec) (fallbackRates : List (String × LegacyDec))
    (resolved : List (String × CandidatePrice)) (pending : List Edge) :
    List (String × CandidatePrice) × List Edge :=
  if pending.any (fun e => (quoteRate threshold resolved e.pair.Quote).isSome) then
    convertWith (quoteRate threshold resolved) resolved pending
  else convertWith (fallbackRate fallbackRates) resolved pending

/-- Modelled from the spec: the candidates and the pending edges after a number
of passes (section 4.2, step 5). -/
def resolvePasses (threshold : LegacyDec) (fallbackRates : List (String × LegacyDec)) :
    Nat → List (String × CandidatePrice) × List Edge →
      List (String × CandidatePrice) × List Edge
  | 0, state => state
  | passes + 1, state =>
    match resolvePasses threshold fallbackRates passes state with
    | (resolved, pending) => resolveStep threshold fallbackRates resolved pending

/-- Modelled from the spec: the start of the resolver (section 4.2, step 2): the
edges against USD are candidates at once, the other edges are pending. -/
def resolveStart (quotes : List (String × List (String × TickerPrice)))
    (providerPairs : List (String × List CurrencyPair)) :
    List (String × CandidatePrice) × List Edge :=
  (((observedEdges quotes providerPairs).filter
      (fun e => e.pair.Quote = DenomUSD)).map directCandidate,
   (observedEdges quotes providerPairs).filter (fun e => e.pair.Quote ≠ DenomUSD))

/-- Modelled from the spec: the candidates and the pending edges of a tick after
a number of passes. -/
def resolveState (threshold : LegacyDec) (quotes : List (String × List (String × TickerPrice)))
    (providerPairs : List (String × List CurrencyPair))
    (fallbackRates : List (String × LegacyDec)) (passes : Nat) :
    List (String × CandidatePrice) × List Edge :=
  resolvePasses threshold fallbackRates passes (resolveStart quotes providerPairs)

/-- Modelled from the spec: the conversion graph resolver `Resolve` of section
4.2: all USD candidates of this tick, each with the symbol it prices. There is
one pass per pending edge, so that chains of any depth are followed and nothing
is retried for ever (step 5); what is still pending at the end is dropped. -/
def Resolve (threshold : LegacyDec) (quotes : List (String × List (String × TickerPrice)))
    (providerPairs : List (String × List CurrencyPair))
    (fallbackRates : List (String × LegacyDec)) : List (String × CandidatePrice) :=
  (resolveState threshold quotes providerPairs fallbackRates
    (resolveStart quotes providerPairs).2.length).1

/-- Modelled from the spec: the USD price `rate` that the pass after `state`
uses for the quote of the pending edge `e` (section 4.2, step 3): the
volume-weighted average of the dispersion-filtered candidates resolved so far
for the quote, or, in a pass in which no pending edge has such a price for its
quote, the set cached rate of the quote. -/
def rateUsed (threshold : LegacyDec) (fallbackRates : List (String × LegacyDec))
    (state : List (String × CandidatePrice) × List Edge) (e : Edge) (rate : LegacyDec) : Prop :=
  ComputeVWAP (filterDeviations threshold (candidateTickers e.pair.Quote state.1)) =
      Except.ok (rate, none) ∨
  ((∀ e2 ∈ state.2, quoteRate threshold state.1 e2.pair.Quote = none) ∧
    fallbackRates.lookup e.pair.Quote = some rate ∧ rate.IsNil = false)

/-- Modelled from the spec: the required minimum number of candidates of a
symbol (section 4.3, step 1): the override if present, else the default. -/
def requiredMinimum (defaultMin : Int) (providerMinOverrides : List (String × Int))
    (symbol : String) : Int :=
  (providerMinOverrides.lookup symbol).getD defaultMin

/-- Modelled from the spec: the price of one asset (section 4.3, steps 1 to 4):
none below the required minimum of candidates, else the volume-weighted
average of the candidates that pass the dispersion filter. -/
def aggregateAsset (defaultMin : Int) (threshold : LegacyDec)
    (providerMinOverrides : List (String × Int)) (symbol : String)
    (tickers : List TickerPrice) : Option LegacyDec :=
  if (tickers.length : Int) < requiredMinimum defaultMin providerMinOverrides symbol then none
  else priceOfCandidates (filterDeviations threshold tickers)

/-- Modelled from the spec: the symbols of a list of candidates, each once. -/
def symbolsOf : List (String × CandidatePrice) → List String
  | [] => []
  | entry :: rest =>
    if entry.1 ∈ symbolsOf rest then symbolsOf rest else entry.1 :: symbolsOf rest

/-- Modelled from the spec: the function `convertTickersToUSD`, whose source file
is missing: the resolver of section 4.2 followed by the aggregator of section
4.3. The result maps each asset with a qualifying price to that price; no
condition of the two sections is an error. -/
def convertTickersToUSD (defaultMin : Int) (threshold : LegacyDec)
    (providerPrices : List (String × List (String × TickerPrice)))
    (providerPairs : List (String × List CurrencyPair))
    (fallbackRates : List (String × LegacyDec))
    (providerMinOverrides : List (String × Int)) :
    List (String × LegacyDec) × Option GoError :=
  let resolved := Resolve threshold providerPrices providerPairs fallbackRates
  ((symbolsOf resolved).filterMap (fun symbol =>
      (aggregateAsset defaultMin threshold providerMinOverrides symbol
        (candidateTickers symbol resolved)).map (fun price => (symbol, price))),
   none)

/-! ### Fixtures of `convert_test.go` -/

/-- A ticker from the scaled integers of its price and volume. -/
def tickerOf (price volume : Int) : TickerPrice :=
  { Price := LegacyDec.ofRaw price, Volume := LegacyDec.ofRaw volume, Time := GoTime.zero }

/-- The quotes of the outlier fixture: BTC/USDT at 30000, 30010, 30020, 30450
with volumes 10, 10, 100, 10000 from four sources, and USDT/USD at 1. -/
def filteringPrices : List (String × List (String × TickerPrice)) :=
  [("kraken", [("BTCUSDT", tickerOf 30000000000000000000000 10000000000000000000)]),
   ("binance", [("BTCUSDT", tickerOf 30010000000000000000000 10000000000000000000)]),
   ("kucoin", [("BTCUSDT", tickerOf 30020000000000000000000 100000000000000000000)]),
   ("coinbase", [("BTCUSDT", tickerOf 30450000000000000000000 10000000000000000000000),
     ("USDTUSD", tickerOf 1000000000000000000 10000000000000000000000)])]

/-- The configured pairs of the outlier fixture. -/
def filteringPairs : List (String × List CurrencyPair) :=
  [("kraken", [⟨"BTC", "USDT"⟩]), ("binance", [⟨"BTC", "USDT"⟩]), ("kucoin", [⟨"BTC", "USDT"⟩]),
   ("coinbase", [⟨"BTC", "USDT"⟩, ⟨"USDT", "USD"⟩])]

/-- The four BTC tickers of the outlier fixture, in USD. -/
def filteringTickers : List TickerPrice :=
  [tickerOf 30000000000000000000000 10000000000000000000,
   tickerOf 30010000000000000000000 10000000000000000000,
   tickerOf 30020000000000000000000 100000000000000000000,
   tickerOf 30450000000000000000000 10000000000000000000000]

/-- The quotes of the chaining fixture, as `TestConvertTickersToUsdChaining`
builds them: STATOM/ATOM and STOSMO/OSMO at 1.1 from Osmosis, ATOM/USDT at 10
from Binance, USDT/USD at 0.999 and OSMO/USD at 0.8 filed under Kraken, each
with volume 1. -/
def chainingPrices : List (String × List (String × TickerPrice)) :=
  [("osmosis", [("STATOMATOM", tickerOf 1100000000000000000 1000000000000000000),
     ("STOSMOOSMO", tickerOf 1100000000000000000 1000000000000000000)]),
   ("binance", [("ATOMUSDT", tickerOf 10000000000000000000 1000000000000000000)]),
   ("kraken", [("USDTUSD", tickerOf 999000000000000000 1000000000000000000),
     ("OSMOUSD", tickerOf 800000000000000000 1000000000000000000)])]

/-- The configured pairs of the chaining fixture, as the test configures them:
USDT/USD and OSMO/USD for Coinbase. -/
def chainingPairs : List (String × List CurrencyPair) :=
  [("osmosis", [⟨"STATOM", "ATOM"⟩, ⟨"STOSMO", "OSMO"⟩]),
   ("binance", [⟨"ATOM", "USDT"⟩]),
   ("coinbase", [⟨"USDT", "USD"⟩, ⟨"OSMO", "USD"⟩])]

/-- The minimum-source overrides of the chaining fixture, all 1. -/
def chainingOverrides : List (String × Int) :=
  [("STATOM", 1), ("STOSMO", 1), ("USDT", 1), ("OSMO", 1), ("ATOM", 1)]

/-- The candidates of the chaining fixture that are quoted against USD: USDT at
0.999 and OSMO at 0.8. -/
def chainingDirect : List (String × CandidatePrice) :=
  [("USDT", ⟨LegacyDec.ofRaw 999000000000000000, LegacyDec.ofRaw 1000000000000000000, "kraken"⟩),
   ("OSMO", ⟨LegacyDec.ofRaw 800000000000000000, LegacyDec.ofRaw 1000000000000000000, "kraken"⟩)]

/-- The edges of the chaining fixture that are not quoted against USD. -/
def chainingPending : List Edge :=
  [⟨"osmosis", ⟨"STATOM", "ATOM"⟩, tickerOf 1100000000000000000 1000000000000000000⟩,
   ⟨"osmosis", ⟨"STOSMO", "OSMO"⟩, tickerOf 1100000000000000000 1000000000000000000⟩,
   ⟨"binance", ⟨"ATOM", "USDT"⟩, tickerOf 10000000000000000000 1000000000000000000⟩]

/-- The candidates of the chaining fixture after the first pass: STOSMO at 0.88
and ATOM at 9.99 are added. -/
def chainingFirstPass : List (String × CandidatePrice) :=
  chainingDirect ++
  [("STOSMO", ⟨LegacyDec.ofRaw 880000000000000000, LegacyDec.ofRaw 1000000000000000000,
     "osmosis"⟩),
   ("ATOM", ⟨LegacyDec.ofRaw 9990000000000000000, LegacyDec.ofRaw 1000000000000000000,
     "binance"⟩)]

/-- All candidates of the chaining fixture: the second pass adds STATOM at
10.989. -/
def chainingCandidates : List (String × CandidatePrice) :=
  chainingFirstPass ++
  [("STATOM", ⟨LegacyDec.ofRaw 10989000000000000000, LegacyDec.ofRaw 1000000000000000000,
     "osmosis"⟩)]

/-- The quotes of `TestConvertTickersToUsdVwap`: ETH/BTC at 0.066 and BTC/USDT
at 30000 from Binance, BTC/USD at 30050 and USDT/USD at 0.999 from Coinbase. -/
def vwapPrices : List (String × List (String × TickerPrice)) :=
  [("binance", [("ETHBTC", tickerOf 66000000000000000 100000000000000000000),
     ("BTCUSDT", tickerOf 30000000000000000000000 55000000000000000000)]),
   ("coinbase", [("BTCUSD", tickerOf 30050000000000000000000 45000000000000000000),
     ("USDTUSD", tickerOf 999000000000000000 100000000000000000000000)])]

/-- The configured pairs of `TestConvertTickersToUsdVwap`. -/
def vwapPairs : List (String × List CurrencyPair) :=
  [("binance", [⟨"ETH", "BTC"⟩, ⟨"BTC", "USDT"⟩]),
   ("coinbase", [⟨"BTC", "USD"⟩, ⟨"USDT", "USD"⟩])]

/-- The quotes of `TestGetComputedPricesTickersConversion`: BTC/ETH at 72.55 and
ETH/USD at 9989.02 from Binance, ETH/USD at 9989.02 from Gate, the abnormal
ETH/USD at 1 from Okx and BTC/USD at 724603.401 from Kraken, each with volume
881272. -/
def conversionPrices : List (String × List (String × TickerPrice)) :=
  [("binance", [("BTCETH", tickerOf 72550000000000000000 881272000000000000000000),
     ("ETHUSD", tickerOf 9989020000000000000000 881272000000000000000000)]),
   ("gate", [("ETHUSD", tickerOf 9989020000000000000000 881272000000000000000000)]),
   ("okx", [("ETHUSD", tickerOf 1000000000000000000 881272000000000000000000)]),
   ("kraken", [("BTCUSD", tickerOf 724603401000000000000000 881272000000000000000000)])]

/-- The configured pairs of `TestGetComputedPricesTickersConversion`. -/
def conversionPairs : List (String × List CurrencyPair) :=
  [("binance", [⟨"ETH", "USD"⟩, ⟨"BTC", "ETH"⟩]), ("gate", [⟨"ETH", "USD"⟩]),
   ("okx", [⟨"ETH", "USD"⟩]), ("kraken", [⟨"BTC", "USD"⟩])]

/-- A chain of three pairs from three sources: X/Y at 2, Y/Z at 3 and Z/USD at
5, each with volume 1. -/
def cachedPrices : List (String × List (String × TickerPrice)) :=
  [("a", [("XY", tickerOf 2000000000000000000 1000000000000000000)]),
   ("b", [("YZ", tickerOf 3000000000000000000 1000000000000000000)]),
   ("c", [("ZUSD", tickerOf 5000000000000000000 1000000000000000000)])]

/-- The configured pairs of the chain of three pairs. -/
def cachedPairs : List (String × List CurrencyPair) :=
  [("a", [⟨"X", "Y"⟩]), ("b", [⟨"Y", "Z"⟩]), ("c", [⟨"Z", "USD"⟩])]

/-! ## Sequences of `Add` and `Sub` calls on `volume.Total` -/

/-- A call on an accumulator: `Add(value, height)` or `Sub(value)`. -/
inductive TotalCall where
  | add (value : LegacyDec) (height : Nat)
  | sub (value : LegacyDec)
  deriving DecidableEq

/-- One call applied to an accumulator. -/
def Total.Call (t : PriceFeeder.Total) : TotalCall → Except Panic PriceFeeder.Total
  | TotalCall.add value height => t.Add value height
  | TotalCall.sub value => t.Sub value

/-- A sequence of `Add` and `Sub` calls, applied one after the other. -/
def Total.Run (t : PriceFeeder.Total) (calls : List TotalCall) :
    Except Panic PriceFeeder.Total :=
  calls.foldlM (fun acc call => acc.Call call) t

/-- Whether `Add` and `Sub` accept a value: it is neither nil nor negative, the
two guards of both methods. -/
def accepted (value : LegacyDec) : Bool :=
  !value.IsNil &&
    (match value.IsNegative with
     | Except.ok negative => !negative
     | Except.error _ => false)

/-- The number of `Add` calls of a sequence whose value is accepted. -/
def acceptedAdds : List TotalCall → Nat
  | [] => 0
  | TotalCall.add value _ :: rest => (if accepted value then 1 else 0) + acceptedAdds rest
  | TotalCall.sub _ :: rest => acceptedAdds rest

/-- The number of `Sub` calls of a sequence whose value is accepted. -/
def acceptedSubs : List TotalCall → Nat
  | [] => 0
  | TotalCall.add _ _ :: rest => acceptedSubs rest
  | TotalCall.sub value :: rest => (if accepted value then 1 else 0) + acceptedSubs rest

/-- The sum of the accepted values of the `Add` calls of a sequence. -/
def addedSum : List TotalCall → Int
  | [] => 0
  | TotalCall.add value _ :: rest => (if accepted value then value.raw else 0) + addedSum rest
  | TotalCall.sub _ :: rest => addedSum rest

/-- The sum of the accepted values of the `Sub` calls of a sequence. -/
def subtractedSum : List TotalCall → Int
  | [] => 0
  | TotalCall.add _ _ :: rest => subtractedSum rest
  | TotalCall.sub value :: rest =>
    (if accepted value then value.raw else 0) + subtractedSum rest

/-- A sequence of five calls: two accepted additions, a rejected negative
addition, an accepted subtraction and a rejected nil subtraction. -/
def accountingCalls : List TotalCall :=
  [TotalCall.add (LegacyDec.ofRaw 5) 9, TotalCall.add (LegacyDec.ofRaw 7) 4,
   TotalCall.add (LegacyDec.ofRaw (-3)) 2, TotalCall.sub (LegacyDec.ofRaw 5),
   TotalCall.sub LegacyDec.unset]

/-! ## `SetWeight` of `oracle/util.go`

A Go map with string keys is a list of entries with distinct keys; a lookup is
`List.lookup`, and a `range` loop visits the entries in the order of the list,
which stands for whatever order the runtime picks. The type `provider.Name` is
a string, so the conversion `provider.Name(name)` is the identity. -/

/-- Modelled from the spec: type `ProviderWeight` is declared outside the
sources at hand and the specification does not describe it. Only the field
`Weight` is kept, which `SetWeight` reads as a map from provider names to
decimals. -/
structure ProviderWeight where
  Weight : List (String × LegacyDec)

/-- The assignment `rates[name] = ticker`: the entry of the key is replaced, and
a key that is absent gets a new entry. -/
def mapSet (rates : List (String × TickerPrice)) (name : String) (ticker : TickerPrice) :
    List (String × TickerPrice) :=
  if (rates.lookup name).isSome then
    rates.map (fun entry => if entry.1 = name then (entry.1, ticker) else entry)
  else rates ++ [(name, ticker)]

/-- The body of the loop of `SetWeight` for one entry of `weight.Weight`. -/
def setWeightStep (rates : List (String × TickerPrice)) (entry : String × LegacyDec) :
    List (String × TickerPrice) :=
  match rates.lookup entry.1 with
  | some ticker => mapSet rates entry.1 { ticker with Volume := entry.2 }
  | none => rates

/-- Function `SetWeight`: the volume of every rate whose provider has a weight
is replaced by that weight. The result is `(rates, err)`. -/
def SetWeight (rates : List (String × TickerPrice)) (weight : ProviderWeight) :
    List (String × TickerPrice) × Option GoError :=
  if weight.Weight.length = 0 then (rates, none)
  else (weight.Weight.foldl setWeightStep rates, none)

/-- Two rates, of Binance and Kraken, for the example of `SetWeight`. -/
def weightRates : List (String × TickerPrice) :=
  [("binance", ⟨LegacyDec.ofRaw 28210000000000000000, LegacyDec.ofRaw 5000000000000000000, ⟨7⟩⟩),
   ("kraken", ⟨LegacyDec.ofRaw 28230000000000000000, LegacyDec.ofRaw 9000000000000000000, ⟨8⟩⟩)]

/-- Weights for Kraken and for Okx, a provider without a rate. -/
def weightExample : ProviderWeight :=
  { Weight := [("okx", LegacyDec.ofRaw 1000000000000000000),
               ("kraken", LegacyDec.ofRaw 2000000000000000000)] }

/-! ## Lemmas on the decimal arithmetic -/

theorem chopPrecisionAndRoundNonneg_mul (x : Int) :
    chopPrecisionAndRoundNonneg (x * precisionReuse) = x := by
  have hP : precisionReuse ≠ 0 := by decide
  unfold chopPrecisionAndRoundNonneg
  simp [Int.mul_tdiv_cancel x hP, Int.mul_tmod_left]

theorem chopPrecisionAndRound_mul (x : Int) :
    chopPrecisionAndRound (x * precisionReuse) = x := by
  unfold chopPrecisionAndRound
  split
  · rw [← Int.neg_mul, chopPrecisionAndRoundNonneg_mul]; simp
  · exact chopPrecisionAndRoundNonneg_mul x

theorem mulRaw_one (p : Int) : mulRaw p (1 * precisionReuse) = p := by
  unfold mulRaw
  rw [one_mul, chopPrecisionAndRound_mul]

/-! ## Lemmas on the loops -/

theorem except_bind_ok {α β : Type} (a : α) (f : α → Except Panic β) :
    (Except.ok a >>= f) = f a := rfl

theorem except_bind_error {α β : Type} (e : Panic) (f : α → Except Panic β) :
    ((Except.error e : Except Panic α) >>= f) = Except.error e := rfl

/-- A loop that adds one term per element to a running decimal sum returns the
exact sum of the terms when every term is defined, and panics otherwise. -/
theorem foldlM_add_terms {α : Type} (step : LegacyDec → α → Except Panic LegacyDec)
    (term : α → Option Int)
    (hstep : ∀ a x, step (LegacyDec.ofRaw a) x =
      match term x with
      | some v => Except.ok (LegacyDec.ofRaw (a + v))
      | none => Except.error Panic.nilPointerDereference)
    (l : List α) (a : Int) :
    l.foldlM step (LegacyDec.ofRaw a) =
      if l.all (fun x => (term x).isSome) = true then
        Except.ok (LegacyDec.ofRaw (a + (l.map (fun x => (term x).getD 0)).sum))
      else Except.error Panic.nilPointerDereference := by
  induction l generalizing a with
  | nil => simp [List.foldlM, pure, Except.pure]
  | cons x xs ih =>
    rw [List.foldlM_cons, hstep]
    cases hx : term x with
    | none => simp [except_bind_error, hx]
    | some v =>
      simp only [except_bind_ok, ih, List.all_cons, hx, Option.isSome_some, Bool.true_and,
        List.map_cons, List.sum_cons, Option.getD_some, add_assoc]

theorem volume_step (a : Int) (tp : TickerPrice) :
    (LegacyDec.ofRaw a).Add tp.Volume =
      match volumeTerm tp with
      | some v => Except.ok (LegacyDec.ofRaw (a + v))
      | none => Except.error Panic.nilPointerDereference := by
  unfold volumeTerm LegacyDec.Add LegacyDec.ofRaw
  cases tp.Volume.i <;> rfl

theorem price_step (S a : Int) (tp : TickerPrice) :
    (do
      let allZero ← (LegacyDec.ofRaw S).Equal LegacyZeroDec
      let volume := if allZero then LegacyNewDec 1 else tp.Volume
      let product ← tp.Price.Mul volume
      (LegacyDec.ofRaw a).Add product) =
      match priceTerm (decide (S = 0)) tp with
      | some v => Except.ok (LegacyDec.ofRaw (a + v))
      | none => Except.error Panic.nilPointerDereference := by
  have hE : (LegacyDec.ofRaw S).Equal LegacyZeroDec = Except.ok (decide (S = 0)) := rfl
  rw [hE, except_bind_ok]
  unfold priceTerm LegacyDec.Mul LegacyDec.Add LegacyNewDec LegacyDec.ofRaw
  by_cases hz : S = 0 <;> cases hp : tp.Price.i <;> cases hv : tp.Volume.i <;>
    simp [hz, hp, hv, pure, Except.pure, bind, Except.bind, throw, throwThe, MonadExceptOf.throw]

/-- What `ComputeVWAP` does on every input: an error on the empty list, a panic
when a needed price or volume is unset, the rounded quotient otherwise. -/
theorem ComputeVWAP_eq (l : List TickerPrice) :
    ComputeVWAP l =
      if l.length = 0 then Except.ok (LegacyDec.unset, some "no tickers supplied")
      else if l.all (fun tp => (volumeTerm tp).isSome) = true then
        if l.all (fun tp => (priceTerm (decide ((l.map (fun tp => (volumeTerm tp).getD 0)).sum = 0)) tp).isSome) = true then
          Except.ok (LegacyDec.ofRaw (quoRaw
            ((l.map (fun tp => (priceTerm
              (decide ((l.map (fun tp => (volumeTerm tp).getD 0)).sum = 0)) tp).getD 0)).sum)
            (if (l.map (fun tp => (volumeTerm tp).getD 0)).sum = 0 then (l.length : Int) * precisionReuse
              else (l.map (fun tp => (volumeTerm tp).getD 0)).sum)), none)
        else Except.error Panic.nilPointerDereference
      else Except.error Panic.nilPointerDereference := by
  unfold ComputeVWAP
  by_cases h0 : l.length = 0
  · simp [h0, pure, Except.pure]
  · rw [if_neg h0, if_neg h0]
    have h1 := foldlM_add_terms (fun acc tp => acc.Add tp.Volume) volumeTerm volume_step l 0
    rw [show LegacyZeroDec = LegacyDec.ofRaw 0 from rfl, h1]
    by_cases hv : l.all (fun tp => (volumeTerm tp).isSome) = true
    · rw [if_pos hv, if_pos hv, except_bind_ok, zero_add]
      generalize hS : (l.map (fun tp => (volumeTerm tp).getD 0)).sum = S
      have h2 := foldlM_add_terms
        (fun (acc : LegacyDec) (tp : TickerPrice) => do
          let allZero ← (LegacyDec.ofRaw S).Equal (LegacyDec.ofRaw 0)
          let volume := if allZero then LegacyNewDec 1 else tp.Volume
          let product ← tp.Price.Mul volume
          acc.Add product)
        (priceTerm (decide (S = 0))) (fun a tp => price_step S a tp) l 0
      rw [h2]
      by_cases hp : l.all (fun tp => (priceTerm (decide (S = 0)) tp).isSome) = true
      · rw [if_pos hp, if_pos hp, except_bind_ok, zero_add]
        have hE : (LegacyDec.ofRaw S).Equal (LegacyDec.ofRaw 0) = Except.ok (decide (S = 0)) := rfl
        rw [hE, except_bind_ok]
        have hn : (l.length : Int) * precisionReuse ≠ 0 := by
          have : (l.length : Int) ≠ 0 := by exact_mod_cast h0
          exact mul_ne_zero this (by decide)
        by_cases hz : S = 0
        · simp only [hz, decide_True, if_true]
          unfold LegacyDec.Quo LegacyNewDec LegacyDec.ofRaw
          simp [hn, pure, Except.pure, bind, Except.bind]
        · simp only [hz, decide_False, if_false]
          unfold LegacyDec.Quo LegacyDec.ofRaw
          simp [hz, pure, Except.pure, bind, Except.bind]
      · rw [if_neg hp, if_neg hp, except_bind_error]
    · rw [if_neg hv, if_neg hv, except_bind_error]

/-! ## Lemmas on lists of set tickers -/

theorem perm_all_eq {α : Type} {l l2 : List α} (h : l.Perm l2) (p : α → Bool) :
    l2.all p = l.all p := by
  rw [Bool.eq_iff_iff]
  simp only [List.all_eq_true]
  exact ⟨fun H x hx => H x (h.mem_iff.mp hx), fun H x hx => H x (h.mem_iff.mpr hx)⟩

theorem perm_sum_map_eq {α : Type} {l l2 : List α} (h : l.Perm l2) (f : α → Int) :
    (l2.map f).sum = (l.map f).sum :=
  ((h.map f).sum_eq).symm

theorem isNil_false_iff (d : LegacyDec) : d.IsNil = false ↔ ∃ a, d.i = some a := by
  unfold LegacyDec.IsNil
  cases d.i <;> simp

theorem tickersSet_all_volume {l : List TickerPrice} (h : tickersSet l) :
    l.all (fun tp => (volumeTerm tp).isSome) = true := by
  rw [List.all_eq_true]
  intro tp htp
  obtain ⟨v, hv⟩ := (isNil_false_iff _).mp (h tp htp).2
  simp [volumeTerm, hv]

theorem priceTerm_of_set (b : Bool) {tp : TickerPrice}
    (h : tp.Price.IsNil = false ∧ tp.Volume.IsNil = false) :
    priceTerm b tp = some (if b then tp.Price.raw else mulRaw tp.Price.raw tp.Volume.raw) := by
  obtain ⟨p, hp⟩ := (isNil_false_iff _).mp h.1
  obtain ⟨v, hv⟩ := (isNil_false_iff _).mp h.2
  cases b
  · simp [priceTerm, LegacyDec.raw, hp, hv]
  · have h1 : (LegacyNewDec 1).i = some (1 * precisionReuse) := rfl
    simp only [priceTerm, LegacyDec.raw, hp, if_true, h1, mulRaw_one, Option.getD_some]

theorem tickersSet_all_price (b : Bool) {l : List TickerPrice} (h : tickersSet l) :
    l.all (fun tp => (priceTerm b tp).isSome) = true := by
  rw [List.all_eq_true]
  intro tp htp
  simp [priceTerm_of_set b (h tp htp)]

theorem tickersSet_sum_price (b : Bool) {l : List TickerPrice} (h : tickersSet l) :
    (l.map (fun tp => (priceTerm b tp).getD 0)).sum =
      if b then priceTotal l else weightedTotal l := by
  have hm : l.map (fun tp => (priceTerm b tp).getD 0) =
      l.map (fun tp => if b then tp.Price.raw else mulRaw tp.Price.raw tp.Volume.raw) := by
    apply List.map_congr_left
    intro tp htp
    simp [priceTerm_of_set b (h tp htp)]
  rw [hm]
  cases b <;> simp [priceTotal, weightedTotal]

theorem volumeTerm_sum (l : List TickerPrice) :
    (l.map (fun tp => (volumeTerm tp).getD 0)).sum = volumeTotal l := rfl

/-- On a non-empty list of set tickers `ComputeVWAP` returns the rounded
quotient, weighted by the volumes unless they sum to zero. -/
theorem ComputeVWAP_of_set (l : List TickerPrice) (hne : l ≠ []) (hset : tickersSet l) :
    ComputeVWAP l = Except.ok (LegacyDec.ofRaw (quoRaw
      (if volumeTotal l = 0 then priceTotal l else weightedTotal l)
      (if volumeTotal l = 0 then (l.length : Int) * precisionReuse else volumeTotal l)), none) := by
  have h0 : ¬ l.length = 0 := by
    intro h; exact hne (List.length_eq_zero.mp h)
  rw [ComputeVWAP_eq, if_neg h0, if_pos (tickersSet_all_volume hset),
    if_pos (tickersSet_all_price _ hset), tickersSet_sum_price _ hset, volumeTerm_sum]
  by_cases hz : volumeTotal l = 0 <;> simp [hz]

/-! ## Theorems on `ComputeVWAP` -/

/-- C1: for every non-empty list of tickers (prices and volumes set) whose
volumes sum to a non-zero value, `ComputeVWAP` returns, with a nil error, the
rounded quotient `Quo` of the exact sum of the rounded products
`Mul(price, volume)` by the exact sum of the volumes. -/
theorem ComputeVWAP_weighted (l : List TickerPrice) (hne : l ≠ []) (hset : tickersSet l)
    (hvol : volumeTotal l ≠ 0) :
    ComputeVWAP l =
      Except.ok (LegacyDec.ofRaw (quoRaw (weightedTotal l) (volumeTotal l)), none) := by
  rw [ComputeVWAP_of_set l hne hset, if_neg hvol, if_neg hvol]

/-- Witness of C1: the tickers (28.21, 2749102.78), (28.2687, 178277.53314385),
(28.1687, 4749102.53314385) give exactly 28.185812745610043621. -/
theorem ComputeVWAP_weighted_witness :
    ComputeVWAP
      [⟨LegacyDec.ofRaw 28210000000000000000, LegacyDec.ofRaw 2749102780000000000000000, ⟨0⟩⟩,
       ⟨LegacyDec.ofRaw 28268700000000000000, LegacyDec.ofRaw 178277533143850000000000, ⟨0⟩⟩,
       ⟨LegacyDec.ofRaw 28168700000000000000, LegacyDec.ofRaw 4749102533143850000000000, ⟨0⟩⟩] =
      Except.ok (LegacyDec.ofRaw 28185812745610043621, none) :=
  (ComputeVWAP_weighted _ (by decide) (by decide) (by decide)).trans (by rfl)

/-- C2: for every non-empty list of tickers (prices and volumes set) whose
volumes sum to exactly zero, `ComputeVWAP` weighs every ticker by 1, a product
that is exact, and returns the unweighted mean: the rounded quotient of the sum
of the prices by the number of tickers. -/
theorem ComputeVWAP_zero_volume (l : List TickerPrice) (hne : l ≠ []) (hset : tickersSet l)
    (hvol : volumeTotal l = 0) :
    ComputeVWAP l =
      Except.ok (LegacyDec.ofRaw (quoRaw
        ((l.map (fun tp => mulRaw tp.Price.raw (LegacyNewDec 1).raw)).sum)
        (LegacyNewDec (l.length : Int)).raw), none) ∧
    (l.map (fun tp => mulRaw tp.Price.raw (LegacyNewDec 1).raw)).sum = priceTotal l := by
  have hm : (l.map (fun tp => mulRaw tp.Price.raw (LegacyNewDec 1).raw)).sum = priceTotal l := by
    have : ∀ p, mulRaw p (LegacyNewDec 1).raw = p := mulRaw_one
    simp [this, priceTotal]
  refine ⟨?_, hm⟩
  rw [ComputeVWAP_of_set l hne hset, if_pos hvol, if_pos hvol, hm]
  rfl

/-- Witness of C2: prices 10 and 20, each with volume 0, give exactly 15. -/
theorem ComputeVWAP_zero_volume_witness :
    ComputeVWAP
      [⟨LegacyDec.ofRaw 10000000000000000000, LegacyDec.ofRaw 0, ⟨0⟩⟩,
       ⟨LegacyDec.ofRaw 20000000000000000000, LegacyDec.ofRaw 0, ⟨0⟩⟩] =
      Except.ok (LegacyDec.ofRaw 15000000000000000000, none) :=
  (ComputeVWAP_zero_volume _ (by decide) (by decide) (by decide)).1.trans (by rfl)

/-- C3: `ComputeVWAP` returns an error if and only if the ticker list is
empty; on the empty list the returned decimal is the unset decimal; on a
non-empty list whatever it returns is a set decimal with a nil error, and on
every non-empty list of tickers (prices and volumes set) it does return. -/
theorem ComputeVWAP_error_iff_empty (l : List TickerPrice) :
    ((∃ d e, ComputeVWAP l = Except.ok (d, some e)) ↔ l = []) ∧
    ComputeVWAP [] = Except.ok (LegacyDec.unset, some "no tickers supplied") ∧
    (l ≠ [] → ∀ d e, ComputeVWAP l = Except.ok (d, e) → d.IsNil = false ∧ e = none) ∧
    (l ≠ [] → tickersSet l → ∃ a, ComputeVWAP l = Except.ok (LegacyDec.ofRaw a, none)) := by
  have key : l ≠ [] → ∀ d e, ComputeVWAP l = Except.ok (d, e) → d.IsNil = false ∧ e = none := by
    intro hne d e h
    have h0 : ¬ l.length = 0 := fun h => hne (List.length_eq_zero.mp h)
    rw [ComputeVWAP_eq, if_neg h0] at h
    split at h
    · split at h
      · simp only [Except.ok.injEq, Prod.mk.injEq] at h
        exact ⟨by rw [← h.1]; rfl, h.2.symm⟩
      · simp at h
    · simp at h
  refine ⟨⟨?_, ?_⟩, rfl, key, fun hne hset => ⟨_, ComputeVWAP_of_set l hne hset⟩⟩
  · rintro ⟨d, e, h⟩
    by_contra hne
    exact absurd (key hne d (some e) h).2 (by simp)
  · rintro rfl
    exact ⟨_, _, rfl⟩

/-- Witness of C3: the empty list gives an error, a one-ticker list a decimal. -/
theorem ComputeVWAP_error_iff_empty_witness :
    ([⟨LegacyDec.ofRaw 1130000000000000000, LegacyDec.ofRaw 249102380000000000000000, ⟨0⟩⟩] ≠
        ([] : List TickerPrice)) ∧
    tickersSet [⟨LegacyDec.ofRaw 1130000000000000000, LegacyDec.ofRaw 249102380000000000000000, ⟨0⟩⟩] ∧
    ∃ a, ComputeVWAP
      [⟨LegacyDec.ofRaw 1130000000000000000, LegacyDec.ofRaw 249102380000000000000000, ⟨0⟩⟩] =
        Except.ok (LegacyDec.ofRaw a, none) :=
  ⟨by decide, by decide,
    (ComputeVWAP_error_iff_empty
      [⟨LegacyDec.ofRaw 1130000000000000000, LegacyDec.ofRaw 249102380000000000000000, ⟨0⟩⟩]).2.2.2
      (by decide) (by decide)⟩

/-- C4: `ComputeVWAP` is order-independent: on every permutation of a ticker
list it gives the identical outcome (same decimal and error, or the same
panic). -/
theorem ComputeVWAP_perm (l l2 : List TickerPrice) (h : l.Perm l2) :
    ComputeVWAP l2 = ComputeVWAP l := by
  simp only [ComputeVWAP_eq, h.length_eq.symm, perm_all_eq h, perm_sum_map_eq h]

/-- Witness of C4: two tickers in either order. -/
theorem ComputeVWAP_perm_witness :
    List.Perm
      [(⟨LegacyDec.ofRaw 64870000000000000000, LegacyDec.ofRaw 7854934690000000000000000, ⟨0⟩⟩ : TickerPrice),
       ⟨LegacyDec.ofRaw 64878530000000000000, LegacyDec.ofRaw 458917463535770000000000, ⟨0⟩⟩]
      [⟨LegacyDec.ofRaw 64878530000000000000, LegacyDec.ofRaw 458917463535770000000000, ⟨0⟩⟩,
       ⟨LegacyDec.ofRaw 64870000000000000000, LegacyDec.ofRaw 7854934690000000000000000, ⟨0⟩⟩] ∧
    ComputeVWAP
      [⟨LegacyDec.ofRaw 64878530000000000000, LegacyDec.ofRaw 458917463535770000000000, ⟨0⟩⟩,
       ⟨LegacyDec.ofRaw 64870000000000000000, LegacyDec.ofRaw 7854934690000000000000000, ⟨0⟩⟩] =
    ComputeVWAP
      [⟨LegacyDec.ofRaw 64870000000000000000, LegacyDec.ofRaw 7854934690000000000000000, ⟨0⟩⟩,
       ⟨LegacyDec.ofRaw 64878530000000000000, LegacyDec.ofRaw 458917463535770000000000, ⟨0⟩⟩] :=
  ⟨List.Perm.swap _ _ _, ComputeVWAP_perm _ _ (List.Perm.swap _ _ _)⟩

/-! ## Lemmas on `StandardDeviation` -/

theorem sum_step (a : Int) (price : LegacyDec) :
    (LegacyDec.ofRaw a).Add price =
      match price.i with
      | some v => Except.ok (LegacyDec.ofRaw (a + v))
      | none => Except.error Panic.nilPointerDereference := by
  unfold LegacyDec.Add LegacyDec.ofRaw
  cases price.i <;> rfl

theorem square_step (m a : Int) (price : LegacyDec) :
    (do
      let deviation ← price.Sub (LegacyDec.ofRaw m)
      let square ← deviation.Mul deviation
      (LegacyDec.ofRaw a).Add square) =
      match squareTerm m price with
      | some v => Except.ok (LegacyDec.ofRaw (a + v))
      | none => Except.error Panic.nilPointerDereference := by
  unfold squareTerm LegacyDec.Sub LegacyDec.Mul LegacyDec.Add LegacyDec.ofRaw
  cases hp : price.i <;>
    simp [hp, pure, Except.pure, bind, Except.bind, throw, throwThe, MonadExceptOf.throw]

theorem squareTerm_isSome (m : Int) (price : LegacyDec) :
    (squareTerm m price).isSome = price.i.isSome := by
  unfold squareTerm
  cases price.i <;> rfl

/-- What `StandardDeviation` does on every input: an error below three prices,
a panic when a price is unset, the mean and the root of the variance
otherwise. -/
theorem StandardDeviation_eq (l : List LegacyDec) :
    StandardDeviation l =
      if l.length < 3 then
        Except.ok (LegacyDec.unset, LegacyDec.unset,
          some "not enough values to calculate deviation")
      else if l.all (fun price => price.i.isSome) = true then
        Except.ok (LegacyDec.ofRaw (approxRootRaw
          (((l.map (fun (price : LegacyDec) => (squareTerm
              (((l.map (fun (price : LegacyDec) => price.i.getD 0)).sum).tdiv (l.length : Int)) price).getD 0)).sum).tdiv
            (l.length : Int)) 2),
          LegacyDec.ofRaw (((l.map (fun (price : LegacyDec) => price.i.getD 0)).sum).tdiv (l.length : Int)), none)
      else Except.error Panic.nilPointerDereference := by
  unfold StandardDeviation
  by_cases h3 : l.length < 3
  · simp [h3, pure, Except.pure]
  · rw [if_neg h3, if_neg h3]
    have hn : (l.length : Int) ≠ 0 := by
      have : l.length ≠ 0 := by omega
      exact_mod_cast this
    have h1 := foldlM_add_terms (fun (acc : LegacyDec) (price : LegacyDec) => acc.Add price)
      (fun price => price.i) sum_step l 0
    rw [show LegacyZeroDec = LegacyDec.ofRaw 0 from rfl, h1]
    by_cases hv : l.all (fun price => price.i.isSome) = true
    · rw [if_pos hv, if_pos hv, except_bind_ok, zero_add]
      generalize (l.map (fun (price : LegacyDec) => price.i.getD 0)).sum = S
      have hq : (LegacyDec.ofRaw S).QuoInt64 (l.length : Int) =
          Except.ok (LegacyDec.ofRaw (S.tdiv (l.length : Int))) := by
        unfold LegacyDec.QuoInt64 LegacyDec.ofRaw
        simp [hn, pure, Except.pure]
      dsimp only
      rw [hq, except_bind_ok]
      generalize S.tdiv (l.length : Int) = m
      have h2 := foldlM_add_terms
        (fun (acc : LegacyDec) (price : LegacyDec) => do
          let deviation ← price.Sub (LegacyDec.ofRaw m)
          let square ← deviation.Mul deviation
          acc.Add square)
        (squareTerm m) (fun a price => square_step m a price) l 0
      have hs : l.all (fun price => (squareTerm m price).isSome) = true := by
        simpa only [squareTerm_isSome] using hv
      rw [h2, if_pos hs, except_bind_ok, zero_add]
      generalize (l.map (fun (price : LegacyDec) => (squareTerm m price).getD 0)).sum = V
      have hq2 : (LegacyDec.ofRaw V).QuoInt64 (l.length : Int) =
          Except.ok (LegacyDec.ofRaw (V.tdiv (l.length : Int))) := by
        unfold LegacyDec.QuoInt64 LegacyDec.ofRaw
        simp [hn, pure, Except.pure]
      rw [hq2, except_bind_ok]
      rfl
    · rw [if_neg hv, if_neg hv, except_bind_error]

theorem pricesSet_all {l : List LegacyDec} (h : pricesSet l) :
    l.all (fun price => price.i.isSome) = true := by
  rw [List.all_eq_true]
  intro price hp
  obtain ⟨v, hv⟩ := (isNil_false_iff _).mp (h price hp)
  simp [hv]

theorem pricesSet_sum_square (m : Int) {l : List LegacyDec} (h : pricesSet l) :
    (l.map (fun price => (squareTerm m price).getD 0)).sum =
      (l.map (fun (price : LegacyDec) => mulRaw (price.raw - m) (price.raw - m))).sum := by
  congr 1
  apply List.map_congr_left
  intro price hp
  obtain ⟨v, hv⟩ := (isNil_false_iff _).mp (h price hp)
  simp [squareTerm, LegacyDec.raw, hv]

/-- On at least three set prices `StandardDeviation` returns the root of the
variance and the mean, with a nil error. -/
theorem StandardDeviation_of_set (l : List LegacyDec) (h3 : 3 ≤ l.length) (hset : pricesSet l) :
    StandardDeviation l =
      Except.ok (LegacyDec.ofRaw (approxRootRaw (varianceOf l) 2),
        LegacyDec.ofRaw (meanOf l), none) := by
  have h : ¬ l.length < 3 := by omega
  rw [StandardDeviation_eq, if_neg h, if_pos (pricesSet_all hset), pricesSet_sum_square _ hset]
  rfl

/-! ## Theorems on `StandardDeviation` -/

/-- C5: for every price list with fewer than three elements (the empty list
included; a nil slice is an empty list) `StandardDeviation` fails: it returns
an error, and both returned decimals, deviation and mean, are unset. -/
theorem StandardDeviation_too_few (l : List LegacyDec) (h : l.length < 3) :
    StandardDeviation l =
      Except.ok (LegacyDec.unset, LegacyDec.unset,
        some "not enough values to calculate deviation") ∧
    LegacyDec.unset.IsNil = true := by
  rw [StandardDeviation_eq, if_pos h]
  exact ⟨rfl, rfl⟩

/-- Witness of C5: the empty list and the two prices 28.21, 28.23. -/
theorem StandardDeviation_too_few_witness :
    StandardDeviation [] =
      Except.ok (LegacyDec.unset, LegacyDec.unset,
        some "not enough values to calculate deviation") ∧
    StandardDeviation [LegacyDec.ofRaw 28210000000000000000, LegacyDec.ofRaw 28230000000000000000] =
      Except.ok (LegacyDec.unset, LegacyDec.unset,
        some "not enough values to calculate deviation") :=
  ⟨(StandardDeviation_too_few [] (by decide)).1,
   (StandardDeviation_too_few
      [LegacyDec.ofRaw 28210000000000000000, LegacyDec.ofRaw 28230000000000000000]
      (by decide)).1⟩

/-- C6: for every list of `n ≥ 3` set prices `StandardDeviation` returns, with a
nil error, the mean `(sum of prices) QuoInt64 n` and the deviation
`ApproxSqrt(variance)`, where `variance` is the sum of the rounded squares
`Mul(price - mean, price - mean)` divided by `n` with `QuoInt64`; both
divisions truncate. -/
theorem StandardDeviation_mean_deviation (l : List LegacyDec) (h3 : 3 ≤ l.length)
    (hset : pricesSet l) :
    StandardDeviation l =
      Except.ok ((LegacyDec.ofRaw (varianceOf l)).ApproxSqrt.1,
        LegacyDec.ofRaw (meanOf l), none) ∧
    (LegacyDec.ofRaw (varianceOf l)).ApproxSqrt.2 = none ∧
    LegacyDec.ofRaw (meanOf l) =
      LegacyDec.ofRaw (((l.map (fun (price : LegacyDec) => price.raw)).sum).tdiv (l.length : Int)) ∧
    LegacyDec.ofRaw (varianceOf l) =
      LegacyDec.ofRaw (((l.map (fun (price : LegacyDec) =>
        mulRaw (price.raw - meanOf l) (price.raw - meanOf l))).sum).tdiv (l.length : Int)) :=
  ⟨StandardDeviation_of_set l h3 hset, rfl, rfl, rfl⟩

/-- Witness of C6: the prices 28.21, 28.23, 28.40 give mean 28.28 and deviation
0.085244745683629475; the prices 1.13, 1.1305, 1.14 give mean 1.1335 and
deviation 0.004600724580614015. -/
theorem StandardDeviation_mean_deviation_witness :
    StandardDeviation
      [LegacyDec.ofRaw 28210000000000000000, LegacyDec.ofRaw 28230000000000000000,
       LegacyDec.ofRaw 28400000000000000000] =
      Except.ok (LegacyDec.ofRaw 85244745683629475, LegacyDec.ofRaw 28280000000000000000, none) ∧
    StandardDeviation
      [LegacyDec.ofRaw 1130000000000000000, LegacyDec.ofRaw 1130500000000000000,
       LegacyDec.ofRaw 1140000000000000000] =
      Except.ok (LegacyDec.ofRaw 4600724580614015, LegacyDec.ofRaw 1133500000000000000, none) :=
  ⟨(StandardDeviation_mean_deviation _ (by decide) (by decide)).1.trans (by rfl),
   (StandardDeviation_mean_deviation _ (by decide) (by decide)).1.trans (by rfl)⟩

/-! ## Lemmas on Go `int` arithmetic -/

theorem wrapInt_of_isInt {x : Int} (h : isInt x) : wrapInt x = x := by
  unfold isInt at h
  unfold wrapInt
  omega

theorem wrapInt_succ_pred {x : Int} (h : isInt x) : wrapInt (wrapInt (x + 1) - 1) = x := by
  unfold isInt at h
  unfold wrapInt
  omega

/-! ## Lemmas on `volume.Total` -/

theorem isNegative_ofRaw {v : Int} (hv : 0 ≤ v) :
    (LegacyDec.ofRaw v).IsNegative = Except.ok false := by
  unfold LegacyDec.IsNegative LegacyDec.ofRaw
  simp [pure, Except.pure, not_lt.mpr hv]

theorem isNil_ofRaw (v : Int) : ¬ (LegacyDec.ofRaw v).IsNil = true := by
  simp [LegacyDec.IsNil, LegacyDec.ofRaw]

/-- A nil or negative value leaves the accumulator as it is in `Add`. -/
theorem Total_Add_skip (t : Total) (value : LegacyDec) (height : Nat)
    (h : value.IsNil = true ∨ value.IsNegative = Except.ok true) :
    t.Add value height = Except.ok t := by
  unfold Total.Add
  rcases h with h | h
  · rw [if_pos h]; rfl
  · split
    · rfl
    · rw [h]; rfl

/-- A set non-negative value is added to a set total by `Add`. -/
theorem Total_Add_ok (t : Total) (a v : Int) (height : Nat)
    (ha : t.Total = LegacyDec.ofRaw a) (hv : 0 ≤ v) :
    t.Add (LegacyDec.ofRaw v) height = Except.ok
      { Total := LegacyDec.ofRaw (a + v),
        Values := wrapInt (t.Values + 1),
        First := if t.First = 0 ∨ height < t.First then height else t.First } := by
  have hadd : t.Total.Add (LegacyDec.ofRaw v) = Except.ok (LegacyDec.ofRaw (a + v)) := by
    rw [ha]; rfl
  unfold Total.Add
  rw [if_neg (isNil_ofRaw v), isNegative_ofRaw hv, except_bind_ok, if_neg Bool.false_ne_true,
    hadd, except_bind_ok]
  by_cases hf : t.First = 0 ∨ height < t.First
  · have hf2 : height < t.First ∨ t.First = 0 := hf.symm
    simp [hf, hf2, pure, Except.pure]
  · have hf2 : ¬ (height < t.First ∨ t.First = 0) := fun h => hf h.symm
    simp [hf, hf2, pure, Except.pure]

/-- A nil or negative value leaves the accumulator as it is in `Sub`. -/
theorem Total_Sub_skip (t : Total) (value : LegacyDec)
    (h : value.IsNil = true ∨ value.IsNegative = Except.ok true) :
    t.Sub value = Except.ok t := by
  unfold Total.Sub
  rcases h with h | h
  · rw [if_pos h]; rfl
  · split
    · rfl
    · rw [h]; rfl

/-- A set non-negative value is taken out of a set total by `Sub`. -/
theorem Total_Sub_ok (t : Total) (a v : Int)
    (ha : t.Total = LegacyDec.ofRaw a) (hv : 0 ≤ v) :
    t.Sub (LegacyDec.ofRaw v) = Except.ok
      { Total := LegacyDec.ofRaw (a - v),
        Values := wrapInt (t.Values - 1),
        First := t.First } := by
  have hsub : t.Total.Sub (LegacyDec.ofRaw v) = Except.ok (LegacyDec.ofRaw (a - v)) := by
    rw [ha]; rfl
  unfold Total.Sub
  rw [if_neg (isNil_ofRaw v), isNegative_ofRaw hv, except_bind_ok, if_neg Bool.false_ne_true,
    hsub, except_bind_ok]
  rfl

/-! ## Theorems on `volume.Total` -/

/-- C7: `Total.Add(value, height)`: if `value` is nil or negative the accumulator
is left unchanged in all three fields; otherwise `Total` becomes
`Total + value`, `Values` becomes `Values + 1` (in Go `int` arithmetic, which is
the exact successor below the largest `int`) and `First` becomes `height` when
`First` was 0 or `height < First` and stays unchanged otherwise. The value zero
is not negative, so it is accepted and counted. -/
theorem Total_Add_effect (t : Total) (value : LegacyDec) (height : Nat) :
    ((value.IsNil = true ∨ value.IsNegative = Except.ok true) →
      t.Add value height = Except.ok t) ∧
    (∀ a v : Int, t.Total = LegacyDec.ofRaw a → value = LegacyDec.ofRaw v → 0 ≤ v →
      t.Add value height = Except.ok
        { Total := LegacyDec.ofRaw (a + v),
          Values := wrapInt (t.Values + 1),
          First := if t.First = 0 ∨ height < t.First then height else t.First }) ∧
    (isInt t.Values → t.Values ≠ 9223372036854775807 → wrapInt (t.Values + 1) = t.Values + 1) := by
  refine ⟨Total_Add_skip t value height, ?_, ?_⟩
  · rintro a v ha rfl hv
    exact Total_Add_ok t a v height ha hv
  · intro h hmax
    unfold isInt at h
    unfold wrapInt
    omega

/-- Witness of C7: adding the value zero at height 7 to the fresh accumulator. -/
theorem Total_Add_effect_witness :
    NewTotal.Add (LegacyDec.ofRaw 0) 7 =
      Except.ok { Total := LegacyDec.ofRaw 0, Values := 1, First := 7 } ∧
    NewTotal.Add (LegacyDec.ofRaw (-5)) 7 = Except.ok NewTotal ∧
    wrapInt (NewTotal.Values + 1) = NewTotal.Values + 1 :=
  ⟨((Total_Add_effect NewTotal (LegacyDec.ofRaw 0) 7).2.1 0 0 rfl rfl (by decide)).trans (by rfl),
   (Total_Add_effect NewTotal (LegacyDec.ofRaw (-5)) 7).1 (Or.inr (by rfl)),
   (Total_Add_effect NewTotal (LegacyDec.ofRaw 0) 7).2.2 (by decide) (by decide)⟩

/-- C8: `Total.Sub(value)`: if `value` is nil or negative the accumulator is left
unchanged; otherwise `Total` becomes `Total - value` and `Values` becomes
`Values - 1` (in Go `int` arithmetic, the exact predecessor above the smallest
`int`). In both cases `First` is unchanged. -/
theorem Total_Sub_effect (t : Total) (value : LegacyDec) :
    ((value.IsNil = true ∨ value.IsNegative = Except.ok true) →
      t.Sub value = Except.ok t) ∧
    (∀ a v : Int, t.Total = LegacyDec.ofRaw a → value = LegacyDec.ofRaw v → 0 ≤ v →
      t.Sub value = Except.ok
        { Total := LegacyDec.ofRaw (a - v),
          Values := wrapInt (t.Values - 1),
          First := t.First }) ∧
    (isInt t.Values → t.Values ≠ -9223372036854775808 → wrapInt (t.Values - 1) = t.Values - 1) := by
  refine ⟨Total_Sub_skip t value, ?_, ?_⟩
  · rintro a v ha rfl hv
    exact Total_Sub_ok t a v ha hv
  · intro h hmin
    unfold isInt at h
    unfold wrapInt
    omega

/-- Witness of C8: taking 2 out of an accumulator holding 5 in 3 values, first
height 9. -/
theorem Total_Sub_effect_witness :
    Total.Sub { Total := LegacyDec.ofRaw 5, Values := 3, First := 9 } (LegacyDec.ofRaw 2) =
      Except.ok { Total := LegacyDec.ofRaw 3, Values := 2, First := 9 } ∧
    Total.Sub { Total := LegacyDec.ofRaw 5, Values := 3, First := 9 } LegacyDec.unset =
      Except.ok { Total := LegacyDec.ofRaw 5, Values := 3, First := 9 } ∧
    wrapInt ((3 : Int) - 1) = 3 - 1 :=
  ⟨((Total_Sub_effect { Total := LegacyDec.ofRaw 5, Values := 3, First := 9 }
      (LegacyDec.ofRaw 2)).2.1 5 2 rfl rfl (by decide)).trans (by rfl),
   (Total_Sub_effect { Total := LegacyDec.ofRaw 5, Values := 3, First := 9 }
      LegacyDec.unset).1 (Or.inl rfl),
   (Total_Sub_effect { Total := LegacyDec.ofRaw 5, Values := 3, First := 9 }
      (LegacyDec.ofRaw 2)).2.2 (by decide) (by decide)⟩

/-- C9: `NewTotal()` is the zero accumulator: `Total` is the set decimal 0,
`Values` is 0 and `First` is 0. `Clear()` on any accumulator state yields
exactly that state, hence `Clear` is idempotent. -/
theorem NewTotal_Clear_zero (t : Total) :
    NewTotal = { Total := LegacyDec.ofRaw 0, Values := 0, First := 0 } ∧
    NewTotal.Total.IsNil = false ∧
    t.Clear = NewTotal ∧
    t.Clear.Clear = t.Clear :=
  ⟨rfl, rfl, rfl, rfl⟩

/-- C10: `Sub` reverses `Add`: for every accumulator state (its `Total` set, its
`Values` a Go `int`), every set non-negative value and every height, `Add`
followed by `Sub` of the same value leaves `Total` and `Values` as they were. -/
theorem Total_Sub_reverses_Add (t : Total) (a v : Int) (height : Nat)
    (ht : t.Total = LegacyDec.ofRaw a) (hn : isInt t.Values) (hv : 0 ≤ v) :
    ∃ t1 t2, t.Add (LegacyDec.ofRaw v) height = Except.ok t1 ∧
      t1.Sub (LegacyDec.ofRaw v) = Except.ok t2 ∧
      t2.Total = t.Total ∧ t2.Values = t.Values := by
  refine ⟨_, _, Total_Add_ok t a v height ht hv, Total_Sub_ok _ (a + v) v rfl hv, ?_, ?_⟩
  · rw [ht]
    show LegacyDec.ofRaw (a + v - v) = LegacyDec.ofRaw a
    rw [add_sub_cancel_right]
  · exact wrapInt_succ_pred hn

/-- Witness of C10: adding 4 at height 2 to an accumulator holding 5 in 3 values
and taking it out again. -/
theorem Total_Sub_reverses_Add_witness :
    ∃ t1 t2,
      Total.Add { Total := LegacyDec.ofRaw 5, Values := 3, First := 9 } (LegacyDec.ofRaw 4) 2 =
        Except.ok t1 ∧
      t1.Sub (LegacyDec.ofRaw 4) = Except.ok t2 ∧
      t2.Total = LegacyDec.ofRaw 5 ∧ t2.Values = 3 :=
  Total_Sub_reverses_Add { Total := LegacyDec.ofRaw 5, Values := 3, First := 9 } 5 4 2
    rfl (by decide) (by decide)

/-! ## Lemmas on sequences of `Add` calls -/

/-- A sequence of accepted `Add` calls on a set total returns, and `First` is
updated height by height. -/
theorem AddAll_first (calls : List (LegacyDec × Nat)) (hc : callsAccepted calls) :
    ∀ (t : Total) (a : Int), t.Total = LegacyDec.ofRaw a →
      ∃ t2 b, t.AddAll calls = Except.ok t2 ∧ t2.Total = LegacyDec.ofRaw b ∧
        t2.First = firstAfter t.First (calls.map Prod.snd) := by
  induction calls with
  | nil =>
    intro t a ha
    exact ⟨t, a, rfl, ha, rfl⟩
  | cons call rest ih =>
    intro t a ha
    obtain ⟨v, hv, hv0⟩ := hc call (List.mem_cons_self _ _)
    have hrest : callsAccepted rest := fun c hcm => hc c (List.mem_cons_of_mem _ hcm)
    have h1 := Total_Add_ok t a v call.2 ha hv0
    obtain ⟨t2, b, h2, hb, hf⟩ := ih hrest
      { Total := LegacyDec.ofRaw (a + v),
        Values := wrapInt (t.Values + 1),
        First := if t.First = 0 ∨ call.2 < t.First then call.2 else t.First } (a + v) rfl
    refine ⟨t2, b, ?_, hb, ?_⟩
    · unfold Total.AddAll
      rw [List.foldlM_cons, hv, h1, except_bind_ok]
      exact h2
    · rw [hf]
      rfl

/-- Starting from a positive value and adding positive heights, `First` ends
as the smallest of the start value and the heights. -/
theorem firstAfter_pos (heights : List Nat) (hpos : ∀ h ∈ heights, 0 < h) :
    ∀ first, 0 < first →
      (firstAfter first heights = first ∨ firstAfter first heights ∈ heights) ∧
      firstAfter first heights ≤ first ∧
      ∀ h ∈ heights, firstAfter first heights ≤ h := by
  induction heights with
  | nil =>
    intro first _
    exact ⟨Or.inl rfl, le_refl _, fun h hh => absurd hh (List.not_mem_nil h)⟩
  | cons x xs ih =>
    intro first hfirst
    have hx : 0 < x := hpos x (List.mem_cons_self _ _)
    have hxs : ∀ h ∈ xs, 0 < h := fun h hh => hpos h (List.mem_cons_of_mem _ hh)
    have hstep : firstAfter first (x :: xs) =
        firstAfter (if first = 0 ∨ x < first then x else first) xs := rfl
    rw [hstep]
    by_cases hlt : first = 0 ∨ x < first
    · rw [if_pos hlt]
      obtain ⟨h1, h2, h3⟩ := ih hxs x hx
      have hxf : x ≤ first := by omega
      refine ⟨?_, le_trans h2 hxf, ?_⟩
      · rcases h1 with h1 | h1
        · exact Or.inr (by rw [h1]; exact List.mem_cons_self _ _)
        · exact Or.inr (List.mem_cons_of_mem _ h1)
      · intro h hh
        rcases List.mem_cons.mp hh with rfl | hh
        · exact h2
        · exact h3 h hh
    · rw [if_neg hlt]
      obtain ⟨h1, h2, h3⟩ := ih hxs first hfirst
      have hfx : first ≤ x := by omega
      refine ⟨?_, h2, ?_⟩
      · rcases h1 with h1 | h1
        · exact Or.inl h1
        · exact Or.inr (List.mem_cons_of_mem _ h1)
      · intro h hh
        rcases List.mem_cons.mp hh with rfl | hh
        · exact le_trans h2 hfx
        · exact h3 h hh

/-! ## Theorems on sequences of `Add` calls -/

/-- C11, counterexample: after `Add` at height 0 and then `Add` at height 5 on a
fresh accumulator, `First` is 5, which is not the minimum 0 of the heights. -/
theorem First_not_minimum_with_zero_height :
    ∃ t, NewTotal.AddAll [(LegacyDec.ofRaw 1, 0), (LegacyDec.ofRaw 1, 5)] = Except.ok t ∧
      t.First = 5 ∧ ¬ (∀ h ∈ [0, 5], t.First ≤ h) :=
  ⟨{ Total := LegacyDec.ofRaw 2, Values := 2, First := 5 }, rfl, rfl, by decide⟩

/-- C11, amended: after any non-empty sequence of `Add` calls with set,
non-negative values and positive heights on a fresh `NewTotal()` accumulator,
the calls return and `First` is the minimum of the heights: it is one of them
and no height is smaller. -/
theorem First_is_minimum_of_positive_heights (calls : List (LegacyDec × Nat))
    (hne : calls ≠ []) (hc : callsAccepted calls) (hpos : ∀ call ∈ calls, 0 < call.2) :
    ∃ t, NewTotal.AddAll calls = Except.ok t ∧
      t.First ∈ calls.map Prod.snd ∧ ∀ h ∈ calls.map Prod.snd, t.First ≤ h := by
  obtain ⟨t, b, h1, _, hf⟩ := AddAll_first calls hc NewTotal 0 rfl
  refine ⟨t, h1, ?_⟩
  rw [hf]
  cases calls with
  | nil => exact absurd rfl hne
  | cons call rest =>
    have hx : 0 < call.2 := hpos call (List.mem_cons_self _ _)
    have hxs : ∀ h ∈ rest.map Prod.snd, 0 < h := by
      intro h hh
      obtain ⟨c, hc1, rfl⟩ := List.mem_map.mp hh
      exact hpos c (List.mem_cons_of_mem _ hc1)
    have hstep : firstAfter NewTotal.First ((call :: rest).map Prod.snd) =
        firstAfter call.2 (rest.map Prod.snd) := rfl
    rw [hstep]
    obtain ⟨h1, h2, h3⟩ := firstAfter_pos (rest.map Prod.snd) hxs call.2 hx
    refine ⟨?_, ?_⟩
    · rcases h1 with h1 | h1
      · rw [h1]; exact List.mem_cons_self _ _
      · exact List.mem_cons_of_mem _ h1
    · intro h hh
      rcases List.mem_cons.mp hh with rfl | hh
      · exact h2
      · exact h3 h hh

/-- Witness of C11, amended: heights 7, 3, 9 leave `First` at 3. -/
theorem First_is_minimum_of_positive_heights_witness :
    ∃ t, NewTotal.AddAll
        [(LegacyDec.ofRaw 1, 7), (LegacyDec.ofRaw 0, 3), (LegacyDec.ofRaw 2, 9)] = Except.ok t ∧
      t.First ∈ [7, 3, 9] ∧ ∀ h ∈ [7, 3, 9], t.First ≤ h :=
  First_is_minimum_of_positive_heights
    [(LegacyDec.ofRaw 1, 7), (LegacyDec.ofRaw 0, 3), (LegacyDec.ofRaw 2, 9)]
    (by decide)
    (by
      intro call hcall
      simp only [List.mem_cons, List.mem_singleton, List.not_mem_nil, or_false] at hcall
      rcases hcall with rfl | rfl | rfl
      · exact ⟨1, rfl, by decide⟩
      · exact ⟨0, rfl, by decide⟩
      · exact ⟨2, rfl, by decide⟩)
    (by decide)

/-! ## Lemmas on parsing -/

theorem setString_nonneg (s : List Char) (x : Int) (h : setString s = some x)
    (hs : s.head? ≠ some '-') : 0 ≤ x := by
  cases s with
  | nil => simp [setString] at h
  | cons c cs =>
    have hc : c ≠ '-' := by
      intro hc
      exact hs (by rw [hc]; rfl)
    simp only [setString, if_neg hc] at h
    split at h
    · split at h
      · exact absurd h (by simp)
      · obtain ⟨n, _, rfl⟩ := Option.map_eq_some'.mp h
        exact Int.ofNat_nonneg n
    · obtain ⟨n, _, rfl⟩ := Option.map_eq_some'.mp h
      exact Int.ofNat_nonneg n

theorem splitOnDot_head (str part : List Char) (parts : List (List Char))
    (h : splitOnDot str = part :: parts) (hp : part.head? = some '-') :
    str.head? = some '-' := by
  cases str with
  | nil =>
    simp only [splitOnDot, List.cons.injEq] at h
    rw [← h.1] at hp
    exact absurd hp (by simp)
  | cons c cs =>
    unfold splitOnDot at h
    split at h
    · simp only [List.cons.injEq] at h
      rw [← h.1] at hp
      exact absurd hp (by simp)
    · split at h
      · simp only [List.cons.injEq] at h
        rw [← h.1] at hp
        exact hp
      · simp only [List.cons.injEq] at h
        rw [← h.1] at hp
        exact hp

theorem head_append_ne (a b : List Char) (ha : a.head? ≠ some '-')
    (hb : a = [] → b.head? ≠ some '-') : (a ++ b).head? ≠ some '-' := by
  cases a with
  | nil => exact hb rfl
  | cons c cs => exact ha

/-- A string that does not start with a minus sign is never read as a negative
decimal. -/
theorem parseDecimal_nonneg (str : List Char) (a : Int) (h : parseDecimal str = some a)
    (hs : str.head? ≠ some '-') : 0 ≤ a := by
  unfold parseDecimal at h
  simp only [hs, decide_False, Bool.false_eq_true, if_false] at h
  split at h
  · exact absurd h (by simp)
  · split at h
    · rename_i combined hsplit
      obtain ⟨x, hx, rfl⟩ := Option.map_eq_some'.mp h
      refine setString_nonneg _ x hx (head_append_ne _ _ ?_ ?_)
      · exact fun hp => hs (splitOnDot_head _ _ _ hsplit hp)
      · intro _; decide
    · rename_i combined decs hsplit
      split at h
      · exact absurd h (by simp)
      · rename_i hlen
        split at h
        · exact absurd h (by simp)
        · obtain ⟨x, hx, rfl⟩ := Option.map_eq_some'.mp h
          refine setString_nonneg _ x hx ?_
          rw [List.append_assoc]
          refine head_append_ne _ _ ?_ ?_
          · exact fun hp => hs (splitOnDot_head _ _ _ hsplit hp)
          · intro hc
            exact absurd (by rw [hc]; rfl) (fun h0 : combined.length = 0 => hlen (Or.inr h0))
    · exact absurd h (by simp)

theorem LegacyNewDecFromStr_ok (str : String) (h : (LegacyNewDecFromStr str).2 = none) :
    ∃ a, parseDecimal str.toList = some a ∧ (LegacyNewDecFromStr str).1 = LegacyDec.ofRaw a := by
  unfold LegacyNewDecFromStr at h ⊢
  cases hp : parseDecimal str.toList with
  | none => rw [hp] at h; exact absurd h (by simp)
  | some a => exact ⟨a, rfl, rfl⟩

/-- What `NewTickerPrice` returns when both strings are read without error. -/
theorem NewTickerPrice_ok (price volume : String) (timestamp : GoTime)
    (hp : (LegacyNewDecFromStr price).2 = none) (hv : (LegacyNewDecFromStr volume).2 = none) :
    NewTickerPrice price volume timestamp =
      ({ Price := (LegacyNewDecFromStr price).1, Volume := (LegacyNewDecFromStr volume).1,
         Time := timestamp }, none) := by
  unfold NewTickerPrice
  simp only [hp, hv]

/-- What `NewTickerPrice` returns when the price string is rejected. -/
theorem NewTickerPrice_price_error (price volume : String) (timestamp : GoTime) (e : GoError)
    (hp : (LegacyNewDecFromStr price).2 = some e) :
    NewTickerPrice price volume timestamp =
      (TickerPrice.zero, some ("failed to convert ticker price: " ++ e)) := by
  unfold NewTickerPrice
  simp only [hp]

/-- What `NewTickerPrice` returns when only the volume string is rejected. -/
theorem NewTickerPrice_volume_error (price volume : String) (timestamp : GoTime) (e : GoError)
    (hp : (LegacyNewDecFromStr price).2 = none) (hv : (LegacyNewDecFromStr volume).2 = some e) :
    NewTickerPrice price volume timestamp =
      (TickerPrice.zero, some ("failed to convert ticker volume: " ++ e)) := by
  unfold NewTickerPrice
  simp only [hp, hv]

/-! ## Theorems on `NewTickerPrice` -/

/-- C12: `NewTickerPrice` returns an error if and only if the price string or
the volume string fails to parse; the error of the price comes first, and on
either error the result is the zero ticker; otherwise the ticker carries the
parsed price and volume and the given timestamp. -/
theorem NewTickerPrice_error_iff (price volume : String) (timestamp : GoTime) :
    ((NewTickerPrice price volume timestamp).2 ≠ none ↔
      ((LegacyNewDecFromStr price).2 ≠ none ∨ (LegacyNewDecFromStr volume).2 ≠ none)) ∧
    (∀ e, (LegacyNewDecFromStr price).2 = some e →
      NewTickerPrice price volume timestamp =
        (TickerPrice.zero, some ("failed to convert ticker price: " ++ e))) ∧
    (∀ e, (LegacyNewDecFromStr price).2 = none → (LegacyNewDecFromStr volume).2 = some e →
      NewTickerPrice price volume timestamp =
        (TickerPrice.zero, some ("failed to convert ticker volume: " ++ e))) ∧
    ((LegacyNewDecFromStr price).2 = none → (LegacyNewDecFromStr volume).2 = none →
      NewTickerPrice price volume timestamp =
        ({ Price := (LegacyNewDecFromStr price).1, Volume := (LegacyNewDecFromStr volume).1,
           Time := timestamp }, none)) := by
  refine ⟨?_, NewTickerPrice_price_error price volume timestamp,
    NewTickerPrice_volume_error price volume timestamp,
    NewTickerPrice_ok price volume timestamp⟩
  cases hp : (LegacyNewDecFromStr price).2 with
  | some e =>
    rw [NewTickerPrice_price_error price volume timestamp e hp]
    simp
  | none =>
    cases hv : (LegacyNewDecFromStr volume).2 with
    | some e =>
      rw [NewTickerPrice_volume_error price volume timestamp e hp hv]
      simp
    | none =>
      rw [NewTickerPrice_ok price volume timestamp hp hv]
      simp

/-- Witness of C12: a malformed price, a malformed volume, and two well-formed
strings. -/
theorem NewTickerPrice_error_iff_witness :
    NewTickerPrice "1.a" "x" ⟨7⟩ =
      (TickerPrice.zero, some "failed to convert ticker price: invalid decimal string") ∧
    NewTickerPrice "28.21" "1..5" ⟨7⟩ =
      (TickerPrice.zero, some "failed to convert ticker volume: invalid decimal string") ∧
    NewTickerPrice "28.21" "2749102.78" ⟨7⟩ =
      ({ Price := LegacyDec.ofRaw 28210000000000000000,
         Volume := LegacyDec.ofRaw 2749102780000000000000000, Time := ⟨7⟩ }, none) :=
  ⟨((NewTickerPrice_error_iff "1.a" "x" ⟨7⟩).2.1 "invalid decimal string" (by rfl)).trans (by rfl),
   ((NewTickerPrice_error_iff "28.21" "1..5" ⟨7⟩).2.2.1 "invalid decimal string"
      (by rfl) (by rfl)).trans (by rfl),
   ((NewTickerPrice_error_iff "28.21" "2749102.78" ⟨7⟩).2.2.2 (by rfl) (by rfl)).trans (by rfl)⟩

/-- C13, counterexample: the strings "-1" and "1" are accepted without error
and give a ticker whose price is negative. -/
theorem NewTickerPrice_negative_price :
    (NewTickerPrice "-1" "1" ⟨0⟩).2 = none ∧
    (NewTickerPrice "-1" "1" ⟨0⟩).1.Price = LegacyDec.ofRaw (-1000000000000000000) ∧
    ¬ (0 ≤ (NewTickerPrice "-1" "1" ⟨0⟩).1.Price.raw ∧
       0 ≤ (NewTickerPrice "-1" "1" ⟨0⟩).1.Volume.raw) :=
  ⟨by rfl, by rfl, by decide⟩

/-- C13, amended: `NewTickerPrice` checks no sign. Every ticker it returns
without error for two strings that do not start with a minus sign has a set
price and a set volume, both non-negative. -/
theorem NewTickerPrice_nonneg_of_unsigned (price volume : String) (timestamp : GoTime)
    (hp : price.toList.head? ≠ some '-') (hv : volume.toList.head? ≠ some '-')
    (hok : (NewTickerPrice price volume timestamp).2 = none) :
    (NewTickerPrice price volume timestamp).1.Price.IsNil = false ∧
    (NewTickerPrice price volume timestamp).1.Volume.IsNil = false ∧
    0 ≤ (NewTickerPrice price volume timestamp).1.Price.raw ∧
    0 ≤ (NewTickerPrice price volume timestamp).1.Volume.raw := by
  have hpe : (LegacyNewDecFromStr price).2 = none := by
    cases h : (LegacyNewDecFromStr price).2 with
    | none => rfl
    | some e =>
      rw [NewTickerPrice_price_error price volume timestamp e h] at hok
      exact absurd hok (by simp)
  have hve : (LegacyNewDecFromStr volume).2 = none := by
    cases h : (LegacyNewDecFromStr volume).2 with
    | none => rfl
    | some e =>
      rw [NewTickerPrice_volume_error price volume timestamp e hpe h] at hok
      exact absurd hok (by simp)
  obtain ⟨a, ha, ha2⟩ := LegacyNewDecFromStr_ok price hpe
  obtain ⟨b, hb, hb2⟩ := LegacyNewDecFromStr_ok volume hve
  rw [NewTickerPrice_ok price volume timestamp hpe hve]
  simp only [ha2, hb2]
  exact ⟨rfl, rfl, parseDecimal_nonneg _ a ha hp, parseDecimal_nonneg _ b hb hv⟩

/-- Witness of C13, amended: the strings "28.21" and "0". -/
theorem NewTickerPrice_nonneg_of_unsigned_witness :
    (NewTickerPrice "28.21" "0" ⟨0⟩).1.Price.IsNil = false ∧
    (NewTickerPrice "28.21" "0" ⟨0⟩).1.Volume.IsNil = false ∧
    0 ≤ (NewTickerPrice "28.21" "0" ⟨0⟩).1.Price.raw ∧
    0 ≤ (NewTickerPrice "28.21" "0" ⟨0⟩).1.Volume.raw :=
  NewTickerPrice_nonneg_of_unsigned "28.21" "0" ⟨0⟩ (by decide) (by decide) (by rfl)

/-! ## Lemmas on rounding -/

theorem chopNonneg_cases (d : Int) (hd : 0 ≤ d) :
    (chopPrecisionAndRoundNonneg d = d / 1000000000000000000 ∧
      2 * (d % 1000000000000000000) ≤ 1000000000000000000) ∨
    (chopPrecisionAndRoundNonneg d = d / 1000000000000000000 + 1 ∧
      1000000000000000000 ≤ 2 * (d % 1000000000000000000)) := by
  unfold chopPrecisionAndRoundNonneg precisionReuse fivePrecision
  rw [Int.tdiv_eq_ediv hd (by norm_num), Int.tmod_eq_emod hd (by norm_num)]
  simp only []
  split_ifs <;> omega

theorem chopNonneg_error (d : Int) (hd : 0 ≤ d) :
    2 * (chopPrecisionAndRoundNonneg d * 1000000000000000000 - d) ≤ 1000000000000000000 ∧
    -1000000000000000000 ≤ 2 * (chopPrecisionAndRoundNonneg d * 1000000000000000000 - d) := by
  rcases chopNonneg_cases d hd with ⟨h, h2⟩ | ⟨h, h2⟩ <;> rw [h] <;> omega

/-- Rounding moves a number by at most half a unit of the 18th digit. -/
theorem chop_error (d : Int) :
    2 * (chopPrecisionAndRound d * 1000000000000000000 - d) ≤ 1000000000000000000 ∧
    -1000000000000000000 ≤ 2 * (chopPrecisionAndRound d * 1000000000000000000 - d) := by
  unfold chopPrecisionAndRound
  split
  · have := chopNonneg_error (-d) (by omega)
    omega
  · exact chopNonneg_error d (by omega)

theorem chopNonneg_near (x p : Int) (hx : 0 ≤ x)
    (h1 : 2 * (x - p * 1000000000000000000) < 1000000000000000000)
    (h2 : 2 * (p * 1000000000000000000 - x) < 1000000000000000000) :
    chopPrecisionAndRoundNonneg x = p := by
  rcases chopNonneg_cases x hx with ⟨h, h3⟩ | ⟨h, h3⟩ <;> rw [h] <;> omega

/-- A number closer than half a unit to a decimal is rounded to that decimal. -/
theorem chop_near (x p : Int)
    (h1 : 2 * (x - p * 1000000000000000000) < 1000000000000000000)
    (h2 : 2 * (p * 1000000000000000000 - x) < 1000000000000000000) :
    chopPrecisionAndRound x = p := by
  unfold chopPrecisionAndRound
  split
  · have := chopNonneg_near (-x) (-p) (by omega) (by omega) (by omega)
    omega
  · exact chopNonneg_near x p (by omega) h1 h2

/-- Rounding is symmetric around zero. -/
theorem chop_neg (d : Int) : chopPrecisionAndRound (-d) = - chopPrecisionAndRound d := by
  unfold chopPrecisionAndRound
  rcases lt_trichotomy d 0 with h | h | h
  · rw [if_neg (by omega), if_pos h]; simp
  · subst h; rfl
  · rw [if_pos (by omega), if_neg (by omega)]; simp

theorem abs_tmod_lt (N v : Int) (hv : v ≠ 0) : |N.tmod v| < |v| := by
  have pos : ∀ M w : Int, 0 ≤ M → w ≠ 0 → |M.tmod w| < |w| := by
    intro M w hM hw
    rcases lt_or_gt_of_ne hw with hneg | hpos
    · have h1 := Int.tmod_nonneg (-w) hM
      have h2 := Int.tmod_lt_of_pos M (show 0 < -w by omega)
      rw [Int.tmod_neg] at h1 h2
      rw [abs_of_nonneg h1, abs_of_neg hneg]
      exact h2
    · have h1 := Int.tmod_nonneg w hM
      have h2 := Int.tmod_lt_of_pos M hpos
      rw [abs_of_nonneg h1, abs_of_pos hpos]
      exact h2
  rcases le_or_lt 0 N with hN | hN
  · exact pos N v hN hv
  · have h := pos (-N) v (by omega) hv
    have e : (-N).tmod v = -(N.tmod v) := by
      rw [Int.tmod_def, Int.tmod_def, Int.neg_tdiv]; ring
    rw [e, abs_neg] at h
    exact h

/-- A truncated quotient stays within `c` of `a` when the dividend is within
`c` times the divisor of `a` times the divisor. -/
theorem tdiv_near (N v a b c : Int) (hv : v ≠ 0) (hN : N = v * a + b) (hb : |b| ≤ c * |v|) :
    |N.tdiv v - a| ≤ c := by
  have hr := abs_tmod_lt N v hv
  have hdef := Int.tdiv_add_tmod N v
  have hvpos : 0 < |v| := abs_pos.mpr hv
  have h1 : |v| * |N.tdiv v - a| = |b - N.tmod v| := by
    rw [← abs_mul]
    congr 1
    linarith
  have h2 : |b - N.tmod v| ≤ |b| + |N.tmod v| := abs_sub _ _
  have h3 : |v| * |N.tdiv v - a| < |v| * (c + 1) := by
    rw [h1]
    calc |b - N.tmod v| ≤ |b| + |N.tmod v| := h2
      _ < c * |v| + |v| := by linarith
      _ = |v| * (c + 1) := by ring
  have h4 := lt_of_mul_lt_mul_left h3 (le_of_lt hvpos)
  omega

/-- Multiplying by a volume and dividing by it again gives back the price
when the volume is at least `1.000000000000000003` in absolute value. -/
theorem quoRaw_mulRaw_cancel (p v : Int) (hv : 1000000000000000003 ≤ |v|) :
    quoRaw (mulRaw p v) v = p := by
  have hv0 : v ≠ 0 := by
    intro h; rw [h] at hv; simp at hv
  unfold quoRaw mulRaw
  have he := chop_error (p * v)
  generalize chopPrecisionAndRound (p * v) = m at he
  have hnear := tdiv_near (m * squaredPrecisionReuse) v (p * 1000000000000000000)
    ((m * 1000000000000000000 - p * v) * 1000000000000000000) 499999999999999999 hv0
    (by unfold squaredPrecisionReuse; ring)
    (by
      have h1 : |(m * 1000000000000000000 - p * v) * 1000000000000000000| =
          |m * 1000000000000000000 - p * v| * 1000000000000000000 := by
        rw [abs_mul]; norm_num
      rw [h1]
      have h2 : 2 * |m * 1000000000000000000 - p * v| ≤ 1000000000000000000 := by
        rcases abs_cases (m * 1000000000000000000 - p * v) with ⟨h, _⟩ | ⟨h, _⟩ <;>
          rw [h] <;> linarith [he.1, he.2]
      nlinarith)
  rw [abs_le] at hnear
  apply chop_near <;> omega

/-- Multiplying by the volume 1 or -1 and dividing by it again gives back the
price. -/
theorem quoRaw_mulRaw_unit (p v : Int) (hv : |v| = 1000000000000000000) :
    quoRaw (mulRaw p v) v = p := by
  have hP : (1000000000000000000 : Int) ≠ 0 := by norm_num
  have h36 : squaredPrecisionReuse = 1000000000000000000 * precisionReuse := by
    unfold squaredPrecisionReuse precisionReuse; norm_num
  rcases abs_cases v with ⟨h, _⟩ | ⟨h, _⟩
  · have hv1 : v = precisionReuse := by rw [← h, hv]; rfl
    subst hv1
    unfold quoRaw mulRaw
    rw [chopPrecisionAndRound_mul, h36, ← mul_assoc]
    unfold precisionReuse
    rw [Int.mul_tdiv_cancel _ hP]
    exact chopPrecisionAndRound_mul p
  · have hv1 : v = - precisionReuse := by
      have : -v = precisionReuse := by rw [← h, hv]; rfl
      omega
    subst hv1
    unfold quoRaw mulRaw
    rw [mul_neg, chop_neg, chopPrecisionAndRound_mul, Int.tdiv_neg, neg_mul, Int.neg_tdiv,
      neg_neg, h36, ← mul_assoc]
    unfold precisionReuse
    rw [Int.mul_tdiv_cancel _ hP]
    exact chopPrecisionAndRound_mul p

theorem quoRaw_one (p : Int) : quoRaw p (1 * precisionReuse) = p := by
  have hP : precisionReuse ≠ 0 := by decide
  have h36 : squaredPrecisionReuse = precisionReuse * precisionReuse := by
    unfold squaredPrecisionReuse precisionReuse; norm_num
  unfold quoRaw
  rw [one_mul, h36, ← mul_assoc, Int.mul_tdiv_cancel _ hP]
  exact chopPrecisionAndRound_mul p

theorem quoRaw_tdiv_nonneg (S n : Int) (hS : 0 ≤ S) (hn : 0 < n) :
    (quoRaw S (n * precisionReuse) = S.tdiv n ∨ quoRaw S (n * precisionReuse) = S.tdiv n + 1) ∧
    (S.tmod n = 0 → quoRaw S (n * precisionReuse) = S.tdiv n) := by
  have hq : S.tdiv n = S / n := Int.tdiv_eq_ediv hS (le_of_lt hn)
  have hm : S.tmod n = S % n := Int.tmod_eq_emod hS (le_of_lt hn)
  have hr0 : 0 ≤ S % n := Int.emod_nonneg S (ne_of_gt hn)
  have hr1 : S % n < n := Int.emod_lt_of_pos S hn
  have hdiv : n * (S / n) + S % n = S := Int.ediv_add_emod S n
  have hy : (S * squaredPrecisionReuse).tdiv (n * precisionReuse) =
      (S % n * 1000000000000000000) / n + S / n * 1000000000000000000 := by
    rw [Int.tdiv_eq_ediv (mul_nonneg hS (by decide)) (mul_nonneg (le_of_lt hn) (by decide))]
    have e1 : S * squaredPrecisionReuse = 1000000000000000000 * (S * 1000000000000000000) := by
      unfold squaredPrecisionReuse; ring
    have e2 : n * precisionReuse = 1000000000000000000 * n := by
      unfold precisionReuse; ring
    rw [e1, e2, Int.mul_ediv_mul_of_pos _ _ (by norm_num)]
    have e3 : S * 1000000000000000000 =
        S % n * 1000000000000000000 + n * (S / n * 1000000000000000000) := by
      nth_rewrite 1 [← hdiv]; ring
    rw [e3, Int.add_mul_ediv_left _ _ (ne_of_gt hn)]
  have ht0 : 0 ≤ (S % n * 1000000000000000000) / n :=
    Int.ediv_nonneg (mul_nonneg hr0 (by norm_num)) (le_of_lt hn)
  have ht1 : (S % n * 1000000000000000000) / n < 1000000000000000000 :=
    Int.ediv_lt_of_lt_mul hn (by nlinarith)
  have hq0 : 0 ≤ S / n := Int.ediv_nonneg hS (le_of_lt hn)
  have htz : S % n = 0 → (S % n * 1000000000000000000) / n = 0 := by
    intro h; rw [h]; simp
  unfold quoRaw
  rw [hy, hq, hm]
  generalize (S % n * 1000000000000000000) / n = t at ht0 ht1 htz
  generalize S / n = q at hq0
  have hy0 : 0 ≤ t + q * 1000000000000000000 := by omega
  have hc := chopNonneg_cases (t + q * 1000000000000000000) hy0
  unfold chopPrecisionAndRound
  rw [if_neg (by omega)]
  refine ⟨?_, ?_⟩
  · rcases hc with ⟨h, _⟩ | ⟨h, _⟩
    · left; rw [h]; omega
    · right; rw [h]; omega
  · intro hr
    have ht : t = 0 := htz hr
    rcases hc with ⟨h, _⟩ | ⟨h, h2⟩
    · rw [h]; omega
    · omega

/-- The rounded quotient by a whole number and the truncated quotient differ
by at most one unit of the 18th digit, and agree when the division is exact. -/
theorem quoRaw_tdiv_near (S n : Int) (hn : 0 < n) :
    |quoRaw S (n * precisionReuse) - S.tdiv n| ≤ 1 ∧
    (S.tmod n = 0 → quoRaw S (n * precisionReuse) = S.tdiv n) := by
  rcases le_or_lt 0 S with hS | hS
  · obtain ⟨h1, h2⟩ := quoRaw_tdiv_nonneg S n hS hn
    refine ⟨?_, h2⟩
    rcases h1 with h | h <;> rw [h] <;> simp
  · obtain ⟨h1, h2⟩ := quoRaw_tdiv_nonneg (-S) n (by omega) hn
    have e1 : quoRaw S (n * precisionReuse) = - quoRaw (-S) (n * precisionReuse) := by
      unfold quoRaw
      rw [neg_mul, Int.neg_tdiv, chop_neg, neg_neg]
    have e2 : S.tdiv n = - (-S).tdiv n := by rw [Int.neg_tdiv, neg_neg]
    have e3 : (-S).tmod n = - S.tmod n := by
      rw [Int.tmod_def, Int.tmod_def, Int.neg_tdiv]; ring
    refine ⟨?_, ?_⟩
    · rw [e1, e2]
      rcases h1 with h | h <;> rw [h] <;> simp
    · intro hr
      rw [e1, e2, h2 (by rw [e3, hr]; rfl)]

/-! ## Lemmas on special ticker lists -/

theorem raw_of_set {d : LegacyDec} (h : d.IsNil = false) : d = LegacyDec.ofRaw d.raw := by
  obtain ⟨a, ha⟩ := (isNil_false_iff d).mp h
  cases d with
  | mk i =>
    simp only at ha
    subst ha
    rfl

/-- The final division of `ComputeVWAP` on a non-empty list of set tickers. -/
theorem ComputeVWAP_final_quo (l : List TickerPrice) (hne : l ≠ []) (hset : tickersSet l) :
    vwapDivisor l ≠ 0 ∧
    ComputeVWAP l =
      Except.ok (LegacyDec.ofRaw (quoRaw (vwapNumerator l) (vwapDivisor l)), none) := by
  refine ⟨?_, ComputeVWAP_of_set l hne hset⟩
  unfold vwapDivisor
  split
  · have h0 : (l.length : Int) ≠ 0 := by
      have : l.length ≠ 0 := fun h => hne (List.length_eq_zero.mp h)
      exact_mod_cast this
    exact mul_ne_zero h0 (by decide)
  · assumption

theorem volumeTotal_zero_of_all_zero (l : List TickerPrice) (h : ∀ tp ∈ l, tp.Volume.raw = 0) :
    volumeTotal l = 0 := by
  unfold volumeTotal
  induction l with
  | nil => rfl
  | cons tp rest ih =>
    rw [List.map_cons, List.sum_cons, h tp (List.mem_cons_self _ _),
      ih (fun t ht => h t (List.mem_cons_of_mem _ ht))]
    rfl

theorem volumeTotal_nonneg (l : List TickerPrice) (h : ∀ tp ∈ l, 0 ≤ tp.Volume.raw) :
    0 ≤ volumeTotal l := by
  unfold volumeTotal
  induction l with
  | nil => exact le_refl _
  | cons tp rest ih =>
    rw [List.map_cons, List.sum_cons]
    exact add_nonneg (h tp (List.mem_cons_self _ _))
      (ih (fun t ht => h t (List.mem_cons_of_mem _ ht)))

theorem volumeTotal_pos (l : List TickerPrice) (h : ∀ tp ∈ l, 0 ≤ tp.Volume.raw)
    (hex : ∃ tp ∈ l, 0 < tp.Volume.raw) : 0 < volumeTotal l := by
  induction l with
  | nil =>
    obtain ⟨tp, htp, _⟩ := hex
    exact absurd htp (List.not_mem_nil tp)
  | cons tp rest ih =>
    have hrest : ∀ t ∈ rest, 0 ≤ t.Volume.raw := fun t ht => h t (List.mem_cons_of_mem _ ht)
    have h0 := volumeTotal_nonneg rest hrest
    have htp := h tp (List.mem_cons_self _ _)
    have hsum : volumeTotal (tp :: rest) = tp.Volume.raw + volumeTotal rest := rfl
    rw [hsum]
    obtain ⟨t, ht, hpos⟩ := hex
    rcases List.mem_cons.mp ht with rfl | ht
    · omega
    · have := ih hrest ⟨t, ht, hpos⟩
      omega

theorem mulRaw_zero (p : Int) : mulRaw p 0 = 0 := by
  unfold mulRaw
  rw [mul_zero]
  rfl

theorem sum_unit_weights (l : List TickerPrice) :
    (l.map (fun tp => mulRaw tp.Price.raw (LegacyNewDec 1).raw)).sum = priceTotal l := by
  have : ∀ p, mulRaw p (LegacyNewDec 1).raw = p := mulRaw_one
  simp [this, priceTotal]

/-! ## Further theorems on `ComputeVWAP` -/

/-- C14, counterexample: the single ticker with price 1.13 and volume 10^-18
gives 1, not 1.13: the product 1.13 * 10^-18 is rounded to 10^-18. -/
theorem ComputeVWAP_single_rounds :
    ComputeVWAP [⟨LegacyDec.ofRaw 1130000000000000000, LegacyDec.ofRaw 1, ⟨0⟩⟩] =
      Except.ok (LegacyDec.ofRaw 1000000000000000000, none) ∧
    LegacyDec.ofRaw 1000000000000000000 ≠ LegacyDec.ofRaw 1130000000000000000 :=
  ⟨by rfl, by decide⟩

/-- C14, amended: for a list of exactly one ticker (price and volume set)
`ComputeVWAP` returns the price itself when the volume is zero and
`Quo(Mul(price, volume), volume)` otherwise; this is exactly the price when the
volume is zero, when it is 1 or -1, and when it is at least 1.000000000000000003
in absolute value. -/
theorem ComputeVWAP_single (tp : TickerPrice)
    (hset : tp.Price.IsNil = false ∧ tp.Volume.IsNil = false) :
    (tp.Volume.raw = 0 → ComputeVWAP [tp] = Except.ok (tp.Price, none)) ∧
    (tp.Volume.raw ≠ 0 → ComputeVWAP [tp] =
      Except.ok (LegacyDec.ofRaw (quoRaw (mulRaw tp.Price.raw tp.Volume.raw) tp.Volume.raw),
        none)) ∧
    ((|tp.Volume.raw| = 1000000000000000000 ∨ 1000000000000000003 ≤ |tp.Volume.raw|) →
      ComputeVWAP [tp] = Except.ok (tp.Price, none)) := by
  have hs : tickersSet [tp] := by
    intro t ht
    rw [List.mem_singleton.mp ht]
    exact hset
  have h := ComputeVWAP_of_set [tp] (by simp) hs
  have hv : volumeTotal [tp] = tp.Volume.raw := by simp [volumeTotal]
  have hp : priceTotal [tp] = tp.Price.raw := by simp [priceTotal]
  have hw : weightedTotal [tp] = mulRaw tp.Price.raw tp.Volume.raw := by simp [weightedTotal]
  rw [hv, hp, hw] at h
  have hzero : tp.Volume.raw = 0 → ComputeVWAP [tp] = Except.ok (tp.Price, none) := by
    intro h0
    rw [h, if_pos h0, if_pos h0]
    have e : ((([tp] : List TickerPrice).length : Int)) * precisionReuse = 1 * precisionReuse := by
      simp
    rw [e, quoRaw_one, ← raw_of_set hset.1]
  have hnz : tp.Volume.raw ≠ 0 → ComputeVWAP [tp] =
      Except.ok (LegacyDec.ofRaw (quoRaw (mulRaw tp.Price.raw tp.Volume.raw) tp.Volume.raw),
        none) := by
    intro h0
    rw [h, if_neg h0, if_neg h0]
  refine ⟨hzero, hnz, ?_⟩
  intro hbig
  have h0 : tp.Volume.raw ≠ 0 := by
    intro h0
    rw [h0] at hbig
    simp at hbig
  rw [hnz h0]
  rcases hbig with hb | hb
  · rw [quoRaw_mulRaw_unit _ _ hb, ← raw_of_set hset.1]
  · rw [quoRaw_mulRaw_cancel _ _ hb, ← raw_of_set hset.1]

/-- Witness of C14, amended: the test tickers (1.13, 249102.38) and (12.34, 0)
give 1.13 and 12.34. -/
theorem ComputeVWAP_single_witness :
    ComputeVWAP [⟨LegacyDec.ofRaw 1130000000000000000,
        LegacyDec.ofRaw 249102380000000000000000, ⟨0⟩⟩] =
      Except.ok (LegacyDec.ofRaw 1130000000000000000, none) ∧
    ComputeVWAP [⟨LegacyDec.ofRaw 12340000000000000000, LegacyDec.ofRaw 0, ⟨0⟩⟩] =
      Except.ok (LegacyDec.ofRaw 12340000000000000000, none) :=
  ⟨(ComputeVWAP_single
      ⟨LegacyDec.ofRaw 1130000000000000000, LegacyDec.ofRaw 249102380000000000000000, ⟨0⟩⟩
      (by decide)).2.2 (Or.inr (by decide)),
   (ComputeVWAP_single ⟨LegacyDec.ofRaw 12340000000000000000, LegacyDec.ofRaw 0, ⟨0⟩⟩
      (by decide)).1 (by rfl)⟩

/-- C18: `ComputeVWAP` never divides by zero. On every non-empty list of set
tickers, of any sign, the result is the final `Quo` of the dividend by a
divisor that is not zero; and on no list at all is the outcome the panic of a
division by zero. -/
theorem ComputeVWAP_never_divides_by_zero (l : List TickerPrice) :
    (l ≠ [] → tickersSet l →
      vwapDivisor l ≠ 0 ∧
      ((LegacyDec.ofRaw (vwapNumerator l)).Quo (LegacyDec.ofRaw (vwapDivisor l))).map
        (fun vwap => (vwap, (none : Option GoError))) = ComputeVWAP l) ∧
    ComputeVWAP l ≠ Except.error Panic.divisionByZero := by
  refine ⟨?_, ?_⟩
  · intro hne hset
    obtain ⟨h1, h2⟩ := ComputeVWAP_final_quo l hne hset
    refine ⟨h1, ?_⟩
    rw [h2]
    unfold LegacyDec.Quo LegacyDec.ofRaw
    simp [h1, pure, Except.pure, Except.map]
  · rw [ComputeVWAP_eq]
    split
    · simp
    · split
      · split
        · simp
        · simp
      · simp

/-- Witness of C18: two tickers whose volumes 5 and -5 cancel; the divisor is
the number of tickers. -/
theorem ComputeVWAP_never_divides_by_zero_witness :
    vwapDivisor [⟨LegacyDec.ofRaw 10000000000000000000, LegacyDec.ofRaw 5000000000000000000, ⟨0⟩⟩,
      ⟨LegacyDec.ofRaw 20000000000000000000, LegacyDec.ofRaw (-5000000000000000000), ⟨0⟩⟩] ≠ 0 ∧
    ComputeVWAP [⟨LegacyDec.ofRaw 10000000000000000000, LegacyDec.ofRaw 5000000000000000000, ⟨0⟩⟩,
      ⟨LegacyDec.ofRaw 20000000000000000000, LegacyDec.ofRaw (-5000000000000000000), ⟨0⟩⟩] =
      Except.ok (LegacyDec.ofRaw 15000000000000000000, none) :=
  ⟨((ComputeVWAP_never_divides_by_zero _).1 (by decide) (by decide)).1,
   (((ComputeVWAP_never_divides_by_zero _).1 (by decide) (by decide)).2.symm).trans (by rfl)⟩

/-- C19: on a non-empty list of set tickers with non-negative volumes, the
volume sum that `ComputeVWAP` tests is zero if and only if every ticker has
volume 0. In that case every ticker is weighted by 1; if some ticker has a
positive volume the real volumes weigh every ticker, and a ticker of volume 0
then adds nothing to the weighted sum. -/
theorem ComputeVWAP_unit_weights_iff_all_zero (l : List TickerPrice) (hne : l ≠ [])
    (hset : tickersSet l) (hvol : ∀ tp ∈ l, 0 ≤ tp.Volume.raw) :
    (volumeTotal l = 0 ↔ ∀ tp ∈ l, tp.Volume.raw = 0) ∧
    ((∀ tp ∈ l, tp.Volume.raw = 0) →
      ComputeVWAP l = Except.ok (LegacyDec.ofRaw (quoRaw
        ((l.map (fun tp => mulRaw tp.Price.raw (LegacyNewDec 1).raw)).sum)
        (LegacyNewDec (l.length : Int)).raw), none)) ∧
    ((∃ tp ∈ l, 0 < tp.Volume.raw) →
      ComputeVWAP l = Except.ok (LegacyDec.ofRaw (quoRaw
        ((l.map (fun tp => mulRaw tp.Price.raw tp.Volume.raw)).sum)
        ((l.map (fun tp => tp.Volume.raw)).sum)), none)) ∧
    (∀ tp ∈ l, tp.Volume.raw = 0 → mulRaw tp.Price.raw tp.Volume.raw = 0) := by
  have h := ComputeVWAP_of_set l hne hset
  refine ⟨⟨?_, volumeTotal_zero_of_all_zero l⟩, ?_, ?_, ?_⟩
  · intro h0 tp htp
    by_contra hnz
    have hpos : 0 < tp.Volume.raw := lt_of_le_of_ne (hvol tp htp) (Ne.symm hnz)
    have := volumeTotal_pos l hvol ⟨tp, htp, hpos⟩
    omega
  · intro hz
    have h0 := volumeTotal_zero_of_all_zero l hz
    rw [h, if_pos h0, if_pos h0, sum_unit_weights]
    rfl
  · intro hex
    have h0 : volumeTotal l ≠ 0 := ne_of_gt (volumeTotal_pos l hvol hex)
    rw [h, if_neg h0, if_neg h0]
    rfl
  · intro tp _ h0
    rw [h0, mulRaw_zero]

/-- Witness of C19: prices 10 and 20 with volumes 0 and 4 give 20, the ticker
of volume 0 adding nothing; with volumes 0 and 0 they give 15. -/
theorem ComputeVWAP_unit_weights_iff_all_zero_witness :
    ComputeVWAP [⟨LegacyDec.ofRaw 10000000000000000000, LegacyDec.ofRaw 0, ⟨0⟩⟩,
      ⟨LegacyDec.ofRaw 20000000000000000000, LegacyDec.ofRaw 4000000000000000000, ⟨0⟩⟩] =
      Except.ok (LegacyDec.ofRaw 20000000000000000000, none) ∧
    ComputeVWAP [⟨LegacyDec.ofRaw 10000000000000000000, LegacyDec.ofRaw 0, ⟨0⟩⟩,
      ⟨LegacyDec.ofRaw 20000000000000000000, LegacyDec.ofRaw 0, ⟨0⟩⟩] =
      Except.ok (LegacyDec.ofRaw 15000000000000000000, none) :=
  ⟨((ComputeVWAP_unit_weights_iff_all_zero _ (by decide) (by decide) (by decide)).2.2.1
      ⟨⟨LegacyDec.ofRaw 20000000000000000000, LegacyDec.ofRaw 4000000000000000000, ⟨0⟩⟩,
        by decide, by decide⟩).trans (by rfl),
   ((ComputeVWAP_unit_weights_iff_all_zero _ (by decide) (by decide) (by decide)).2.1
      (by decide)).trans (by rfl)⟩

/-- C20, counterexample: for the prices 1, 1, 3 with volume 0 `ComputeVWAP`
returns 1.666666666666666667, while the mean of `StandardDeviation` is
1.666666666666666666. -/
theorem ComputeVWAP_fallback_differs_from_mean :
    ComputeVWAP [⟨LegacyDec.ofRaw 1000000000000000000, LegacyDec.ofRaw 0, ⟨0⟩⟩,
      ⟨LegacyDec.ofRaw 1000000000000000000, LegacyDec.ofRaw 0, ⟨0⟩⟩,
      ⟨LegacyDec.ofRaw 3000000000000000000, LegacyDec.ofRaw 0, ⟨0⟩⟩] =
      Except.ok (LegacyDec.ofRaw 1666666666666666667, none) ∧
    (∃ deviation, StandardDeviation [LegacyDec.ofRaw 1000000000000000000,
      LegacyDec.ofRaw 1000000000000000000, LegacyDec.ofRaw 3000000000000000000] =
      Except.ok (deviation, LegacyDec.ofRaw 1666666666666666666, none)) ∧
    LegacyDec.ofRaw 1666666666666666667 ≠ LegacyDec.ofRaw 1666666666666666666 :=
  ⟨by rfl, ⟨_, by rfl⟩, by decide⟩

/-- C20, amended: for every list of at least three set tickers whose volumes
are all zero, `ComputeVWAP` and `StandardDeviation` on the prices both return;
the first rounds the quotient of the price sum by the number of tickers, the
second truncates it, so the two means differ by at most one unit of the 18th
fractional digit, and they are equal when the price sum is a multiple of the
number of tickers. -/
theorem ComputeVWAP_fallback_near_mean (l : List TickerPrice) (h3 : 3 ≤ l.length)
    (hset : tickersSet l) (hzero : ∀ tp ∈ l, tp.Volume.raw = 0) :
    ∃ vwap mean : Int, ∃ deviation : LegacyDec,
      ComputeVWAP l = Except.ok (LegacyDec.ofRaw vwap, none) ∧
      StandardDeviation (l.map (fun tp => tp.Price)) =
        Except.ok (deviation, LegacyDec.ofRaw mean, none) ∧
      |vwap - mean| ≤ 1 ∧
      ((priceTotal l).tmod (l.length : Int) = 0 → vwap = mean) := by
  have hne : l ≠ [] := by
    intro h; rw [h] at h3; simp at h3
  have hn : (0 : Int) < (l.length : Int) := by
    have : 0 < l.length := by omega
    exact_mod_cast this
  have h0 := volumeTotal_zero_of_all_zero l hzero
  have hv := ComputeVWAP_of_set l hne hset
  rw [if_pos h0, if_pos h0] at hv
  have hps : pricesSet (l.map (fun tp => tp.Price)) := by
    intro price hp
    obtain ⟨tp, htp, rfl⟩ := List.mem_map.mp hp
    exact (hset tp htp).1
  have hlen : (l.map (fun tp => tp.Price)).length = l.length := List.length_map _ _
  have hs := StandardDeviation_of_set (l.map (fun tp => tp.Price)) (by rw [hlen]; exact h3) hps
  have hmean : meanOf (l.map (fun tp => tp.Price)) = (priceTotal l).tdiv (l.length : Int) := by
    unfold meanOf priceTotal
    rw [hlen, List.map_map]
    rfl
  rw [hmean] at hs
  obtain ⟨hnear, hexact⟩ := quoRaw_tdiv_near (priceTotal l) (l.length : Int) hn
  exact ⟨_, _, _, hv, hs, hnear, hexact⟩

/-- Witness of C20, amended: the prices 10, 20, 30 with volume 0 have the mean
20 in both computations. -/
theorem ComputeVWAP_fallback_near_mean_witness :
    ∃ vwap mean : Int, ∃ deviation : LegacyDec,
      ComputeVWAP zeroVolumeTickers = Except.ok (LegacyDec.ofRaw vwap, none) ∧
      StandardDeviation (zeroVolumeTickers.map (fun tp => tp.Price)) =
        Except.ok (deviation, LegacyDec.ofRaw mean, none) ∧
      |vwap - mean| ≤ 1 ∧
      ((priceTotal zeroVolumeTickers).tmod (zeroVolumeTickers.length : Int) = 0 → vwap = mean) :=
  ComputeVWAP_fallback_near_mean zeroVolumeTickers (by decide) (by decide) (by decide)

/-! ## Lemmas on the resolver -/

theorem convertWith_fst_mem (rateOf : String → Option LegacyDec)
    (resolved : List (String × CandidatePrice)) (pending : List Edge)
    (x : String × CandidatePrice) (hx : x ∈ resolved) :
    x ∈ (convertWith rateOf resolved pending).1 :=
  List.mem_append_left _ hx

theorem convertWith_snd_mem (rateOf : String → Option LegacyDec)
    (resolved : List (String × CandidatePrice)) (pending : List Edge)
    (e : Edge) (he : e ∈ (convertWith rateOf resolved pending).2) : e ∈ pending :=
  (List.mem_filter.mp he).1

/-- A candidate that a pass adds comes from a pending edge whose quote has a USD
price. -/
theorem convertWith_new (rateOf : String → Option LegacyDec)
    (resolved : List (String × CandidatePrice)) (pending : List Edge)
    (x : String × CandidatePrice) (hx : x ∈ (convertWith rateOf resolved pending).1) :
    x ∈ resolved ∨ ∃ e ∈ pending, ∃ rate, rateOf e.pair.Quote = some rate ∧
      convertedCandidate rate e = some x := by
  rcases List.mem_append.mp hx with h | h
  · exact Or.inl h
  · obtain ⟨e, he, hx2⟩ := List.mem_filterMap.mp h
    obtain ⟨rate, hr, hc⟩ := Option.bind_eq_some.mp hx2
    exact Or.inr ⟨e, he, rate, hr, hc⟩

/-- When no pending edge has a USD price for its quote, a pass changes
nothing. -/
theorem convertWith_fixed (rateOf : String → Option LegacyDec)
    (resolved : List (String × CandidatePrice)) (pending : List Edge)
    (h : ∀ e ∈ pending, rateOf e.pair.Quote = none) :
    convertWith rateOf resolved pending = (resolved, pending) := by
  unfold convertWith
  have h1 : pending.filterMap (fun e =>
      (rateOf e.pair.Quote).bind (fun rate => convertedCandidate rate e)) = [] := by
    rw [List.filterMap_eq_nil_iff]
    intro e he
    rw [h e he]
    rfl
  have h2 : pending.filter (fun e => (rateOf e.pair.Quote).isNone) = pending := by
    rw [List.filter_eq_self]
    intro e he
    rw [h e he]
    rfl
  rw [h1, h2, List.append_nil]

/-- When a pending edge has a USD price for its quote, a pass leaves fewer
edges pending. -/
theorem convertWith_progress (rateOf : String → Option LegacyDec)
    (resolved : List (String × CandidatePrice)) (pending : List Edge)
    (h : ∃ e ∈ pending, (rateOf e.pair.Quote).isSome = true) :
    (convertWith rateOf resolved pending).2.length < pending.length := by
  obtain ⟨e, he, hs⟩ := h
  unfold convertWith
  rw [List.length_filter_lt_length_iff_exists]
  refine ⟨e, he, ?_⟩
  cases hq : rateOf e.pair.Quote with
  | none => rw [hq] at hs; exact absurd hs (by simp)
  | some rate => simp

/-- A pending edge either stays pending in a pass or has a USD price for its
quote, with which it is converted. -/
theorem convertWith_track (rateOf : String → Option LegacyDec)
    (resolved : List (String × CandidatePrice)) (pending : List Edge)
    (e : Edge) (he : e ∈ pending) :
    (rateOf e.pair.Quote = none ∧ e ∈ (convertWith rateOf resolved pending).2) ∨
    ∃ rate, rateOf e.pair.Quote = some rate ∧
      ∀ x, convertedCandidate rate e = some x → x ∈ (convertWith rateOf resolved pending).1 := by
  cases hq : rateOf e.pair.Quote with
  | none =>
    left
    exact ⟨rfl, List.mem_filter.mpr ⟨he, by rw [hq]; rfl⟩⟩
  | some rate =>
    right
    refine ⟨rate, rfl, ?_⟩
    intro x hx
    refine List.mem_append_right _ (List.mem_filterMap.mpr ⟨e, he, ?_⟩)
    rw [hq]
    exact hx

theorem convertedCandidate_some (rate : LegacyDec) (e : Edge) (x : String × CandidatePrice)
    (h : convertedCandidate rate e = some x) :
    x.1 = e.pair.Base ∧ e.ticker.Price.Mul rate = Except.ok x.2.price ∧
    x.2.volume = e.ticker.Volume ∧ x.2.source = e.source := by
  unfold convertedCandidate at h
  split at h
  · rename_i price hm
    simp only [Option.some.injEq] at h
    subst h
    exact ⟨rfl, hm, rfl, rfl⟩
  · exact absurd h (by simp)

/-- Whatever `ComputeVWAP` returns with a nil error is a set decimal. -/
theorem ComputeVWAP_ok_set (l : List TickerPrice) (d : LegacyDec)
    (h : ComputeVWAP l = Except.ok (d, none)) : d.IsNil = false := by
  rw [ComputeVWAP_eq] at h
  split at h
  · simp at h
  · split at h
    · split at h
      · simp only [Except.ok.injEq, Prod.mk.injEq] at h
        rw [← h.1]; rfl
      · simp at h
    · simp at h

theorem priceOfCandidates_set (tickers : List TickerPrice) (price : LegacyDec)
    (h : priceOfCandidates tickers = some price) : price.IsNil = false := by
  unfold priceOfCandidates at h
  split at h
  · rename_i p hv
    simp only [Option.some.injEq] at h
    subst h
    exact ComputeVWAP_ok_set _ _ hv
  · exact absurd h (by simp)

/-- The reduction of candidates gives a price exactly when `ComputeVWAP` returns
that price with a nil error. -/
theorem priceOfCandidates_iff (tickers : List TickerPrice) (price : LegacyDec) :
    priceOfCandidates tickers = some price ↔
      ComputeVWAP tickers = Except.ok (price, none) := by
  unfold priceOfCandidates
  constructor
  · intro h
    split at h
    · rename_i p hv
      simp only [Option.some.injEq] at h
      subst h
      exact hv
    · exact absurd h (by simp)
  · intro h
    rw [h]

/-- The USD price of a quote in the tick is the volume-weighted average of its
dispersion-filtered candidates. -/
theorem quoteRate_iff (threshold : LegacyDec) (resolved : List (String × CandidatePrice))
    (symbol : String) (rate : LegacyDec) :
    quoteRate threshold resolved symbol = some rate ↔
      ComputeVWAP (filterDeviations threshold (candidateTickers symbol resolved)) =
        Except.ok (rate, none) :=
  priceOfCandidates_iff _ rate

/-- The USD price of a quote is a set decimal. -/
theorem quoteRate_set (threshold : LegacyDec) (resolved : List (String × CandidatePrice))
    (symbol : String) (rate : LegacyDec)
    (h : quoteRate threshold resolved symbol = some rate) : rate.IsNil = false :=
  priceOfCandidates_set _ _ h

/-- The cached price of a quote is the set entry of the fallback rates. -/
theorem fallbackRate_iff (fb : List (String × LegacyDec)) (symbol : String) (rate : LegacyDec) :
    fallbackRate fb symbol = some rate ↔ fb.lookup symbol = some rate ∧ rate.IsNil = false := by
  unfold fallbackRate
  cases hl : fb.lookup symbol with
  | none => simp
  | some r =>
    by_cases hn : r.IsNil = true
    · simp only [hn, if_true, Option.some.injEq]
      constructor
      · intro h
        exact absurd h (by simp)
      · rintro ⟨h1, h2⟩
        rw [h1, h2] at hn
        exact absurd hn (by simp)
    · have hn2 : r.IsNil = false := by simpa using hn
      simp only [hn2, Option.some.injEq]
      constructor
      · intro h
        have h2 : r = rate := by simpa using h
        exact ⟨h2, by rw [← h2]; exact hn2⟩
      · rintro ⟨h1, _⟩
        simp [h1]

theorem none_of_not_any (threshold : LegacyDec) (resolved : List (String × CandidatePrice))
    (pending : List Edge)
    (h : ¬ pending.any (fun e => (quoteRate threshold resolved e.pair.Quote).isSome) = true) :
    ∀ e ∈ pending, quoteRate threshold resolved e.pair.Quote = none := by
  intro e he
  by_contra hc
  apply h
  exact List.any_eq_true.mpr ⟨e, he, Option.isSome_iff_ne_none.mpr hc⟩

theorem resolveStep_fst_mem (threshold : LegacyDec) (fb : List (String × LegacyDec))
    (resolved : List (String × CandidatePrice)) (pending : List Edge)
    (x : String × CandidatePrice) (hx : x ∈ resolved) :
    x ∈ (resolveStep threshold fb resolved pending).1 := by
  unfold resolveStep
  split <;> exact convertWith_fst_mem _ _ _ x hx

theorem resolveStep_snd_mem (threshold : LegacyDec) (fb : List (String × LegacyDec))
    (resolved : List (String × CandidatePrice)) (pending : List Edge)
    (e : Edge) (he : e ∈ (resolveStep threshold fb resolved pending).2) : e ∈ pending := by
  unfold resolveStep at he
  split at he <;> exact convertWith_snd_mem _ _ _ e he

/-- A candidate that a pass of the resolver adds comes from a pending edge,
converted with the USD price that the pass uses for its quote. -/
theorem resolveStep_new (threshold : LegacyDec) (fb : List (String × LegacyDec))
    (resolved : List (String × CandidatePrice)) (pending : List Edge)
    (x : String × CandidatePrice) (hx : x ∈ (resolveStep threshold fb resolved pending).1) :
    x ∈ resolved ∨ ∃ e ∈ pending, ∃ rate, rateUsed threshold fb (resolved, pending) e rate ∧
      convertedCandidate rate e = some x := by
  unfold resolveStep at hx
  split at hx
  · rcases convertWith_new _ _ _ x hx with h | ⟨e, he, rate, hr, hc⟩
    · exact Or.inl h
    · exact Or.inr ⟨e, he, rate, Or.inl ((quoteRate_iff _ _ _ _).mp hr), hc⟩
  · rename_i hany
    rcases convertWith_new _ _ _ x hx with h | ⟨e, he, rate, hr, hc⟩
    · exact Or.inl h
    · have hfb := (fallbackRate_iff _ _ _).mp hr
      exact Or.inr ⟨e, he, rate,
        Or.inr ⟨none_of_not_any threshold resolved pending hany, hfb.1, hfb.2⟩, hc⟩

/-- When no pending edge has a USD price for its quote, neither in the tick nor
cached, a pass of the resolver changes nothing. -/
theorem resolveStep_fixed (threshold : LegacyDec) (fb : List (String × LegacyDec))
    (resolved : List (String × CandidatePrice)) (pending : List Edge)
    (h : ∀ e ∈ pending, quoteRate threshold resolved e.pair.Quote = none ∧
      fallbackRate fb e.pair.Quote = none) :
    resolveStep threshold fb resolved pending = (resolved, pending) := by
  unfold resolveStep
  split
  · exact convertWith_fixed _ _ _ (fun e he => (h e he).1)
  · exact convertWith_fixed _ _ _ (fun e he => (h e he).2)

/-- A pass of the resolver either finds no USD price for the quote of any
pending edge, or leaves fewer edges pending. -/
theorem resolveStep_progress (threshold : LegacyDec) (fb : List (String × LegacyDec))
    (resolved : List (String × CandidatePrice)) (pending : List Edge) :
    (∀ e ∈ pending, quoteRate threshold resolved e.pair.Quote = none ∧
      fallbackRate fb e.pair.Quote = none) ∨
    (resolveStep threshold fb resolved pending).2.length < pending.length := by
  by_cases hany : pending.any (fun e => (quoteRate threshold resolved e.pair.Quote).isSome) = true
  · right
    unfold resolveStep
    rw [if_pos hany]
    exact convertWith_progress _ _ _ (List.any_eq_true.mp hany)
  · by_cases hfb : ∃ e ∈ pending, (fallbackRate fb e.pair.Quote).isSome = true
    · right
      unfold resolveStep
      rw [if_neg hany]
      exact convertWith_progress _ _ _ hfb
    · left
      intro e he
      refine ⟨none_of_not_any threshold resolved pending hany e he, ?_⟩
      by_contra hc
      exact hfb ⟨e, he, Option.isSome_iff_ne_none.mpr hc⟩

/-- An edge with a set price is converted by any set rate. -/
theorem convertedCandidate_of_set (rate : LegacyDec) (e : Edge)
    (hr : rate.IsNil = false) (he : e.ticker.Price.IsNil = false) :
    convertedCandidate rate e =
      some (e.pair.Base, { price := LegacyDec.ofRaw (mulRaw e.ticker.Price.raw rate.raw),
                           volume := e.ticker.Volume, source := e.source }) := by
  obtain ⟨a, ha⟩ := (isNil_false_iff _).mp he
  obtain ⟨b, hb⟩ := (isNil_false_iff _).mp hr
  unfold convertedCandidate LegacyDec.Mul LegacyDec.raw
  simp [ha, hb, pure, Except.pure]

/-- The rate that a pass uses is a set decimal. -/
theorem rateUsed_set (threshold : LegacyDec) (fb : List (String × LegacyDec))
    (state : List (String × CandidatePrice) × List Edge) (e : Edge) (rate : LegacyDec)
    (h : rateUsed threshold fb state e rate) : rate.IsNil = false := by
  rcases h with h | ⟨_, _, h⟩
  · exact ComputeVWAP_ok_set _ _ h
  · exact h

/-- A pending edge with a set price either stays pending in a pass of the
resolver, or is converted with the USD price that the pass uses for its
quote. -/
theorem resolveStep_track (threshold : LegacyDec) (fb : List (String × LegacyDec))
    (resolved : List (String × CandidatePrice)) (pending : List Edge)
    (e : Edge) (he : e ∈ pending) (hset : e.ticker.Price.IsNil = false) :
    e ∈ (resolveStep threshold fb resolved pending).2 ∨
    ∃ rate, rateUsed threshold fb (resolved, pending) e rate ∧
      (e.pair.Base,
        ({ price := LegacyDec.ofRaw (mulRaw e.ticker.Price.raw rate.raw),
           volume := e.ticker.Volume, source := e.source } : CandidatePrice)) ∈
        (resolveStep threshold fb resolved pending).1 := by
  unfold resolveStep
  split
  · rcases convertWith_track (quoteRate threshold resolved) resolved pending e he with
      h | ⟨rate, hr, hx⟩
    · exact Or.inl h.2
    · right
      exact ⟨rate, Or.inl ((quoteRate_iff _ _ _ _).mp hr),
        hx _ (convertedCandidate_of_set rate e (quoteRate_set _ _ _ _ hr) hset)⟩
  · rename_i hany
    rcases convertWith_track (fallbackRate fb) resolved pending e he with h | ⟨rate, hr, hx⟩
    · exact Or.inl h.2
    · right
      have hfb := (fallbackRate_iff _ _ _).mp hr
      exact ⟨rate, Or.inr ⟨none_of_not_any threshold resolved pending hany, hfb.1, hfb.2⟩,
        hx _ (convertedCandidate_of_set rate e hfb.2 hset)⟩

/-- The passes keep every candidate already resolved. -/
theorem resolvePasses_mono (threshold : LegacyDec) (fb : List (String × LegacyDec))
    (state : List (String × CandidatePrice) × List Edge) (x : String × CandidatePrice)
    (j : Nat) (hx : x ∈ (resolvePasses threshold fb j state).1) :
    ∀ k, j ≤ k → x ∈ (resolvePasses threshold fb k state).1 := by
  intro k hjk
  induction k with
  | zero =>
    have : j = 0 := by omega
    subst this
    exact hx
  | succ k ih =>
    by_cases hj : j = k + 1
    · subst hj
      exact hx
    · exact resolveStep_fst_mem _ _ _ _ x (ih (by omega))

/-- What is pending after some passes was pending at the start. -/
theorem resolvePasses_snd_mem (threshold : LegacyDec) (fb : List (String × LegacyDec))
    (state : List (String × CandidatePrice) × List Edge) (e : Edge) :
    ∀ k, e ∈ (resolvePasses threshold fb k state).2 → e ∈ state.2 := by
  intro k
  induction k with
  | zero => intro he; exact he
  | succ k ih =>
    intro he
    exact ih (resolveStep_snd_mem _ _ _ _ e he)

/-- Every candidate that the passes add comes from an edge still pending after
some earlier number of passes, converted in the next pass with the USD price
that pass uses for its quote. -/
theorem resolvePasses_mem (threshold : LegacyDec) (fb : List (String × LegacyDec))
    (state : List (String × CandidatePrice) × List Edge) (x : String × CandidatePrice) :
    ∀ k, x ∈ (resolvePasses threshold fb k state).1 →
      x ∈ state.1 ∨ ∃ j, j < k ∧ ∃ e ∈ (resolvePasses threshold fb j state).2, ∃ rate,
        rateUsed threshold fb (resolvePasses threshold fb j state) e rate ∧
        convertedCandidate rate e = some x := by
  intro k
  induction k with
  | zero => intro hx; exact Or.inl hx
  | succ k ih =>
    intro hx
    rcases resolveStep_new _ _ _ _ x hx with h | ⟨e, he, rate, hr, hc⟩
    · rcases ih h with h2 | ⟨j, hj, e, he, rate, hr, hc⟩
      · exact Or.inl h2
      · exact Or.inr ⟨j, by omega, e, he, rate, hr, hc⟩
    · exact Or.inr ⟨k, by omega, e, he, rate, hr, hc⟩

/-- Once no pending edge has a USD price for its quote, the passes change
nothing. -/
theorem resolvePasses_fixed (threshold : LegacyDec) (fb : List (String × LegacyDec))
    (state : List (String × CandidatePrice) × List Edge)
    (h : ∀ e ∈ state.2, quoteRate threshold state.1 e.pair.Quote = none ∧
      fallbackRate fb e.pair.Quote = none) :
    ∀ k, resolvePasses threshold fb k state = state := by
  intro k
  induction k with
  | zero => rfl
  | succ k ih =>
    show resolveStep threshold fb (resolvePasses threshold fb k state).1
      (resolvePasses threshold fb k state).2 = state
    rw [ih]
    exact resolveStep_fixed threshold fb state.1 state.2 h

/-- After `k` passes either no pending edge has a USD price for its quote, or
at least `k` edges have left the pending list. -/
theorem resolvePasses_exhaust (threshold : LegacyDec) (fb : List (String × LegacyDec))
    (state : List (String × CandidatePrice) × List Edge) :
    ∀ k, (∀ e ∈ (resolvePasses threshold fb k state).2,
        quoteRate threshold (resolvePasses threshold fb k state).1 e.pair.Quote = none ∧
        fallbackRate fb e.pair.Quote = none) ∨
      (resolvePasses threshold fb k state).2.length + k ≤ state.2.length := by
  intro k
  induction k with
  | zero => exact Or.inr (le_refl _)
  | succ k ih =>
    have hstep : resolvePasses threshold fb (k + 1) state =
        resolveStep threshold fb (resolvePasses threshold fb k state).1
          (resolvePasses threshold fb k state).2 := rfl
    rcases resolveStep_progress threshold fb (resolvePasses threshold fb k state).1
        (resolvePasses threshold fb k state).2 with hfix | hlt
    · left
      rw [hstep, resolveStep_fixed threshold fb _ _ hfix]
      exact hfix
    · rcases ih with hfix | hle
      · left
        rw [hstep, resolveStep_fixed threshold fb _ _ hfix]
        exact hfix
      · right
        rw [hstep]
        omega

/-- With one pass per pending edge the passes are exhaustive: at the end no
pending edge has a USD price for its quote, neither in the tick nor cached. -/
theorem resolvePasses_end (threshold : LegacyDec) (fb : List (String × LegacyDec))
    (state : List (String × CandidatePrice) × List Edge) :
    ∀ e ∈ (resolvePasses threshold fb state.2.length state).2,
      quoteRate threshold (resolvePasses threshold fb state.2.length state).1 e.pair.Quote = none ∧
      fallbackRate fb e.pair.Quote = none := by
  rcases resolvePasses_exhaust threshold fb state state.2.length with h | h
  · exact h
  · intro e he
    have hlen : (resolvePasses threshold fb state.2.length state).2.length = 0 := by omega
    rw [List.length_eq_zero.mp hlen] at he
    exact absurd he (List.not_mem_nil e)

/-- An edge with a set price that is pending at the start is, after `k` passes,
either still pending or converted, in the pass after some earlier number of
passes, with the USD price that pass uses for its quote. -/
theorem resolvePasses_track (threshold : LegacyDec) (fb : List (String × LegacyDec))
    (state : List (String × CandidatePrice) × List Edge) (e : Edge) (he : e ∈ state.2)
    (hset : e.ticker.Price.IsNil = false) :
    ∀ k, e ∈ (resolvePasses threshold fb k state).2 ∨
      ∃ j, j < k ∧ e ∈ (resolvePasses threshold fb j state).2 ∧ ∃ rate,
        rateUsed threshold fb (resolvePasses threshold fb j state) e rate ∧
        (e.pair.Base,
          ({ price := LegacyDec.ofRaw (mulRaw e.ticker.Price.raw rate.raw),
             volume := e.ticker.Volume, source := e.source } : CandidatePrice)) ∈
          (resolvePasses threshold fb k state).1 := by
  intro k
  induction k with
  | zero => exact Or.inl he
  | succ k ih =>
    rcases ih with hp | ⟨j, hj, hpj, rate, hr, hx⟩
    · rcases resolveStep_track threshold fb _ _ e hp hset with h | ⟨rate, hr, hx⟩
      · exact Or.inl h
      · exact Or.inr ⟨k, by omega, hp, rate, hr, hx⟩
    · exact Or.inr ⟨j, by omega, hpj, rate, hr, resolveStep_fst_mem _ _ _ _ _ hx⟩

/-- Every edge of a tick carries a set price and a set volume. -/
theorem observedEdges_set (quotes : List (String × List (String × TickerPrice)))
    (providerPairs : List (String × List CurrencyPair)) (e : Edge)
    (he : e ∈ observedEdges quotes providerPairs) :
    e.ticker.Price.IsNil = false ∧ e.ticker.Volume.IsNil = false := by
  unfold observedEdges at he
  obtain ⟨table, _, hmem⟩ := List.mem_flatMap.mp he
  obtain ⟨quote, _, hq⟩ := List.mem_filterMap.mp hmem
  split at hq
  · exact absurd hq (by simp)
  · split at hq
    · exact absurd hq (by simp)
    · rename_i hnil
      simp only [Option.some.injEq] at hq
      subst hq
      simpa using hnil

/-! ## Lemmas on the aggregator -/

theorem lookup_filterMap_none (g : String → Option LegacyDec) (symbol : String)
    (hg : g symbol = none) (symbols : List String) :
    (symbols.filterMap (fun s => (g s).map (fun price => (s, price)))).lookup symbol = none := by
  induction symbols with
  | nil => rfl
  | cons s rest ih =>
    cases hs : g s with
    | none =>
      rw [List.filterMap_cons_none (by rw [hs]; rfl)]
      exact ih
    | some price =>
      rw [List.filterMap_cons_some (by rw [hs]; rfl), List.lookup_cons]
      have hne : (symbol == s) = false := by
        rw [beq_eq_false_iff_ne]
        intro h
        rw [h, hs] at hg
        exact absurd hg (by simp)
      rw [hne]
      exact ih

theorem lookup_mem {α : Type} (key : String) (value : α) (l : List (String × α))
    (h : l.lookup key = some value) : ∃ k, (k, value) ∈ l := by
  induction l with
  | nil => exact absurd h (by simp)
  | cons entry rest ih =>
    obtain ⟨k, v⟩ := entry
    rw [List.lookup_cons] at h
    split at h
    · simp only [Option.some.injEq] at h
      exact ⟨k, by rw [h]; exact List.mem_cons_self _ _⟩
    · obtain ⟨k2, hk2⟩ := ih h
      exact ⟨k2, List.mem_cons_of_mem _ hk2⟩

/-- Sources that return empty quote tables contribute no edge. -/
theorem observedEdges_of_empty_tables (quotes : List (String × List (String × TickerPrice)))
    (providerPairs : List (String × List CurrencyPair))
    (h : ∀ table ∈ quotes, table.2 = []) : observedEdges quotes providerPairs = [] := by
  unfold observedEdges
  rw [List.flatMap_eq_nil_iff]
  intro table ht
  rw [h table ht]
  rfl

/-- Without configured pairs there is no edge. -/
theorem observedEdges_of_no_pairs (quotes : List (String × List (String × TickerPrice))) :
    observedEdges quotes [] = [] := by
  unfold observedEdges
  rw [List.flatMap_eq_nil_iff]
  intro table _
  rw [List.filterMap_eq_nil_iff]
  intro quote _
  rfl

/-- Without edges there is no price. -/
theorem convertTickersToUSD_of_no_edges (defaultMin : Int) (threshold : LegacyDec)
    (quotes : List (String × List (String × TickerPrice)))
    (providerPairs : List (String × List CurrencyPair))
    (fb : List (String × LegacyDec)) (overrides : List (String × Int))
    (h : observedEdges quotes providerPairs = []) :
    (convertTickersToUSD defaultMin threshold quotes providerPairs fb overrides).1 = [] := by
  unfold convertTickersToUSD Resolve resolveState resolveStart
  rw [h]
  rfl

/-- The resolver on the chaining fixture, pass by pass: STOSMO and ATOM resolve
in the first pass, STATOM in the second, and the third changes nothing. -/
theorem Resolve_chaining (threshold : LegacyDec) :
    Resolve threshold chainingPrices chainingPairs [] = chainingCandidates := by
  have h0 : resolveStart chainingPrices chainingPairs = (chainingDirect, chainingPending) := by
    rfl
  have h1 : resolveStep threshold [] chainingDirect chainingPending =
      (chainingFirstPass, chainingPending.take 1) := by rfl
  have h2 : resolveStep threshold [] chainingFirstPass (chainingPending.take 1) =
      (chainingCandidates, []) := by rfl
  have h3 : resolveStep threshold [] chainingCandidates [] = (chainingCandidates, []) := by rfl
  have e1 : resolvePasses threshold [] 1 (chainingDirect, chainingPending) =
      (chainingFirstPass, chainingPending.take 1) := h1
  have e2 : resolvePasses threshold [] 2 (chainingDirect, chainingPending) =
      (chainingCandidates, []) := by
    show resolveStep threshold [] (resolvePasses threshold [] 1 (chainingDirect, chainingPending)).1
      (resolvePasses threshold [] 1 (chainingDirect, chainingPending)).2 = _
    rw [e1]
    exact h2
  have e3 : resolvePasses threshold [] 3 (chainingDirect, chainingPending) =
      (chainingCandidates, []) := by
    show resolveStep threshold [] (resolvePasses threshold [] 2 (chainingDirect, chainingPending)).1
      (resolvePasses threshold [] 2 (chainingDirect, chainingPending)).2 = _
    rw [e2]
    exact h3
  unfold Resolve resolveState
  rw [h0]
  exact congrArg Prod.fst e3

theorem convertTickersToUSD_chaining_fixture (defaultMin : Int) (threshold : LegacyDec) :
    convertTickersToUSD defaultMin threshold chainingPrices chainingPairs [] chainingOverrides =
      ([("USDT", LegacyDec.ofRaw 999000000000000000), ("OSMO", LegacyDec.ofRaw 800000000000000000),
        ("STOSMO", LegacyDec.ofRaw 880000000000000000),
        ("ATOM", LegacyDec.ofRaw 9990000000000000000),
        ("STATOM", LegacyDec.ofRaw 10989000000000000000)], none) := by
  unfold convertTickersToUSD
  simp only [Resolve_chaining]
  rfl

/-! ## Theorems on the conversion to USD -/

/-- C15: in the outlier fixture (BTC/USDT at 30000, 30010, 30020, 30450 with
volumes 10, 10, 100, 10000, USDT/USD at 1, band of one standard deviation)
the modelled `convertTickersToUSD` returns BTC = 30017.5 without error. On the
code: `StandardDeviation` of the four prices gives the mean 30120 and the
deviation 190.656759649376187546; 30450 is the only price outside one
deviation of the mean, and `ComputeVWAP` of the other three tickers is exactly
30017.5. -/
theorem convertTickersToUSD_filters_outlier (defaultMin : Int) :
    (convertTickersToUSD defaultMin (LegacyNewDec 1) filteringPrices filteringPairs []
      [("USDT", 1), ("BTC", 1)]).1.lookup "BTC" =
      some (LegacyDec.ofRaw 30017500000000000000000) ∧
    (convertTickersToUSD defaultMin (LegacyNewDec 1) filteringPrices filteringPairs []
      [("USDT", 1), ("BTC", 1)]).2 = none ∧
    candidateTickers "BTC" (Resolve (LegacyNewDec 1) filteringPrices filteringPairs []) =
      filteringTickers ∧
    StandardDeviation (filteringTickers.map (fun tp => tp.Price)) =
      Except.ok (LegacyDec.ofRaw 190656759649376187546,
        LegacyDec.ofRaw 30120000000000000000000, none) ∧
    filteringTickers.filter (fun tp => ! withinBand (LegacyNewDec 1)
        (LegacyDec.ofRaw 190656759649376187546) (LegacyDec.ofRaw 30120000000000000000000)
        tp.Price) =
      [tickerOf 30450000000000000000000 10000000000000000000000] ∧
    filterDeviations (LegacyNewDec 1) filteringTickers =
      [tickerOf 30000000000000000000000 10000000000000000000,
       tickerOf 30010000000000000000000 10000000000000000000,
       tickerOf 30020000000000000000000 100000000000000000000] ∧
    ComputeVWAP
      [tickerOf 30000000000000000000000 10000000000000000000,
       tickerOf 30010000000000000000000 10000000000000000000,
       tickerOf 30020000000000000000000 100000000000000000000] =
      Except.ok (LegacyDec.ofRaw 30017500000000000000000, none) :=
  ⟨by rfl, by rfl, by rfl, by rfl, by rfl, by rfl, by rfl⟩

/-- C16: on the quote table and the pair configuration of
`TestConvertTickersToUsdChaining` the modelled `convertTickersToUSD` resolves
STATOM to exactly 1.1 * 10 * 0.999 = 10.989 and STOSMO to 1.1 * 0.8 = 0.88,
without error. In general every candidate of the resolver is either the
observed quote of a pair against USD, or comes from a pair that was still
pending after some number of passes and is the observed price of the pair
times the USD price of its quote at that point, with the volume and source of
the pair; that USD price is the volume-weighted average of the
dispersion-filtered candidates resolved for the quote by then, and a cached
rate only in a pass in which no pending pair has a price of this tick for its
quote. Chains of any depth are followed: at the end every pair not against USD
has been converted in this way, unless its quote has no USD price among all
candidates of the tick and no cached rate. -/
theorem convertTickersToUSD_chaining (defaultMin : Int) (threshold : LegacyDec) :
    (convertTickersToUSD defaultMin threshold chainingPrices chainingPairs []
      chainingOverrides).1.lookup "STATOM" = some (LegacyDec.ofRaw 10989000000000000000) ∧
    (convertTickersToUSD defaultMin threshold chainingPrices chainingPairs []
      chainingOverrides).1.lookup "STOSMO" = some (LegacyDec.ofRaw 880000000000000000) ∧
    (convertTickersToUSD defaultMin threshold chainingPrices chainingPairs []
      chainingOverrides).2 = none ∧
    mulRaw 1100000000000000000 (mulRaw 10000000000000000000 999000000000000000) =
      10989000000000000000 ∧
    (∀ (quotes : List (String × List (String × TickerPrice)))
      (providerPairs : List (String × List CurrencyPair)) (fb : List (String × LegacyDec))
      (x : String × CandidatePrice), x ∈ Resolve threshold quotes providerPairs fb →
      (∃ e ∈ observedEdges quotes providerPairs, e.pair.Quote = DenomUSD ∧
        x = directCandidate e) ∨
      (∃ e ∈ observedEdges quotes providerPairs, e.pair.Quote ≠ DenomUSD ∧
        ∃ (passes : Nat) (rate : LegacyDec),
          e ∈ (resolveState threshold quotes providerPairs fb passes).2 ∧
          (∀ y ∈ (resolveState threshold quotes providerPairs fb passes).1,
            y ∈ Resolve threshold quotes providerPairs fb) ∧
          rateUsed threshold fb (resolveState threshold quotes providerPairs fb passes) e rate ∧
          x = (e.pair.Base,
            { price := LegacyDec.ofRaw (mulRaw e.ticker.Price.raw rate.raw),
              volume := e.ticker.Volume, source := e.source }))) ∧
    (∀ (quotes : List (String × List (String × TickerPrice)))
      (providerPairs : List (String × List CurrencyPair)) (fb : List (String × LegacyDec))
      (e : Edge), e ∈ observedEdges quotes providerPairs → e.pair.Quote ≠ DenomUSD →
      (quoteRate threshold (Resolve threshold quotes providerPairs fb) e.pair.Quote = none ∧
        fallbackRate fb e.pair.Quote = none) ∨
      ∃ (passes : Nat) (rate : LegacyDec),
        e ∈ (resolveState threshold quotes providerPairs fb passes).2 ∧
        (∀ y ∈ (resolveState threshold quotes providerPairs fb passes).1,
          y ∈ Resolve threshold quotes providerPairs fb) ∧
        rateUsed threshold fb (resolveState threshold quotes providerPairs fb passes) e rate ∧
        (e.pair.Base,
          ({ price := LegacyDec.ofRaw (mulRaw e.ticker.Price.raw rate.raw),
             volume := e.ticker.Volume, source := e.source } : CandidatePrice)) ∈
          Resolve threshold quotes providerPairs fb) := by
  refine ⟨?_, ?_, ?_, by rfl, ?_, ?_⟩
  · rw [convertTickersToUSD_chaining_fixture]
    rfl
  · rw [convertTickersToUSD_chaining_fixture]
    rfl
  · rw [convertTickersToUSD_chaining_fixture]
  · intro quotes providerPairs fb x hx
    rcases resolvePasses_mem threshold fb (resolveStart quotes providerPairs) x _ hx with
      h | ⟨j, hj, e, he, rate, hr, hc⟩
    · obtain ⟨e, he, rfl⟩ := List.mem_map.mp h
      obtain ⟨he1, he2⟩ := List.mem_filter.mp he
      exact Or.inl ⟨e, he1, by simpa using he2, rfl⟩
    · have hstart := resolvePasses_snd_mem threshold fb (resolveStart quotes providerPairs) e j he
      obtain ⟨he1, he2⟩ := List.mem_filter.mp hstart
      have hset := observedEdges_set quotes providerPairs e he1
      have hrate := rateUsed_set threshold fb _ e rate hr
      rw [convertedCandidate_of_set rate e hrate hset.1] at hc
      simp only [Option.some.injEq] at hc
      refine Or.inr ⟨e, he1, by simpa using he2, j, rate, he, ?_, hr, hc.symm⟩
      intro y hy
      exact resolvePasses_mono threshold fb _ y j hy _ (by omega)
  · intro quotes providerPairs fb e he hq
    have hp : e ∈ (resolveStart quotes providerPairs).2 :=
      List.mem_filter.mpr ⟨he, by simpa using hq⟩
    have hset := observedEdges_set quotes providerPairs e he
    rcases resolvePasses_track threshold fb (resolveStart quotes providerPairs) e hp hset.1
        (resolveStart quotes providerPairs).2.length with h | ⟨j, hj, hpj, rate, hr, hx⟩
    · exact Or.inl (resolvePasses_end threshold fb (resolveStart quotes providerPairs) e h)
    · refine Or.inr ⟨j, rate, hpj, ?_, hr, hx⟩
      intro y hy
      exact resolvePasses_mono threshold fb _ y j hy _ (by omega)

/-- Witness of C16: the STATOM candidate of the chaining fixture, 10.989 with
volume 1 from Osmosis, is a candidate of the resolver, so it is a direct quote
or the product of an observed price and the USD price of the quote. -/
theorem convertTickersToUSD_chaining_witness :
    (("STATOM", { price := LegacyDec.ofRaw 10989000000000000000,
                  volume := LegacyDec.ofRaw 1000000000000000000, source := "osmosis" }) ∈
      Resolve (LegacyNewDec 1) chainingPrices chainingPairs []) ∧
    ((∃ e ∈ observedEdges chainingPrices chainingPairs, e.pair.Quote = DenomUSD ∧
        (("STATOM", { price := LegacyDec.ofRaw 10989000000000000000,
                      volume := LegacyDec.ofRaw 1000000000000000000, source := "osmosis" }) :
          String × CandidatePrice) = directCandidate e) ∨
      (∃ e ∈ observedEdges chainingPrices chainingPairs, e.pair.Quote ≠ DenomUSD ∧
        ∃ (passes : Nat) (rate : LegacyDec),
          e ∈ (resolveState (LegacyNewDec 1) chainingPrices chainingPairs [] passes).2 ∧
          (∀ y ∈ (resolveState (LegacyNewDec 1) chainingPrices chainingPairs [] passes).1,
            y ∈ Resolve (LegacyNewDec 1) chainingPrices chainingPairs []) ∧
          rateUsed (LegacyNewDec 1) []
            (resolveState (LegacyNewDec 1) chainingPrices chainingPairs [] passes) e rate ∧
          (("STATOM", { price := LegacyDec.ofRaw 10989000000000000000,
                        volume := LegacyDec.ofRaw 1000000000000000000, source := "osmosis" }) :
            String × CandidatePrice) = (e.pair.Base,
            { price := LegacyDec.ofRaw (mulRaw e.ticker.Price.raw rate.raw),
              volume := e.ticker.Volume, source := e.source }))) :=
  ⟨by rw [Resolve_chaining]; decide,
   (convertTickersToUSD_chaining 3 (LegacyNewDec 1)).2.2.2.2.1 chainingPrices chainingPairs []
    ("STATOM", { price := LegacyDec.ofRaw 10989000000000000000,
                 volume := LegacyDec.ofRaw 1000000000000000000, source := "osmosis" })
    (by rw [Resolve_chaining]; decide)⟩

set_option maxHeartbeats 2000000 in
/-- On the fixture of `TestConvertTickersToUsdVwap` the model gives the values
the test requires: BTC = 30006 and ETH = 30050 * 0.066 = 1983.3. -/
theorem convertTickersToUSD_vwap_fixture (defaultMin : Int) (threshold : LegacyDec) :
    (convertTickersToUSD defaultMin threshold vwapPrices vwapPairs []
      [("BTC", 1), ("ETH", 1), ("USDT", 1)]).1.lookup "BTC" =
      some (LegacyDec.ofRaw 30006000000000000000000) ∧
    (convertTickersToUSD defaultMin threshold vwapPrices vwapPairs []
      [("BTC", 1), ("ETH", 1), ("USDT", 1)]).1.lookup "ETH" =
      some (LegacyDec.ofRaw 1983300000000000000000) :=
  ⟨by rfl, by rfl⟩

set_option maxHeartbeats 2000000 in
/-- On the fixture of `TestGetComputedPricesTickersConversion`, with a band of
one standard deviation, the model gives the value the test requires:
BTC = (9989.02 * 72.55 + 724603.401) / 2 = 724653.401; the abnormal ETH/USD
quote does not enter the USD price of ETH. -/
theorem convertTickersToUSD_conversion_fixture :
    (convertTickersToUSD 3 (LegacyNewDec 1) conversionPrices conversionPairs []
      [("BTC", 1)]).1.lookup "BTC" = some (LegacyDec.ofRaw 724653401000000000000000) ∧
    quoteRate (LegacyNewDec 1)
      (resolveState (LegacyNewDec 1) conversionPrices conversionPairs [] 0).1 "ETH" =
      some (LegacyDec.ofRaw 9989020000000000000000) :=
  ⟨by rfl, by rfl⟩

set_option maxHeartbeats 2000000 in
/-- A price of this tick goes before a cached rate: with X/Y = 2, Y/Z = 3,
Z/USD = 5 and the cached rate Y = 100, X is priced 2 * (3 * 5) = 30; without
the Y/Z quote, Y has no price in the tick and X is priced 2 * 100 = 200. -/
theorem Resolve_prefers_tick_price (threshold : LegacyDec) :
    candidateTickers "X" (Resolve threshold cachedPrices cachedPairs
      [("Y", LegacyDec.ofRaw 100000000000000000000)]) =
      [tickerOf 30000000000000000000 1000000000000000000] ∧
    candidateTickers "X" (Resolve threshold
      [("a", [("XY", tickerOf 2000000000000000000 1000000000000000000)])] cachedPairs
      [("Y", LegacyDec.ofRaw 100000000000000000000)]) =
      [tickerOf 200000000000000000000 1000000000000000000] :=
  ⟨by rfl, by rfl⟩

/-- C17: quorum gating in the modelled `convertTickersToUSD`: an asset whose
number of USD candidates is below its required minimum (the override if
present, else the default) has no entry in the result, and no error is
returned; when every source returns an empty quote table, and when no pair is
configured, the result has no entry at all. -/
theorem convertTickersToUSD_quorum (defaultMin : Int) (threshold : LegacyDec)
    (providerPrices : List (String × List (String × TickerPrice)))
    (providerPairs : List (String × List CurrencyPair))
    (fallbackRates : List (String × LegacyDec)) (providerMinOverrides : List (String × Int)) :
    (∀ symbol : String,
      ((candidateTickers symbol
        (Resolve threshold providerPrices providerPairs fallbackRates)).length : Int)
        < requiredMinimum defaultMin providerMinOverrides symbol →
      (convertTickersToUSD defaultMin threshold providerPrices providerPairs fallbackRates
        providerMinOverrides).1.lookup symbol = none) ∧
    (convertTickersToUSD defaultMin threshold providerPrices providerPairs fallbackRates
      providerMinOverrides).2 = none ∧
    ((∀ table ∈ providerPrices, table.2 = []) →
      (convertTickersToUSD defaultMin threshold providerPrices providerPairs fallbackRates
        providerMinOverrides).1 = []) ∧
    (providerPairs = [] →
      (convertTickersToUSD defaultMin threshold providerPrices providerPairs fallbackRates
        providerMinOverrides).1 = []) := by
  refine ⟨?_, rfl, ?_, ?_⟩
  · intro symbol hlt
    unfold convertTickersToUSD
    apply lookup_filterMap_none
    unfold aggregateAsset
    rw [if_pos hlt]
  · intro h
    exact convertTickersToUSD_of_no_edges _ _ _ _ _ _
      (observedEdges_of_empty_tables providerPrices providerPairs h)
  · intro h
    subst h
    exact convertTickersToUSD_of_no_edges _ _ _ _ _ _ (observedEdges_of_no_pairs providerPrices)

/-- Witness of C17: the fixtures of the tests. One source configured for BTC/USD
returns an empty table; no source is configured; and in the outlier fixture a
required minimum of 5 for BTC, which has 4 candidates, leaves BTC out. -/
theorem convertTickersToUSD_quorum_witness :
    (convertTickersToUSD 3 (LegacyNewDec 1) [("binance", [])] [("binance", [⟨"BTC", "USD"⟩])]
      [] []).1 = [] ∧
    (convertTickersToUSD 3 (LegacyNewDec 1) [] [] [] []).1 = [] ∧
    (convertTickersToUSD 3 (LegacyNewDec 1) filteringPrices filteringPairs []
      [("USDT", 1), ("BTC", 5)]).1.lookup "BTC" = none :=
  ⟨(convertTickersToUSD_quorum 3 (LegacyNewDec 1) [("binance", [])]
      [("binance", [⟨"BTC", "USD"⟩])] [] []).2.2.1 (by decide),
   (convertTickersToUSD_quorum 3 (LegacyNewDec 1) [] [] [] []).2.2.2 rfl,
   (convertTickersToUSD_quorum 3 (LegacyNewDec 1) filteringPrices filteringPairs []
      [("USDT", 1), ("BTC", 5)]).1 "BTC" (by decide)⟩

/-! ## Further theorems on `StandardDeviation` -/

/-- C21: `StandardDeviation` is order-independent: on every permutation of a
price list it gives the identical outcome, that is the same deviation, mean
and error, or the same panic. -/
theorem StandardDeviation_perm (l l2 : List LegacyDec) (h : l.Perm l2) :
    StandardDeviation l2 = StandardDeviation l := by
  simp only [StandardDeviation_eq, h.length_eq.symm, perm_all_eq h, perm_sum_map_eq h]

/-- Witness of C21: the prices 28.21, 28.23, 28.40 and the same prices with the
first two exchanged. -/
theorem StandardDeviation_perm_witness :
    List.Perm
      [LegacyDec.ofRaw 28210000000000000000, LegacyDec.ofRaw 28230000000000000000,
       LegacyDec.ofRaw 28400000000000000000]
      [LegacyDec.ofRaw 28230000000000000000, LegacyDec.ofRaw 28210000000000000000,
       LegacyDec.ofRaw 28400000000000000000] ∧
    StandardDeviation
      [LegacyDec.ofRaw 28230000000000000000, LegacyDec.ofRaw 28210000000000000000,
       LegacyDec.ofRaw 28400000000000000000] =
    StandardDeviation
      [LegacyDec.ofRaw 28210000000000000000, LegacyDec.ofRaw 28230000000000000000,
       LegacyDec.ofRaw 28400000000000000000] :=
  ⟨List.Perm.swap _ _ _, StandardDeviation_perm _ _ (List.Perm.swap _ _ _)⟩

/-! ## Sequences of calls on `volume.Total` -/

theorem isInt_wrapInt (x : Int) : isInt (wrapInt x) := by
  unfold isInt wrapInt
  omega

/-- An accepted value is a set non-negative decimal. -/
theorem accepted_iff (value : LegacyDec) :
    accepted value = true ↔ ∃ v : Int, value = LegacyDec.ofRaw v ∧ 0 ≤ v := by
  cases value with
  | mk i =>
    cases i with
    | none =>
      constructor
      · intro h
        exact absurd h (by decide)
      · rintro ⟨v, hv, _⟩
        exact absurd hv (by simp [LegacyDec.ofRaw])
    | some a =>
      constructor
      · intro h
        refine ⟨a, rfl, ?_⟩
        by_contra hneg
        have ha : a < 0 := by omega
        simp [accepted, LegacyDec.IsNil, LegacyDec.IsNegative, ha, pure, Except.pure] at h
      · rintro ⟨v, hv, hv0⟩
        have hav : a = v := by
          simpa [LegacyDec.ofRaw] using hv
        subst hav
        have ha : ¬ a < 0 := by omega
        simp [accepted, LegacyDec.IsNil, LegacyDec.IsNegative, ha, pure, Except.pure]

/-- A value that is not accepted is nil or negative. -/
theorem not_accepted (value : LegacyDec) (h : accepted value = false) :
    value.IsNil = true ∨ value.IsNegative = Except.ok true := by
  cases value with
  | mk i =>
    cases i with
    | none => exact Or.inl rfl
    | some a =>
      right
      by_cases ha : a < 0
      · simp [LegacyDec.IsNegative, ha, pure, Except.pure]
      · simp [accepted, LegacyDec.IsNil, LegacyDec.IsNegative, ha, pure, Except.pure] at h

theorem Run_cons (t : Total) (call : TotalCall) (rest : List TotalCall) :
    t.Run (call :: rest) = (t.Call call >>= fun t1 => t1.Run rest) := by
  simp [Total.Run, List.foldlM_cons]

theorem raw_ofRaw (v : Int) : (LegacyDec.ofRaw v).raw = v := rfl

/-- The accounting of a sequence of calls from any accumulator with a set total:
the sequence returns, the total moves by the accepted additions less the
accepted subtractions, and the count by their numbers, in Go `int` arithmetic. -/
theorem Run_accounting (calls : List TotalCall) :
    ∀ (t : Total) (a : Int), t.Total = LegacyDec.ofRaw a → isInt t.Values →
      ∃ t2, t.Run calls = Except.ok t2 ∧
        t2.Total = LegacyDec.ofRaw (a + addedSum calls - subtractedSum calls) ∧
        t2.Values =
          wrapInt (t.Values + (acceptedAdds calls : Int) - (acceptedSubs calls : Int)) := by
  induction calls with
  | nil =>
    intro t a ha hi
    refine ⟨t, rfl, ?_, ?_⟩
    · simp [addedSum, subtractedSum, ha]
    · simp [acceptedAdds, acceptedSubs, wrapInt_of_isInt hi]
  | cons call rest ih =>
    intro t a ha hi
    cases call with
    | add value height =>
      by_cases hacc : accepted value = true
      · obtain ⟨v, rfl, hv⟩ := (accepted_iff value).mp hacc
        have h1 := Total_Add_ok t a v height ha hv
        obtain ⟨t2, hrun, htot, hval⟩ := ih
          { Total := LegacyDec.ofRaw (a + v), Values := wrapInt (t.Values + 1),
            First := if t.First = 0 ∨ height < t.First then height else t.First }
          (a + v) rfl (isInt_wrapInt _)
        refine ⟨t2, ?_, ?_, ?_⟩
        · rw [Run_cons]
          simp only [Total.Call]
          rw [h1]
          exact hrun
        · rw [htot]
          simp only [addedSum, subtractedSum, hacc, if_true, raw_ofRaw]
          congr 1
          ring
        · rw [hval]
          simp only [acceptedAdds, acceptedSubs, hacc, if_true]
          unfold wrapInt
          push_cast
          omega
      · have hacc2 : accepted value = false := by simpa using hacc
        have h1 := Total_Add_skip t value height (not_accepted value hacc2)
        obtain ⟨t2, hrun, htot, hval⟩ := ih t a ha hi
        refine ⟨t2, ?_, ?_, ?_⟩
        · rw [Run_cons]
          simp only [Total.Call]
          rw [h1]
          exact hrun
        · rw [htot]
          simp [addedSum, subtractedSum, hacc2]
        · rw [hval]
          simp [acceptedAdds, acceptedSubs, hacc2]
    | sub value =>
      by_cases hacc : accepted value = true
      · obtain ⟨v, rfl, hv⟩ := (accepted_iff value).mp hacc
        have h1 := Total_Sub_ok t a v ha hv
        obtain ⟨t2, hrun, htot, hval⟩ := ih
          { Total := LegacyDec.ofRaw (a - v), Values := wrapInt (t.Values - 1),
            First := t.First }
          (a - v) rfl (isInt_wrapInt _)
        refine ⟨t2, ?_, ?_, ?_⟩
        · rw [Run_cons]
          simp only [Total.Call]
          rw [h1]
          exact hrun
        · rw [htot]
          simp only [addedSum, subtractedSum, hacc, if_true, raw_ofRaw]
          congr 1
          ring
        · rw [hval]
          simp only [acceptedAdds, acceptedSubs, hacc, if_true]
          unfold wrapInt
          push_cast
          omega
      · have hacc2 : accepted value = false := by simpa using hacc
        have h1 := Total_Sub_skip t value (not_accepted value hacc2)
        obtain ⟨t2, hrun, htot, hval⟩ := ih t a ha hi
        refine ⟨t2, ?_, ?_, ?_⟩
        · rw [Run_cons]
          simp only [Total.Call]
          rw [h1]
          exact hrun
        · rw [htot]
          simp [addedSum, subtractedSum, hacc2]
        · rw [hval]
          simp [acceptedAdds, acceptedSubs, hacc2]

theorem acceptedAdds_le (calls : List TotalCall) : acceptedAdds calls ≤ calls.length := by
  induction calls with
  | nil => simp [acceptedAdds]
  | cons call rest ih =>
    cases call with
    | add value height =>
      simp only [acceptedAdds, List.length_cons]
      split <;> omega
    | sub value =>
      simp only [acceptedAdds, List.length_cons]
      omega

theorem acceptedSubs_le (calls : List TotalCall) : acceptedSubs calls ≤ calls.length := by
  induction calls with
  | nil => simp [acceptedSubs]
  | cons call rest ih =>
    cases call with
    | add value height =>
      simp only [acceptedSubs, List.length_cons]
      omega
    | sub value =>
      simp only [acceptedSubs, List.length_cons]
      split <;> omega

/-- C22: accounting invariant of `volume.Total`. Every sequence of `Add` and
`Sub` calls applied to `NewTotal()` returns; afterwards `Total` is the sum of the
accepted added values less the sum of the accepted subtracted values, and
`Values` is the number of accepted `Add` calls less the number of accepted `Sub`
calls, in Go `int` arithmetic, which is the exact difference for every sequence
of fewer than 2^63 calls. Consequently, for such a sequence, if every prefix
holds at least as many accepted `Add` calls as accepted `Sub` calls, `Values` is
non-negative after every prefix. -/
theorem Total_accounting (calls : List TotalCall) :
    ∃ t, NewTotal.Run calls = Except.ok t ∧
      t.Total = LegacyDec.ofRaw (addedSum calls - subtractedSum calls) ∧
      t.Values = wrapInt ((acceptedAdds calls : Int) - (acceptedSubs calls : Int)) ∧
      (calls.length < 9223372036854775808 →
        t.Values = (acceptedAdds calls : Int) - (acceptedSubs calls : Int) ∧
        ((∀ p ∈ calls.inits, acceptedSubs p ≤ acceptedAdds p) →
          ∀ p ∈ calls.inits, ∃ s, NewTotal.Run p = Except.ok s ∧ 0 ≤ s.Values)) := by
  obtain ⟨t, hrun, htot, hval⟩ := Run_accounting calls NewTotal 0 rfl (by unfold isInt; decide)
  have hzero : NewTotal.Values = 0 := rfl
  rw [hzero] at hval
  refine ⟨t, hrun, ?_, ?_, ?_⟩
  · rw [htot]
    congr 1
    ring
  · rw [hval]
    congr 1
    ring
  · intro hlen
    constructor
    · rw [hval]
      have h1 := acceptedAdds_le calls
      have h2 := acceptedSubs_le calls
      unfold wrapInt
      omega
    · intro hpre p hp
      have hle : p.length ≤ calls.length := ((List.mem_inits p calls).mp hp).length_le
      obtain ⟨s, hs, _, hsval⟩ := Run_accounting p NewTotal 0 rfl (by unfold isInt; decide)
      rw [hzero] at hsval
      refine ⟨s, hs, ?_⟩
      rw [hsval]
      have h1 := acceptedAdds_le p
      have h2 := hpre p hp
      unfold wrapInt
      omega

/-- Witness of C22: two accepted additions, a rejected negative addition, an
accepted subtraction and a rejected nil subtraction leave the total 7 and the
count 1, and the count is non-negative after every prefix. -/
theorem Total_accounting_witness :
    accountingCalls.length < 9223372036854775808 ∧
    (∀ p ∈ accountingCalls.inits, acceptedSubs p ≤ acceptedAdds p) ∧
    NewTotal.Run accountingCalls =
      Except.ok { Total := LegacyDec.ofRaw 7, Values := 1, First := 4 } ∧
    (∀ p ∈ accountingCalls.inits, ∃ s, NewTotal.Run p = Except.ok s ∧ 0 ≤ s.Values) := by
  obtain ⟨t, _, _, _, h⟩ := Total_accounting accountingCalls
  exact ⟨by decide, by decide, rfl, (h (by decide)).2 (by decide)⟩

/-- C23: `First` can become stale after `Sub`. For heights `0 < h1 < h2` and set
non-negative values `v1`, `v2`, the calls `Add(v1, h1)`, `Add(v2, h2)`, `Sub(v1)`
on `NewTotal()` end with `Values = 1`, `Total = v2` and `First = h1`, which is
not `h2`, the height of the one addition still in the total; and `Add(v, h)`,
`Sub(v)` with `h > 0` end with `Values = 0` and `Total = 0` but `First = h`,
which is not the 0 of the fresh accumulator. -/
theorem First_stale_after_Sub :
    (∀ (h1 h2 : Nat) (v1 v2 : Int), 0 < h1 → h1 < h2 → 0 ≤ v1 → 0 ≤ v2 →
      NewTotal.Run [TotalCall.add (LegacyDec.ofRaw v1) h1,
          TotalCall.add (LegacyDec.ofRaw v2) h2, TotalCall.sub (LegacyDec.ofRaw v1)] =
        Except.ok { Total := LegacyDec.ofRaw v2, Values := 1, First := h1 } ∧ h1 ≠ h2) ∧
    (∀ (h : Nat) (v : Int), 0 < h → 0 ≤ v →
      NewTotal.Run [TotalCall.add (LegacyDec.ofRaw v) h, TotalCall.sub (LegacyDec.ofRaw v)] =
        Except.ok { Total := LegacyDec.ofRaw 0, Values := 0, First := h } ∧
      h ≠ NewTotal.First) := by
  constructor
  · intro h1 h2 v1 v2 hpos hlt hv1 hv2
    refine ⟨?_, by omega⟩
    have e1 := Total_Add_ok NewTotal 0 v1 h1 rfl hv1
    have e2 := Total_Add_ok
      { Total := LegacyDec.ofRaw (0 + v1), Values := wrapInt (NewTotal.Values + 1),
        First := if NewTotal.First = 0 ∨ h1 < NewTotal.First then h1 else NewTotal.First }
      (0 + v1) v2 h2 rfl hv2
    have e3 := Total_Sub_ok
      { Total := LegacyDec.ofRaw (0 + v1 + v2),
        Values := wrapInt (wrapInt (NewTotal.Values + 1) + 1),
        First := if (if NewTotal.First = 0 ∨ h1 < NewTotal.First then h1
            else NewTotal.First) = 0 ∨
            h2 < (if NewTotal.First = 0 ∨ h1 < NewTotal.First then h1 else NewTotal.First)
          then h2
          else (if NewTotal.First = 0 ∨ h1 < NewTotal.First then h1 else NewTotal.First) }
      (0 + v1 + v2) v1 rfl hv1
    rw [Run_cons]
    simp only [Total.Call]
    rw [e1, except_bind_ok, Run_cons]
    simp only [Total.Call]
    rw [e2, except_bind_ok, Run_cons]
    simp only [Total.Call]
    rw [e3, except_bind_ok]
    have hfirst : NewTotal.First = 0 := rfl
    have hvalues : wrapInt (wrapInt (wrapInt (NewTotal.Values + 1) + 1) - 1) = 1 := by decide
    have hnot : ¬ (h1 = 0 ∨ h2 < h1) := by omega
    have htotal : (0 : Int) + v1 + v2 - v1 = v2 := by ring
    simp only [hfirst, hvalues, htotal, true_or, if_true, if_neg hnot]
    rfl
  · intro h v hpos hv
    refine ⟨?_, ?_⟩
    · have e1 := Total_Add_ok NewTotal 0 v h rfl hv
      have e2 := Total_Sub_ok
        { Total := LegacyDec.ofRaw (0 + v), Values := wrapInt (NewTotal.Values + 1),
          First := if NewTotal.First = 0 ∨ h < NewTotal.First then h else NewTotal.First }
        (0 + v) v rfl hv
      rw [Run_cons]
      simp only [Total.Call]
      rw [e1, except_bind_ok, Run_cons]
      simp only [Total.Call]
      rw [e2, except_bind_ok]
      have hfirst : NewTotal.First = 0 := rfl
      have hvalues : wrapInt (wrapInt (NewTotal.Values + 1) - 1) = 0 := by decide
      have htotal : (0 : Int) + v - v = 0 := by ring
      simp only [hfirst, hvalues, htotal, true_or, if_true]
      rfl
    · have hfirst : NewTotal.First = 0 := rfl
      rw [hfirst]
      omega

/-- Witness of C23: the values 5 and 7 at the heights 3 and 8, and the value 5
at the height 3. -/
theorem First_stale_after_Sub_witness :
    (NewTotal.Run [TotalCall.add (LegacyDec.ofRaw 5) 3,
        TotalCall.add (LegacyDec.ofRaw 7) 8, TotalCall.sub (LegacyDec.ofRaw 5)] =
      Except.ok { Total := LegacyDec.ofRaw 7, Values := 1, First := 3 } ∧ 3 ≠ 8) ∧
    (NewTotal.Run [TotalCall.add (LegacyDec.ofRaw 5) 3, TotalCall.sub (LegacyDec.ofRaw 5)] =
      Except.ok { Total := LegacyDec.ofRaw 0, Values := 0, First := 3 } ∧
      3 ≠ NewTotal.First) :=
  ⟨First_stale_after_Sub.1 3 8 5 7 (by decide) (by decide) (by decide) (by decide),
   First_stale_after_Sub.2 3 5 (by decide) (by decide)⟩

/-! ## Bounds on the mean and the deviation of `StandardDeviation` -/

/-- Truncating division by a positive number keeps a quotient between any two
integers that bound the exact quotient. -/
theorem tdiv_between (S n m M : Int) (hn : 0 < n) (hlo : n * m ≤ S) (hhi : S ≤ n * M) :
    m ≤ S.tdiv n ∧ S.tdiv n ≤ M := by
  have hdef := Int.tdiv_add_tmod S n
  have hr := abs_tmod_lt S n (by omega)
  rw [abs_of_pos hn] at hr
  have hr2 := abs_lt.mp hr
  constructor
  · by_contra hc
    have h1 : S.tdiv n + 1 ≤ m := by omega
    have h2 : n * (S.tdiv n + 1) ≤ n * m := Int.mul_le_mul_of_nonneg_left h1 (by omega)
    have h3 : n * (S.tdiv n + 1) = n * S.tdiv n + n := by ring
    omega
  · by_contra hc
    have h1 : M + 1 ≤ S.tdiv n := by omega
    have h2 : n * (M + 1) ≤ n * S.tdiv n := Int.mul_le_mul_of_nonneg_left h1 (by omega)
    have h3 : n * (M + 1) = n * M + n := by ring
    omega

theorem sum_map_ge (m : Int) (f : LegacyDec → Int) (l : List LegacyDec)
    (h : ∀ p ∈ l, m ≤ f p) : (l.length : Int) * m ≤ (l.map f).sum := by
  induction l with
  | nil => simp
  | cons a rest ih =>
    have h1 := h a (List.mem_cons_self a rest)
    have h2 := ih (fun p hp => h p (List.mem_cons_of_mem a hp))
    simp only [List.length_cons, List.map_cons, List.sum_cons]
    push_cast
    have h3 : ((rest.length : Int) + 1) * m = (rest.length : Int) * m + m := by ring
    omega

theorem sum_map_le (M : Int) (f : LegacyDec → Int) (l : List LegacyDec)
    (h : ∀ p ∈ l, f p ≤ M) : (l.map f).sum ≤ (l.length : Int) * M := by
  induction l with
  | nil => simp
  | cons a rest ih =>
    have h1 := h a (List.mem_cons_self a rest)
    have h2 := ih (fun p hp => h p (List.mem_cons_of_mem a hp))
    simp only [List.length_cons, List.map_cons, List.sum_cons]
    push_cast
    have h3 : ((rest.length : Int) + 1) * M = (rest.length : Int) * M + M := by ring
    omega

/-- The truncated mean of a non-empty list lies between any lower and any upper
bound of its elements. -/
theorem meanOf_between (l : List LegacyDec) (hl : 0 < l.length) (m M : Int)
    (hlo : ∀ p ∈ l, m ≤ p.raw) (hhi : ∀ p ∈ l, p.raw ≤ M) :
    m ≤ meanOf l ∧ meanOf l ≤ M := by
  unfold meanOf
  exact tdiv_between _ _ m M (by exact_mod_cast hl)
    (sum_map_ge m (fun (price : LegacyDec) => price.raw) l hlo)
    (sum_map_le M (fun (price : LegacyDec) => price.raw) l hhi)

/-- A non-empty list of prices has a smallest and a largest element. -/
theorem exists_min_max (l : List LegacyDec) (hl : 0 < l.length) :
    ∃ lo ∈ l, ∃ hi ∈ l, ∀ p ∈ l, lo.raw ≤ p.raw ∧ p.raw ≤ hi.raw := by
  have hne : l.toFinset.Nonempty := by
    obtain ⟨a, ha⟩ := List.exists_mem_of_length_pos hl
    exact ⟨a, List.mem_toFinset.mpr ha⟩
  obtain ⟨lo, hlo, hmin⟩ :=
    Finset.exists_min_image l.toFinset (fun (price : LegacyDec) => price.raw) hne
  obtain ⟨hi, hhi, hmax⟩ :=
    Finset.exists_max_image l.toFinset (fun (price : LegacyDec) => price.raw) hne
  refine ⟨lo, List.mem_toFinset.mp hlo, hi, List.mem_toFinset.mp hhi, ?_⟩
  intro p hp
  exact ⟨hmin p (List.mem_toFinset.mpr hp), hmax p (List.mem_toFinset.mpr hp)⟩

/-- C24: for every list of at least three (set) prices, `StandardDeviation`
returns a mean that lies between the smallest and the largest input price,
`min <= mean <= max`, although the division by the number of prices
truncates. -/
theorem StandardDeviation_mean_between (l : List LegacyDec) (h3 : 3 ≤ l.length)
    (hset : pricesSet l) :
    ∃ deviation mean : Int,
      StandardDeviation l =
        Except.ok (LegacyDec.ofRaw deviation, LegacyDec.ofRaw mean, none) ∧
      ∃ lo ∈ l, ∃ hi ∈ l, (∀ p ∈ l, lo.raw ≤ p.raw ∧ p.raw ≤ hi.raw) ∧
        lo.raw ≤ mean ∧ mean ≤ hi.raw := by
  obtain ⟨lo, hlo, hi, hhi, hall⟩ := exists_min_max l (by omega)
  have hb := meanOf_between l (by omega) lo.raw hi.raw
    (fun p hp => (hall p hp).1) (fun p hp => (hall p hp).2)
  exact ⟨_, _, StandardDeviation_of_set l h3 hset, lo, hlo, hi, hhi, hall, hb.1, hb.2⟩

/-- Witness of C24: the prices of -7, 2 and 3 units of `10^-18`, whose sum -2
gives the truncated mean 0. -/
theorem StandardDeviation_mean_between_witness :
    3 ≤ [LegacyDec.ofRaw (-7), LegacyDec.ofRaw 2, LegacyDec.ofRaw 3].length ∧
    pricesSet [LegacyDec.ofRaw (-7), LegacyDec.ofRaw 2, LegacyDec.ofRaw 3] ∧
    ∃ deviation mean : Int,
      StandardDeviation [LegacyDec.ofRaw (-7), LegacyDec.ofRaw 2, LegacyDec.ofRaw 3] =
        Except.ok (LegacyDec.ofRaw deviation, LegacyDec.ofRaw mean, none) ∧
      ∃ lo ∈ [LegacyDec.ofRaw (-7), LegacyDec.ofRaw 2, LegacyDec.ofRaw 3],
      ∃ hi ∈ [LegacyDec.ofRaw (-7), LegacyDec.ofRaw 2, LegacyDec.ofRaw 3],
        (∀ p ∈ [LegacyDec.ofRaw (-7), LegacyDec.ofRaw 2, LegacyDec.ofRaw 3],
          lo.raw ≤ p.raw ∧ p.raw ≤ hi.raw) ∧
        lo.raw ≤ mean ∧ mean ≤ hi.raw :=
  ⟨by decide, by decide, StandardDeviation_mean_between _ (by decide) (by decide)⟩

theorem sum_map_const (c : Int) (f : LegacyDec → Int) (l : List LegacyDec)
    (h : ∀ p ∈ l, f p = c) : (l.map f).sum = (l.length : Int) * c := by
  have h1 := sum_map_ge c f l (fun p hp => le_of_eq (h p hp).symm)
  have h2 := sum_map_le c f l (fun p hp => le_of_eq (h p hp))
  omega

/-- C25: for every list of at least three prices that are all equal to the same
value `p`, `StandardDeviation` succeeds and returns the mean `p` exactly and
the deviation 0 exactly. -/
theorem StandardDeviation_constant (l : List LegacyDec) (p : Int) (h3 : 3 ≤ l.length)
    (hall : ∀ price ∈ l, price = LegacyDec.ofRaw p) :
    StandardDeviation l = Except.ok (LegacyDec.ofRaw 0, LegacyDec.ofRaw p, none) := by
  have hset : pricesSet l := by
    intro price hp
    rw [hall price hp]
    rfl
  have hn : (l.length : Int) ≠ 0 := by
    have : l.length ≠ 0 := by omega
    exact_mod_cast this
  have hmean : meanOf l = p := by
    unfold meanOf
    rw [sum_map_const p (fun (price : LegacyDec) => price.raw) l
      (fun price hp => by rw [hall price hp]; rfl)]
    exact Int.mul_tdiv_cancel_left p hn
  have hvar : varianceOf l = 0 := by
    unfold varianceOf
    rw [sum_map_const 0
      (fun (price : LegacyDec) => mulRaw (price.raw - meanOf l) (price.raw - meanOf l)) l
      (fun price hp => by
        rw [hall price hp, hmean]
        show mulRaw (p - p) (p - p) = 0
        rw [sub_self]
        exact mulRaw_zero 0)]
    rw [mul_zero]
    exact Int.zero_tdiv _
  rw [StandardDeviation_of_set l h3 hset, hmean, hvar]
  rfl

/-- Witness of C25: three prices 28.21. -/
theorem StandardDeviation_constant_witness :
    3 ≤ (List.replicate 3 (LegacyDec.ofRaw 28210000000000000000)).length ∧
    StandardDeviation (List.replicate 3 (LegacyDec.ofRaw 28210000000000000000)) =
      Except.ok (LegacyDec.ofRaw 0, LegacyDec.ofRaw 28210000000000000000, none) :=
  ⟨by decide, StandardDeviation_constant _ 28210000000000000000 (by decide)
    (fun _ hp => List.eq_of_mem_replicate hp)⟩

/-! ## The sign of the deviation -/

theorem chop_nonneg (d : Int) (hd : 0 ≤ d) : 0 ≤ chopPrecisionAndRound d := by
  unfold chopPrecisionAndRound
  rw [if_neg (by omega)]
  rcases chopNonneg_cases d hd with ⟨h, _⟩ | ⟨h, _⟩ <;> rw [h] <;> omega

theorem mulRaw_self_nonneg (x : Int) : 0 ≤ mulRaw x x :=
  chop_nonneg _ (mul_self_nonneg x)

theorem quoRaw_nonneg (d g : Int) (hd : 0 ≤ d) (hg : 0 ≤ g) : 0 ≤ quoRaw d g := by
  unfold quoRaw
  apply chop_nonneg
  apply Int.tdiv_nonneg _ hg
  exact mul_nonneg hd (by decide)

/-- The variance of `StandardDeviation` is never negative: every rounded square
is non-negative. -/
theorem varianceOf_nonneg (l : List LegacyDec) : 0 ≤ varianceOf l := by
  unfold varianceOf
  apply Int.tdiv_nonneg
  · apply List.sum_nonneg
    intro x hx
    simp only [List.mem_map] at hx
    obtain ⟨p, _, rfl⟩ := hx
    exact mulRaw_self_nonneg _
  · exact Int.ofNat_nonneg _

theorem powerRaw_one (g : Int) : powerRaw g 1 = g := by
  have h : powerLoop 64 1 g precisionReuse = (g, precisionReuse) := rfl
  unfold powerRaw
  rw [if_neg (by decide)]
  simp only [h]
  have := mulRaw_one g
  rwa [one_mul] at this

/-- One Newton step for the square root keeps a guess of at least one unit at
least one unit. -/
theorem newton_step (g q : Int) (hg : 1 ≤ g) (hq : 0 ≤ q) : 1 ≤ g + (q - g).tdiv 2 := by
  by_cases h : 0 ≤ q - g
  · rw [Int.tdiv_eq_ediv h (by decide)]
    omega
  · have h2 : q - g = - (g - q) := by ring
    rw [h2, Int.neg_tdiv, Int.tdiv_eq_ediv (by omega) (by decide)]
    omega

/-- The Newton iteration for the square root of a non-negative number, started
at a guess of at least one unit, ends at a guess of at least one unit, whatever
the iteration bound. -/
theorem approxRootLoop_pos (d : Int) (hd : 0 ≤ d) :
    ∀ (bound : Nat) (guess delta : Int), 1 ≤ guess →
      1 ≤ approxRootLoop d 2 bound guess delta := by
  intro bound
  induction bound with
  | zero =>
    intro guess delta hg
    exact hg
  | succ n ih =>
    intro guess delta hg
    unfold approxRootLoop
    split
    · have hne : ¬ guess = 0 := by omega
      simp only [show (2 : Nat) - 1 = 1 from rfl, powerRaw_one, if_neg hne]
      apply ih
      exact newton_step guess (quoRaw d guess) hg (quoRaw_nonneg d guess hd (by omega))
    · exact hg

theorem approxRootNonneg_nonneg (d : Int) (hd : 0 ≤ d) : 0 ≤ approxRootNonneg d 2 := by
  unfold approxRootNonneg
  split
  · exact hd
  · rw [if_neg (by decide)]
    have := approxRootLoop_pos d hd maxApproxRootIterations precisionReuse precisionReuse
      (by decide)
    omega

theorem approxRootRaw_nonneg (d : Int) (hd : 0 ≤ d) : 0 ≤ approxRootRaw d 2 := by
  unfold approxRootRaw
  rw [if_neg (by omega)]
  exact approxRootNonneg_nonneg d hd

/-- A list whose prices are not all set makes `StandardDeviation` panic or fail
on the length, so a success on three or more prices means all are set. -/
theorem pricesSet_of_ok (l : List LegacyDec) (deviation mean : LegacyDec)
    (h3 : 3 ≤ l.length) (h : StandardDeviation l = Except.ok (deviation, mean, none)) :
    pricesSet l := by
  rw [StandardDeviation_eq, if_neg (by omega)] at h
  by_cases hall : l.all (fun price => price.i.isSome) = true
  · intro price hp
    have := (List.all_eq_true.mp hall) price hp
    rw [isNil_false_iff]
    exact Option.isSome_iff_exists.mp this
  · rw [if_neg hall] at h
    exact absurd h (by simp)

/-- C26: for every list of at least three prices on which `StandardDeviation`
succeeds, the returned deviation is non-negative: the variance handed to
`ApproxSqrt` is non-negative, and the Newton iteration of `ApproxSqrt`, started
at the guess 1, yields no negative value on a non-negative input, whatever the
bound on the number of iterations (100 in particular). -/
theorem StandardDeviation_deviation_nonneg :
    (∀ (l : List LegacyDec) (deviation mean : LegacyDec), 3 ≤ l.length →
      StandardDeviation l = Except.ok (deviation, mean, none) →
      0 ≤ varianceOf l ∧
      deviation = LegacyDec.ofRaw (approxRootRaw (varianceOf l) 2) ∧
      0 ≤ deviation.raw ∧ deviation.IsNegative = Except.ok false) ∧
    (∀ (d : Int) (bound : Nat), 0 ≤ d →
      0 ≤ approxRootLoop d 2 bound precisionReuse precisionReuse) ∧
    (∀ d : Int, 0 ≤ d →
      (LegacyDec.ofRaw d).ApproxSqrt.2 = none ∧ 0 ≤ (LegacyDec.ofRaw d).ApproxSqrt.1.raw) := by
  refine ⟨?_, ?_, ?_⟩
  · intro l deviation mean h3 h
    have hset := pricesSet_of_ok l deviation mean h3 h
    rw [StandardDeviation_of_set l h3 hset] at h
    have hdev : deviation = LegacyDec.ofRaw (approxRootRaw (varianceOf l) 2) := by
      injection h with h
      injection h with h1 h2
      exact h1.symm
    have hnn := approxRootRaw_nonneg (varianceOf l) (varianceOf_nonneg l)
    refine ⟨varianceOf_nonneg l, hdev, ?_, ?_⟩
    · rw [hdev]
      exact hnn
    · rw [hdev]
      exact isNegative_ofRaw hnn
  · intro d bound hd
    have := approxRootLoop_pos d hd bound precisionReuse precisionReuse (by decide)
    omega
  · intro d hd
    exact ⟨rfl, approxRootRaw_nonneg d hd⟩

/-- Witness of C26: the prices 28.21, 28.23, 28.40 with the deviation
0.085244745683629475; the root of 2 after at most 100 iterations; the root
of 2 by `ApproxSqrt`. -/
theorem StandardDeviation_deviation_nonneg_witness :
    (0 ≤ varianceOf
        [LegacyDec.ofRaw 28210000000000000000, LegacyDec.ofRaw 28230000000000000000,
         LegacyDec.ofRaw 28400000000000000000] ∧
      LegacyDec.ofRaw 85244745683629475 = LegacyDec.ofRaw (approxRootRaw (varianceOf
        [LegacyDec.ofRaw 28210000000000000000, LegacyDec.ofRaw 28230000000000000000,
         LegacyDec.ofRaw 28400000000000000000]) 2) ∧
      0 ≤ (LegacyDec.ofRaw 85244745683629475).raw ∧
      (LegacyDec.ofRaw 85244745683629475).IsNegative = Except.ok false) ∧
    0 ≤ approxRootLoop 2000000000000000000 2 100 precisionReuse precisionReuse ∧
    ((LegacyDec.ofRaw 2000000000000000000).ApproxSqrt.2 = none ∧
      0 ≤ (LegacyDec.ofRaw 2000000000000000000).ApproxSqrt.1.raw) :=
  ⟨StandardDeviation_deviation_nonneg.1
      [LegacyDec.ofRaw 28210000000000000000, LegacyDec.ofRaw 28230000000000000000,
       LegacyDec.ofRaw 28400000000000000000]
      (LegacyDec.ofRaw 85244745683629475) (LegacyDec.ofRaw 28280000000000000000)
      (by decide) (by rfl),
   StandardDeviation_deviation_nonneg.2.1 2000000000000000000 100 (by decide),
   StandardDeviation_deviation_nonneg.2.2 2000000000000000000 (by decide)⟩

/-! ## Theorems on `SetWeight` -/

theorem lookup_map_replace (rates : List (String × TickerPrice)) (key name : String)
    (ticker : TickerPrice) :
    (rates.map (fun entry => if entry.1 = key then (entry.1, ticker) else entry)).lookup name =
      if name = key then (rates.lookup name).map (fun _ => ticker) else rates.lookup name := by
  induction rates with
  | nil => simp
  | cons entry rest ih =>
    obtain ⟨k, v⟩ := entry
    simp only [List.map_cons, List.lookup_cons]
    by_cases hk : k = key
    · subst hk
      by_cases hn : name = k
      · subst hn
        simp
      · have hb : (name == k) = false := by simpa using hn
        simp only [if_true, hb, if_neg hn, List.lookup_cons]
        rw [ih, if_neg hn]
    · by_cases hn : name = k
      · subst hn
        have hne : ¬ name = key := hk
        simp [hk, hne]
      · have hb : (name == k) = false := by simpa using hn
        simp only [if_neg hk, hb, List.lookup_cons]
        exact ih

/-- One step of the loop of `SetWeight` keeps the keys of the rates. -/
theorem setWeightStep_keys (rates : List (String × TickerPrice)) (entry : String × LegacyDec) :
    (setWeightStep rates entry).map Prod.fst = rates.map Prod.fst := by
  unfold setWeightStep
  cases h : rates.lookup entry.1 with
  | none => rfl
  | some ticker =>
    simp only [mapSet, h, Option.isSome_some, if_true, List.map_map]
    apply List.map_congr_left
    intro e _
    simp only [Function.comp]
    split <;> rfl

/-- One step of the loop of `SetWeight`, seen through a lookup: the rate of the
provider of the entry gets the volume of the entry, every other rate stays. -/
theorem setWeightStep_lookup (rates : List (String × TickerPrice)) (entry : String × LegacyDec)
    (name : String) :
    (setWeightStep rates entry).lookup name =
      if name = entry.1 then
        (rates.lookup name).map (fun ticker => { ticker with Volume := entry.2 })
      else rates.lookup name := by
  unfold setWeightStep
  cases h : rates.lookup entry.1 with
  | none =>
    by_cases hn : name = entry.1
    · rw [if_pos hn, hn, h]
      rfl
    · rw [if_neg hn]
  | some ticker =>
    simp only [mapSet, h, Option.isSome_some, if_true]
    rw [lookup_map_replace]
    by_cases hn : name = entry.1
    · rw [if_pos hn, if_pos hn, hn, h]
      rfl
    · rw [if_neg hn, if_neg hn]

theorem foldl_setWeightStep_keys (weights : List (String × LegacyDec)) :
    ∀ rates : List (String × TickerPrice),
      (weights.foldl setWeightStep rates).map Prod.fst = rates.map Prod.fst := by
  induction weights with
  | nil =>
    intro rates
    rfl
  | cons entry rest ih =>
    intro rates
    rw [List.foldl_cons, ih, setWeightStep_keys]

theorem lookup_none_of_not_key {α : Type} (l : List (String × α)) (name : String)
    (h : name ∉ l.map Prod.fst) : l.lookup name = none := by
  induction l with
  | nil => rfl
  | cons entry rest ih =>
    obtain ⟨k, v⟩ := entry
    simp only [List.map_cons, List.mem_cons, not_or] at h
    have hb : (name == k) = false := by simpa using h.1
    rw [List.lookup_cons, hb]
    exact ih h.2

/-- The loop of `SetWeight` over a map of weights, seen through a lookup: a rate
whose provider has a weight gets that weight as its volume, every other rate
stays, and no rate appears or disappears. -/
theorem foldl_setWeightStep_lookup (weights : List (String × LegacyDec))
    (hw : (weights.map Prod.fst).Nodup) :
    ∀ (rates : List (String × TickerPrice)) (name : String),
      (weights.foldl setWeightStep rates).lookup name =
        (rates.lookup name).map (fun ticker =>
          { ticker with Volume := (weights.lookup name).getD ticker.Volume }) := by
  induction weights with
  | nil =>
    intro rates name
    rw [List.foldl_nil]
    cases rates.lookup name <;> rfl
  | cons entry rest ih =>
    intro rates name
    obtain ⟨k, v⟩ := entry
    simp only [List.map_cons, List.nodup_cons] at hw
    rw [List.foldl_cons, ih hw.2, setWeightStep_lookup, List.lookup_cons]
    by_cases hn : name = k
    · subst hn
      rw [if_pos rfl, lookup_none_of_not_key rest name hw.1]
      have hb : (name == name) = true := by simp
      rw [hb]
      cases rates.lookup name <;> rfl
    · have hb : (name == k) = false := by simpa using hn
      rw [if_neg hn, hb]

/-- C27: `SetWeight(rates, weight)` returns no error and a map with exactly the
provider keys of `rates`. A rate whose provider has an entry in `weight.Weight`
gets that entry as its `Volume`, a rate without one keeps its `Volume`, and
`Price` and `Time` never change. A provider named only in `weight.Weight` is not
added, and with an empty `weight.Weight` the result is `rates`. -/
theorem SetWeight_effect (rates : List (String × TickerPrice)) (weight : ProviderWeight)
    (hw : (weight.Weight.map Prod.fst).Nodup) :
    (SetWeight rates weight).2 = none ∧
    (SetWeight rates weight).1.map Prod.fst = rates.map Prod.fst ∧
    (∀ (name : String) (ticker : TickerPrice) (volume : LegacyDec),
      rates.lookup name = some ticker → weight.Weight.lookup name = some volume →
      (SetWeight rates weight).1.lookup name =
        some { Price := ticker.Price, Volume := volume, Time := ticker.Time }) ∧
    (∀ (name : String) (ticker : TickerPrice),
      rates.lookup name = some ticker → weight.Weight.lookup name = none →
      (SetWeight rates weight).1.lookup name = some ticker) ∧
    (∀ name : String, rates.lookup name = none →
      (SetWeight rates weight).1.lookup name = none) ∧
    (weight.Weight = [] → (SetWeight rates weight).1 = rates) := by
  have hres : (SetWeight rates weight).1 = weight.Weight.foldl setWeightStep rates := by
    unfold SetWeight
    split
    · rename_i h
      rw [List.length_eq_zero.mp h]
      rfl
    · rfl
  refine ⟨?_, ?_, ?_, ?_, ?_, ?_⟩
  · unfold SetWeight
    split <;> rfl
  · rw [hres]
    exact foldl_setWeightStep_keys _ _
  · intro name ticker volume hr hv
    rw [hres, foldl_setWeightStep_lookup _ hw, hr, hv]
    rfl
  · intro name ticker hr hv
    rw [hres, foldl_setWeightStep_lookup _ hw, hr, hv]
    rfl
  · intro name hr
    rw [hres, foldl_setWeightStep_lookup _ hw, hr]
    rfl
  · intro h
    rw [hres, h]
    rfl

/-- Witness of C27: rates of Binance and Kraken, weights for Okx and Kraken: the
volume of Kraken becomes 2, the rate of Binance stays and Okx is not added. -/
theorem SetWeight_effect_witness :
    (weightExample.Weight.map Prod.fst).Nodup ∧
    SetWeight weightRates weightExample =
      ([("binance",
          ⟨LegacyDec.ofRaw 28210000000000000000, LegacyDec.ofRaw 5000000000000000000, ⟨7⟩⟩),
        ("kraken",
          ⟨LegacyDec.ofRaw 28230000000000000000, LegacyDec.ofRaw 2000000000000000000, ⟨8⟩⟩)],
       none) ∧
    (SetWeight weightRates weightExample).1.map Prod.fst = weightRates.map Prod.fst ∧
    (SetWeight weightRates weightExample).1.lookup "okx" = none :=
  ⟨by decide, rfl,
   (SetWeight_effect weightRates weightExample (by decide)).2.1,
   (SetWeight_effect weightRates weightExample (by decide)).2.2.2.2.1 "okx" rfl⟩

end PriceFeeder
